import Mathlib

/-
Verification development for the cgpm CrossCat engine (hiddenswitch/cgpm).

The Python sources are shallowly embedded in Lean 4:

* Python dicts (which preserve insertion order) are embedded as association
  lists `List (Nat × beta)` with update-in-place / append-on-fresh-key
  semantics, so that structural equality of the embedding matches structural
  equality of the Python objects and extensional equality (`alistEquiv`)
  matches Python dict equality `==`.
* Floating point numbers holding data values, sufficient statistics and
  probabilities are embedded as exact rationals; the missing-value sentinel
  `float('nan')` is embedded by `Option` (`none` = NaN).  Log-space float
  computations (`log`, `logsumexp`, `log_normalize`) are embedded by exact
  nonnegative rational densities (0 standing for the float `-inf`), with
  `Real.log` applied at the boundary for claims stated about log values.
* Code of the repository that lives outside `src/` (the `Dim` dispatcher,
  the `Crp` primitive, the importance network) is modelled from the spec;
  every such definition carries a doc comment starting `Modelled from the
  spec:`.
-/

set_option linter.unusedVariables false

namespace Cgpm

/-! ## Association lists: the embedding of Python dicts -/

/-- Lookup in an insertion-ordered association list (Python `d.get(k)`). -/
def alistGet {β : Type} (l : List (Nat × β)) (k : Nat) : Option β :=
  match l with
  | [] => none
  | (k1, v) :: t => if k1 = k then some v else alistGet t k

/-- Python `d[k] = v`: update in place when the key exists, else append. -/
def alistInsert {β : Type} (l : List (Nat × β)) (k : Nat) (v : β) :
    List (Nat × β) :=
  match l with
  | [] => [(k, v)]
  | (k1, v1) :: t =>
      if k1 = k then (k1, v) :: t else (k1, v1) :: alistInsert t k v

/-- Python `del d[k]` (as a total no-op when the key is absent). -/
def alistErase {β : Type} (l : List (Nat × β)) (k : Nat) :
    List (Nat × β) :=
  match l with
  | [] => []
  | (k1, v1) :: t => if k1 = k then t else (k1, v1) :: alistErase t k

/-- The keys of an association list, in insertion order. -/
def alistKeys {β : Type} (l : List (Nat × β)) : List Nat := l.map Prod.fst

/-- Python dict equality `==`: same keys and same value at every key. -/
def alistEquiv {β : Type} [BEq β] (l1 l2 : List (Nat × β)) : Bool :=
  l1.all (fun p => alistGet l2 p.1 == some p.2) &&
    l2.all (fun p => alistGet l1 p.1 == some p.2)

/-- No key occurs twice (every reachable Python dict satisfies this). -/
def NodupKeys {β : Type} (l : List (Nat × β)) : Prop :=
  (alistKeys l).Nodup

theorem alistGet_eq_none {β : Type} (l : List (Nat × β)) (k : Nat)
    (h : k ∉ alistKeys l) : alistGet l k = none := by
  induction l with
  | nil => rfl
  | cons p t ih =>
      obtain ⟨k1, v1⟩ := p
      simp only [alistKeys, List.map_cons, List.mem_cons] at h
      push_neg at h
      simp only [alistGet, if_neg (Ne.symm h.1)]
      exact ih (by simpa [alistKeys] using h.2)

theorem alistInsert_of_not_mem {β : Type} (l : List (Nat × β)) (k : Nat)
    (v : β) (h : k ∉ alistKeys l) : alistInsert l k v = l ++ [(k, v)] := by
  induction l with
  | nil => rfl
  | cons p t ih =>
      obtain ⟨k1, v1⟩ := p
      simp only [alistKeys, List.map_cons, List.mem_cons] at h
      push_neg at h
      simp only [alistInsert, if_neg (Ne.symm h.1), List.cons_append]
      rw [ih (by simpa [alistKeys] using h.2)]

theorem alistErase_append_singleton {β : Type} (l : List (Nat × β)) (k : Nat)
    (v : β) (h : k ∉ alistKeys l) : alistErase (l ++ [(k, v)]) k = l := by
  induction l with
  | nil => simp [alistErase]
  | cons p t ih =>
      obtain ⟨k1, v1⟩ := p
      simp only [alistKeys, List.map_cons, List.mem_cons] at h
      push_neg at h
      simp only [List.cons_append, alistErase, if_neg (Ne.symm h.1)]
      exact congrArg _ (ih (by simpa [alistKeys] using h.2))

theorem alistGet_insert_self {β : Type} (l : List (Nat × β)) (k : Nat)
    (v : β) : alistGet (alistInsert l k v) k = some v := by
  induction l with
  | nil => simp [alistInsert, alistGet]
  | cons p t ih =>
      obtain ⟨k1, v1⟩ := p
      by_cases h : k1 = k
      · simp [alistInsert, alistGet, h]
      · simp [alistInsert, alistGet, h, ih]

theorem alistGet_insert_ne {β : Type} (l : List (Nat × β)) (k j : Nat)
    (v : β) (h : k ≠ j) : alistGet (alistInsert l k v) j = alistGet l j := by
  induction l with
  | nil =>
      simp only [alistInsert, alistGet, if_neg h]
  | cons p t ih =>
      obtain ⟨k1, v1⟩ := p
      by_cases h1 : k1 = k
      · subst h1
        simp [alistInsert, alistGet, h]
      · by_cases h2 : k1 = j
        · subst h2
          simp [alistInsert, alistGet, h1, Ne.symm h]
        · simp [alistInsert, alistGet, h1, h2, ih]

theorem alistInsert_insert_restore {β : Type} (l : List (Nat × β)) (k : Nat)
    (v w : β) (h : alistGet l k = some w) :
    alistInsert (alistInsert l k v) k w = l := by
  induction l with
  | nil => simp [alistGet] at h
  | cons p t ih =>
      obtain ⟨k1, v1⟩ := p
      by_cases h1 : k1 = k
      · subst h1
        have hw : v1 = w := by simpa [alistGet] using h
        subst hw
        simp [alistInsert]
      · simp only [alistGet, if_neg h1] at h
        simp [alistInsert, h1, ih h]

theorem alistErase_insert_fresh {β : Type} (l : List (Nat × β)) (k : Nat)
    (v : β) (h : k ∉ alistKeys l) : alistErase (alistInsert l k v) k = l := by
  rw [alistInsert_of_not_mem l k v h]
  exact alistErase_append_singleton l k v h

theorem alistErase_of_not_mem {β : Type} (l : List (Nat × β)) (k : Nat)
    (h : k ∉ alistKeys l) : alistErase l k = l := by
  induction l with
  | nil => rfl
  | cons p t ih =>
      obtain ⟨k1, v1⟩ := p
      simp only [alistKeys, List.map_cons, List.mem_cons] at h
      push_neg at h
      simp only [alistErase, if_neg (Ne.symm h.1)]
      exact congrArg _ (ih (by simpa [alistKeys] using h.2))

theorem alistGet_mem_of_some {β : Type} (l : List (Nat × β)) (k : Nat)
    (v : β) (h : alistGet l k = some v) : (k, v) ∈ l := by
  induction l with
  | nil => simp [alistGet] at h
  | cons p t ih =>
      obtain ⟨k1, v1⟩ := p
      by_cases h1 : k1 = k
      · subst h1
        have h2 : v1 = v := by simpa [alistGet] using h
        subst h2
        exact List.mem_cons_self _ _
      · simp only [alistGet, if_neg h1] at h
        exact List.mem_cons_of_mem _ (ih h)

theorem alistGet_isSome_of_mem {β : Type} (l : List (Nat × β)) (k : Nat)
    (h : k ∈ alistKeys l) : ∃ v, alistGet l k = some v := by
  induction l with
  | nil => simp [alistKeys] at h
  | cons p t ih =>
      obtain ⟨k1, v1⟩ := p
      by_cases h1 : k1 = k
      · exact ⟨v1, by simp [alistGet, h1]⟩
      · simp only [alistKeys, List.map_cons, List.mem_cons] at h
        rcases h with h | h
        · exact absurd h.symm h1
        · obtain ⟨v, hv⟩ := ih (by simpa [alistKeys] using h)
          exact ⟨v, by simp [alistGet, h1, hv]⟩

theorem alistGet_append {β : Type} (l1 l2 : List (Nat × β)) (k : Nat) :
    alistGet (l1 ++ l2) k =
      match alistGet l1 k with
      | some v => some v
      | none => alistGet l2 k := by
  induction l1 with
  | nil => simp [alistGet]
  | cons p t ih =>
      obtain ⟨k1, v1⟩ := p
      by_cases h1 : k1 = k <;> simp [alistGet, h1, ih]

theorem alistKeys_insert {β : Type} (l : List (Nat × β)) (k : Nat) (v : β) :
    alistKeys (alistInsert l k v) =
      if k ∈ alistKeys l then alistKeys l else alistKeys l ++ [k] := by
  induction l with
  | nil => simp [alistInsert, alistKeys]
  | cons p t ih =>
      obtain ⟨k1, v1⟩ := p
      by_cases h1 : k1 = k
      · subst h1
        simp [alistInsert, alistKeys]
      · simp only [alistInsert, if_neg h1]
        have hk : alistKeys ((k1, v1) :: alistInsert t k v) =
            k1 :: alistKeys (alistInsert t k v) := rfl
        have hk2 : alistKeys ((k1, v1) :: t) = k1 :: alistKeys t := rfl
        rw [hk, hk2, ih]
        by_cases h2 : k ∈ alistKeys t
        · rw [if_pos h2, if_pos (List.mem_cons_of_mem _ h2)]
        · have hn : k ∉ k1 :: alistKeys t := by
            intro hc
            rcases List.mem_cons.mp hc with h | h
            · exact h1 h.symm
            · exact h2 h
          rw [if_neg h2, if_neg hn, List.cons_append]

theorem alistKeys_map_snd {β γ : Type} (l : List (Nat × β))
    (f : Nat → β → γ) :
    alistKeys (l.map (fun p => (p.1, f p.1 p.2))) = alistKeys l := by
  induction l with
  | nil => rfl
  | cons p t ih => simp [alistKeys]

theorem alistGet_map_snd {β γ : Type} (l : List (Nat × β))
    (f : Nat → β → γ) (k : Nat) :
    alistGet (l.map (fun p => (p.1, f p.1 p.2))) k =
      (alistGet l k).map (f k) := by
  induction l with
  | nil => rfl
  | cons p t ih =>
      obtain ⟨k1, v1⟩ := p
      by_cases h1 : k1 = k
      · subst h1; simp [alistGet]
      · simp [alistGet, h1, ih]

/-! ## src/src/utils/general.py : the CRP Gibbs proposal weights (claim C1) -/

/-- The candidate-by-candidate proposal weights of `logp_crp_gibbs`
(src/src/utils/general.py lines 71-82), before the final `log`: table counts
`Nk` are embedded as a list indexed by cluster id (the `xrange(len(Nk))`
branch of the source), `Z` is the assignment map, `i` the transitioned item,
`alpha` the concentration and `m` the number of auxiliary tables.  The source
computes `log` of each of these weights; the weights themselves are exact
rationals. -/
def logpCrpGibbsWeights (Nk : List ℕ) (Z : ℕ → ℕ) (i : ℕ) (alpha : ℚ)
    (m : ℕ) : List ℚ :=
  let singleton : Bool := Nk.getD (Z i) 0 == 1
  let mAux : ℕ := if singleton then m - 1 else m
  let pTableAux : ℚ := alpha / m
  let pTable : ℕ → ℚ := fun t =>
    if t = Z i then
      (if singleton then pTableAux else (Nk.getD (Z i) 0 : ℚ) - 1)
    else (Nk.getD t 0 : ℚ)
  ((List.range Nk.length).map pTable) ++ List.replicate mAux pTableAux

/-- `logp_crp_gibbs` itself: the log of each proposal weight, exactly as the
list comprehension in the source returns it. -/
noncomputable def logpCrpGibbs (Nk : List ℕ) (Z : ℕ → ℕ) (i : ℕ) (alpha : ℚ)
    (m : ℕ) : List ℝ :=
  (logpCrpGibbsWeights Nk Z i alpha m).map (fun q => Real.log (q : ℝ))

/-- The weight list claimed by the spec sentence: the occupancy of each
existing cluster (minus one for the current cluster of item `i`), followed by
`m` auxiliary entries of weight `alpha / m`. -/
def logpCrpGibbsClaimWeights (Nk : List ℕ) (Z : ℕ → ℕ) (i : ℕ) (alpha : ℚ)
    (m : ℕ) : List ℚ :=
  ((List.range Nk.length).map
    (fun t => (Nk.getD t 0 : ℚ) - if t = Z i then 1 else 0)) ++
    List.replicate m (alpha / m)

/-- The log-weight list claimed by the spec sentence. -/
noncomputable def logpCrpGibbsClaim (Nk : List ℕ) (Z : ℕ → ℕ) (i : ℕ)
    (alpha : ℚ) (m : ℕ) : List ℝ :=
  (logpCrpGibbsClaimWeights Nk Z i alpha m).map (fun q => Real.log (q : ℝ))

/-- The weight list `logp_crp_gibbs` produces when item i sits alone at its
table: the current table is scored like a fresh table (weight `alpha / m`)
and only `m - 1` auxiliary entries are appended. -/
def logpCrpGibbsSingletonWeights (Nk : List ℕ) (Z : ℕ → ℕ) (i : ℕ)
    (alpha : ℚ) (m : ℕ) : List ℚ :=
  ((List.range Nk.length).map
    (fun t => if t = Z i then alpha / m else (Nk.getD t 0 : ℚ))) ++
    List.replicate (m - 1) (alpha / m)

/-- C1, counterexample: with one singly-occupied table (`Nk = [1]`), item 0
assigned to it, `alpha = 1` and `m = 1` auxiliary table, `logp_crp_gibbs`
does not return the list the claim describes: the code emits one entry
(the singleton table re-scored as an auxiliary table) where the claim
demands two (log of occupancy-minus-one plus one auxiliary entry). -/
theorem logp_crp_gibbs_claim_counterexample :
    logpCrpGibbs [1] (fun _ => 0) 0 1 1 ≠
      logpCrpGibbsClaim [1] (fun _ => 0) 0 1 1 := by
  intro h
  have hlen := congrArg List.length h
  have h1 : (logpCrpGibbs [1] (fun _ => 0) 0 1 1).length = 1 := rfl
  have h2 : (logpCrpGibbsClaim [1] (fun _ => 0) 0 1 1).length = 2 := rfl
  rw [h1, h2] at hlen
  exact absurd hlen (by decide)

/-- C1, amended: when the occupancy of the current table of item i is not 1,
`logp_crp_gibbs` returns exactly the claimed list (log of occupancy, minus
one at the current table, plus `m` entries `log(alpha/m)`); when item i is a
singleton, the current table's entry is `log(alpha/m)` and only `m - 1`
auxiliary entries are appended. -/
theorem logp_crp_gibbs_amended (Nk : List ℕ) (Z : ℕ → ℕ) (i : ℕ)
    (alpha : ℚ) (m : ℕ) :
    (Nk.getD (Z i) 0 ≠ 1 →
      logpCrpGibbs Nk Z i alpha m = logpCrpGibbsClaim Nk Z i alpha m) ∧
    (Nk.getD (Z i) 0 = 1 →
      logpCrpGibbs Nk Z i alpha m =
        (logpCrpGibbsSingletonWeights Nk Z i alpha m).map
          (fun q => Real.log (q : ℝ))) := by
  constructor
  · intro h
    have hsing : (Nk.getD (Z i) 0 == 1) = false := by
      simpa using h
    have hw : logpCrpGibbsWeights Nk Z i alpha m =
        logpCrpGibbsClaimWeights Nk Z i alpha m := by
      unfold logpCrpGibbsWeights logpCrpGibbsClaimWeights
      simp only [hsing, Bool.false_eq_true, if_false]
      congr 1
      apply List.map_congr_left
      intro t ht
      by_cases h2 : t = Z i
      · subst h2; simp
      · simp [h2]
    unfold logpCrpGibbs logpCrpGibbsClaim
    rw [hw]
  · intro h
    have hsing : (Nk.getD (Z i) 0 == 1) = true := by
      simpa using h
    have hw : logpCrpGibbsWeights Nk Z i alpha m =
        logpCrpGibbsSingletonWeights Nk Z i alpha m := by
      unfold logpCrpGibbsWeights logpCrpGibbsSingletonWeights
      simp only [hsing, if_true]
    unfold logpCrpGibbs
    rw [hw]

/-- C1 witness: the amended statement evaluated at a doubly-occupied current
table (`Nk = [2]`). -/
theorem logp_crp_gibbs_amended_witness :
    logpCrpGibbs [2] (fun _ => 0) 0 1 1 =
      logpCrpGibbsClaim [2] (fun _ => 0) 0 1 1 :=
  (logp_crp_gibbs_amended [2] (fun _ => 0) 0 1 1).1 (by decide)

/-! ## Data values

Dataset cells are Python floats with `float('nan')` as the missing-value
sentinel; they are embedded as `Option ℚ` (`none` = NaN).  `pyInt` is
Python `int()` (truncation toward zero), used by the Binomial density. -/

/-- Python `int(x)` on a float: truncation toward zero. -/
def pyInt (q : ℚ) : ℤ := q.num / (q.den : ℤ)

/-! ## gpmcc/dists/binomial.py : the Beta-Bernoulli column model -/

/-- Sufficient statistics of one Beta-Bernoulli cluster: the number of
incorporated (non-missing) values `N` and their sum `x_sum` (named `k` in
gpmcc/dists/binomial.py, `x_sum` in the bernoulli model the tests use). -/
structure BernSuff where
  N : ℕ
  x_sum : ℚ
deriving DecidableEq

/-- A cluster model with nothing incorporated (the auxiliary model used for
a fresh cluster). -/
def emptySuff : BernSuff := ⟨0, 0⟩

/-- `insert_element`: `N += 1; k += x`. -/
def suffIncorporate (s : BernSuff) (x : ℚ) : BernSuff :=
  ⟨s.N + 1, s.x_sum + x⟩

/-- `remove_element`: `N -= 1; k -= x`. -/
def suffUnincorporate (s : BernSuff) (x : ℚ) : BernSuff :=
  ⟨s.N - 1, s.x_sum - x⟩

/-- `Binomial.calc_predictive_logp` (gpmcc/dists/binomial.py lines 80-88),
embedded at density level: the returned float is the log of this exact
rational, with density 0 standing for the float `-inf` returned when
`int(x) not in [0, 1]`. -/
def calcPredictiveDensity (x : ℚ) (N : ℕ) (ksum alpha beta : ℚ) : ℚ :=
  if pyInt x = 0 ∨ pyInt x = 1 then
    (if x = 1 then (ksum + alpha) / ((N : ℚ) + alpha + beta)
     else ((N : ℚ) - ksum + beta) / ((N : ℚ) + alpha + beta))
  else 0

/-! ## cgpm/mixtures/dim.py (not under src/): the per-column clustered model

Modelled from the spec: a Dim "owns one column-model instance per
row-cluster id; routes incorporate/unincorporate/logpdf/simulate to the
instance selected by a supplied cluster id", with missing (NaN) members
counting toward occupancy but having "no value inside the model".  The
embedding instantiates the column-model capability contract at the
Beta-Bernoulli family above (the one concrete family under src/). -/

/-- The state of one Dim: the Beta prior hyperparameters and the map of
live cluster id to cluster sufficient statistics (`dim.clusters`). -/
structure DimState where
  alpha : ℚ
  beta : ℚ
  clusters : List (Nat × BernSuff)
deriving DecidableEq

/-- Modelled from the spec: `Dim.incorporate` of the value of one row into
cluster `k`.  A missing value only affects occupancy bookkeeping (`dim.Zi`),
not the cluster models; a present value is routed to cluster k's model,
created on first member. -/
def dimIncorporate (d : DimState) (x : Option ℚ) (k : ℕ) : DimState :=
  match x with
  | none => d
  | some v =>
      let s1 := suffIncorporate ((alistGet d.clusters k).getD emptySuff) v
      { d with clusters := alistInsert d.clusters k s1 }

/-- Modelled from the spec: `Dim.unincorporate` of the value of one row from
cluster `k` (on reachable states the cluster entry exists whenever the value
is present). -/
def dimUnincorporate (d : DimState) (x : Option ℚ) (k : ℕ) : DimState :=
  match x with
  | none => d
  | some v =>
      let s1 := suffUnincorporate ((alistGet d.clusters k).getD emptySuff) v
      { d with clusters := alistInsert d.clusters k s1 }

/-- Modelled from the spec: `Dim.logpdf` of a cell value in cluster `k`
(`self.clusters.get(k, self.aux_model)` then the predictive), at density
level; a missing value contributes density 1 (log 0). -/
def dimLogpdfDensity (d : DimState) (x : Option ℚ) (k : ℕ) : ℚ :=
  match x with
  | none => 1
  | some v =>
      let s := (alistGet d.clusters k).getD emptySuff
      calcPredictiveDensity v s.N s.x_sum d.alpha d.beta

/-! ## src/src/mixtures/view.py : the row-clustering engine -/

/-- The state of one View: the row CRP concentration `alpha`
(`crp.hypers['alpha']`), the row partition `Zr` (`crp.clusters[0].data`),
the table occupancies `counts` (`crp.clusters[0].counts`) and the Dims keyed
by column. -/
structure ViewState where
  alpha : ℚ
  Zr : List (Nat × Nat)
  counts : List (Nat × Nat)
  dims : List (Nat × DimState)
deriving DecidableEq

/-- The dataset: column id to list of cells (`state.X` / the `X` a View
shares with its State). -/
abbrev Dataset : Type := List (Nat × List (Option ℚ))

/-- The cell `X[c][rowid]`. -/
def cellValue (X : Dataset) (c rowid : ℕ) : Option ℚ :=
  (((alistGet X c).getD []).getD rowid none)

/-- Modelled from the spec: `Crp.incorporate` — record the assignment and
increment the occupancy of table `k` (created on first member). -/
def crpIncorporate (v : ViewState) (rowid k : ℕ) : ViewState :=
  { v with
      Zr := alistInsert v.Zr rowid k,
      counts := alistInsert v.counts k (((alistGet v.counts k).getD 0) + 1) }

/-- Modelled from the spec: `Crp.unincorporate` — drop the assignment and
decrement the occupancy of the row's table, deleting the table on becoming
empty. -/
def crpUnincorporate (v : ViewState) (rowid : ℕ) : ViewState :=
  let k := (alistGet v.Zr rowid).getD 0
  let c := (alistGet v.counts k).getD 0
  { v with
      Zr := alistErase v.Zr rowid,
      counts :=
        if c ≤ 1 then alistErase v.counts k
        else alistInsert v.counts k (c - 1) }

/-- The raw incorporation step of `View.incorporate` (view.py lines
158-164): tell the row CRP, then each Dim in turn with the row's cell value
for that Dim's column. -/
def viewRawIncorporate (X : Dataset) (v : ViewState) (rowid k : ℕ) :
    ViewState :=
  let v1 := crpIncorporate v rowid k
  let dims1 :=
    v1.dims.map (fun p => (p.1, dimIncorporate p.2 (cellValue X p.1 rowid) k))
  { v1 with dims := dims1 }

/-- Modelled from the spec: `Crp.gibbs_tables(rowid, m)` — the candidate
set for a Gibbs transition: the live cluster ids in sorted order followed by
auxiliary fresh ids (one fewer when the row is a singleton, whose own table
doubles as an auxiliary candidate); `rowid = none` stands for a fresh
customer (`gibbs_tables(-1)`). -/
def gibbsTables (v : ViewState) (rowid : Option ℕ) (m : ℕ) : List ℕ :=
  let live := List.insertionSort (fun a b => a ≤ b) (alistKeys v.counts)
  let singleton :=
    match rowid with
    | none => false
    | some r =>
        (alistGet v.counts ((alistGet v.Zr r).getD 0)).getD 0 == 1
  let mAux := if singleton then m - 1 else m
  let t0 := (alistKeys v.counts).foldr max 0 + 1
  live ++ (List.range mAux).map (fun j => t0 + j)

/-- Modelled from the spec: `Crp.gibbs_logps(rowid, m)` — the CRP proposal
weight of each candidate table of `gibbs_tables`, at density level: the
occupancy of an existing table (minus one for the row's own table), and
`alpha/m` for each auxiliary table and for the row's own table when the row
is a singleton (the formula of `logp_crp_gibbs`). -/
def gibbsLogpsWeights (v : ViewState) (rowid : ℕ) (m : ℕ) : List ℚ :=
  let zr := (alistGet v.Zr rowid).getD 0
  let singleton := (alistGet v.counts zr).getD 0 == 1
  let pAux : ℚ := v.alpha / m
  (gibbsTables v (some rowid) m).map (fun t =>
    if t = zr then
      (if singleton then pAux else ((alistGet v.counts zr).getD 0 : ℚ) - 1)
    else
      match alistGet v.counts t with
      | some c => (c : ℚ)
      | none => pAux)

/-- `View._logpdf_cell_gibbs` (view.py lines 392-402), with the Dim state
threaded explicitly: when the row currently sits in the candidate cluster,
the Dim temporarily unincorporates it, scores predictively, and
reincorporates it; `cur` is the row's current cluster. -/
def logpdfCellGibbs (X : Dataset) (cur rowid c : ℕ) (d : DimState)
    (k : ℕ) : ℚ × DimState :=
  let x := cellValue X c rowid
  if cur = k then
    let d1 := dimUnincorporate d x k
    let lp := dimLogpdfDensity d1 x k
    let d2 := dimIncorporate d1 x k
    (lp, d2)
  else (dimLogpdfDensity d x k, d)

/-- `View._logpdf_cell_gibbs` applied to every Dim of the view in order,
threading the (temporarily mutated and restored) Dim states and multiplying
the densities (the source sums the logs). -/
def logpdfRowGibbsDims (X : Dataset) (cur rowid : ℕ)
    (dims : List (Nat × DimState)) (k : ℕ) : ℚ × List (Nat × DimState) :=
  match dims with
  | [] => (1, [])
  | (c, d) :: t =>
      let r1 := logpdfCellGibbs X cur rowid c d k
      let r2 := logpdfRowGibbsDims X cur rowid t k
      (r1.1 * r2.1, (c, r1.2) :: r2.2)

/-- `View._logpdf_row_gibbs` (view.py lines 388-390): the data density of
the row in each candidate cluster, threading the view state through the
per-cell churn. -/
def logpdfRowGibbs (X : Dataset) (v : ViewState) (rowid : ℕ)
    (K : List ℕ) : List ℚ × ViewState :=
  match K with
  | [] => ([], v)
  | k :: t =>
      let cur := (alistGet v.Zr rowid).getD 0
      let r1 := logpdfRowGibbsDims X cur rowid v.dims k
      let r2 := logpdfRowGibbs X { v with dims := r1.2 } rowid t
      (r1.1 :: r2.1, r2.2)

/-- `View.unincorporate` (view.py lines 169-178): remove the row from every
Dim, then from the row CRP; if its table became empty, delete that cluster
entry from every Dim. -/
def viewUnincorporate (X : Dataset) (v : ViewState) (rowid : ℕ) :
    ViewState :=
  let k := (alistGet v.Zr rowid).getD 0
  let dims1 :=
    v.dims.map (fun p => (p.1, dimUnincorporate p.2 (cellValue X p.1 rowid) k))
  let v2 := crpUnincorporate { v with dims := dims1 } rowid
  if (alistGet v2.counts k).isNone then
    let dims2 := v2.dims.map
      (fun p => (p.1, { p.2 with clusters := alistErase p.2.clusters k }))
    { v2 with dims := dims2 }
  else v2

/-- `View._migrate_row` (view.py lines 404-409): unincorporate the row, then
incorporate it into cluster `k` with its dataset values (the incorporate has
the cluster in its query, so no Gibbs step recurses). -/
def migrateRow (X : Dataset) (v : ViewState) (rowid k : ℕ) : ViewState :=
  viewRawIncorporate X (viewUnincorporate X v rowid) rowid k

/-- `View._gibbs_transition_row` (view.py lines 373-386): score every
candidate cluster by CRP weight times data density, draw a new cluster with
the caller-supplied categorical draw (`log_pflip` on `self.rng`), and
migrate the row if the draw differs from its current assignment. -/
def gibbsTransitionRow (X : Dataset) (v : ViewState) (rowid : ℕ)
    (draw : List ℚ → List ℕ → ℕ) : ViewState :=
  let K := gibbsTables v (some rowid) 1
  let logpCrp := gibbsLogpsWeights v rowid 1
  let r := logpdfRowGibbs X v rowid K
  let zb := draw (List.zipWith (fun a b => a * b) r.1 logpCrp) K
  if (alistGet r.2.Zr rowid).getD 0 ≠ zb then migrateRow X r.2 rowid zb
  else r.2

/-- `View.incorporate` (view.py lines 145-167): incorporate into the cluster
named in the query, or provisionally into cluster 0 followed by one Gibbs
row transition when the query does not name a cluster. -/
def viewIncorporate (X : Dataset) (v : ViewState) (rowid : ℕ)
    (kq : Option ℕ) (draw : List ℚ → List ℕ → ℕ) : ViewState :=
  let v1 := viewRawIncorporate X v rowid (kq.getD 0)
  match kq with
  | some _ => v1
  | none => gibbsTransitionRow X v1 rowid draw

/-! ## Marginal log densities (`logpdf_score`)

These are log-Gamma expressions over the exact rational statistics; they
are the one place the embedding leaves the rationals. -/

/-- `math.lgamma`. -/
noncomputable def lgamma (x : ℚ) : ℝ := Real.log (Real.Gamma (x : ℝ))

/-- `logp_crp` (src/src/utils/general.py lines 56-62): the marginal log
probability of a CRP partition with table counts `counts`, `N` customers
and concentration `alpha`. -/
noncomputable def logpCrpScore (N : ℕ) (counts : List (Nat × Nat))
    (alpha : ℚ) : ℝ :=
  (counts.length : ℝ) * Real.log ((alpha : ℚ) : ℝ) +
    (counts.map (fun p => lgamma (p.2 : ℚ))).sum +
    lgamma alpha - lgamma ((N : ℚ) + alpha)

/-- `log_nCk` (src/src/utils/general.py lines 175-179). -/
noncomputable def logNCk (n k : ℚ) : ℝ :=
  if n = 0 ∨ k = 0 ∨ n = k then 0
  else Real.log (n : ℝ) + lgamma n - Real.log (k : ℝ) - lgamma k -
    Real.log ((n - k : ℚ) : ℝ) - lgamma (n - k)

/-- `scipy.special.betaln`. -/
noncomputable def betaln (a b : ℚ) : ℝ := lgamma a + lgamma b - lgamma (a + b)

/-- `Binomial.calc_marginal_logp` (gpmcc/dists/binomial.py lines 90-93). -/
noncomputable def calcMarginalLogp (N : ℕ) (ksum alpha beta : ℚ) : ℝ :=
  logNCk (N : ℚ) ksum + betaln (ksum + alpha) ((N : ℚ) - ksum + beta) -
    betaln alpha beta

/-- `Dim.logpdf_score`: the sum of the cluster marginals. -/
noncomputable def dimScore (d : DimState) : ℝ :=
  (d.clusters.map
    (fun p => calcMarginalLogp p.2.N p.2.x_sum d.alpha d.beta)).sum

/-- `View.logpdf_score` (view.py lines 249-253): CRP marginal plus the sum
of the Dim marginals. -/
noncomputable def viewScore (v : ViewState) : ℝ :=
  logpCrpScore v.Zr.length v.counts v.alpha +
    (v.dims.map (fun p => dimScore p.2)).sum

/-! ## src/src/crosscat/state.py : the column-clustering orchestrator -/

/-- The token of the cluster-assignment output of view `v`
(`state.crp_id_view + v`, state.py line 125). -/
def crpIdView (v : ℕ) : ℕ := 10 ^ 7 + v

/-- The state of one State: the output columns in order, the dataset, the
column CRP (concentration `alpha`, assignment `Zv`, view occupancies `Nv`)
and the views keyed by view id. -/
structure StateModel where
  outputs : List ℕ
  X : Dataset
  alpha : ℚ
  Zv : List (Nat × Nat)
  Nv : List (Nat × Nat)
  views : List (Nat × ViewState)
deriving DecidableEq

/-- `State.n_rows`: the length of the first output's column. -/
def nRows (s : StateModel) : ℕ :=
  ((alistGet s.X (s.outputs.headD 0)).getD []).length

/-- `State.incorporate` (state.py lines 245-271).  The Python query dict is
embedded split by key type: `vals` carries the observable columns (its
values are exact rationals, so the NaN check of line 256 cannot fire) and
`clus` carries the per-view cluster-assignment entries keyed by view id
(Python key `crp_id_view + v`); a Python key that is neither a live view
token nor an output fails the line 254 membership check, embodied here by
the two `all` checks.  `draws` supplies, per view, the categorical draw
used by the Gibbs step when no cluster is named.  Raising `ValueError` is
embedded as `Except.error`. -/
def stateIncorporate (s : StateModel) (rowid : ℕ) (vals : List (Nat × ℚ))
    (clus : List (Nat × Nat)) (draws : ℕ → List ℚ → List ℕ → ℕ) :
    Except String StateModel :=
  if rowid ≠ nRows s then .error "Only contiguous rowids supported"
  else if ¬ (clus.all (fun p => decide (p.1 ∈
      (alistKeys s.views).map crpIdView))) then .error "Invalid query"
  else if ¬ (vals.all (fun p => decide (p.1 ∈ s.outputs))) then
    .error "Invalid query"
  else
    let X1 := s.outputs.foldl
      (fun X c => alistInsert X c (((alistGet X c).getD []) ++ [alistGet vals c]))
      s.X
    let views1 := s.views.map (fun p =>
      (p.1, viewIncorporate X1 p.2 rowid (alistGet clus (crpIdView p.1))
        (draws p.1)))
    .ok { s with X := X1, views := views1 }

/-- `State.unincorporate` (state.py lines 273-288): only the last rowid may
be removed, and not the very last row; pop every column, then tell every
view (each Dim removes the value it stored at incorporation time, hence the
views read the pre-pop dataset). -/
def stateUnincorporate (s : StateModel) (rowid : ℕ) :
    Except String StateModel :=
  if rowid ≠ nRows s - 1 then .error "Only last rowid may be unincorporated"
  else if nRows s = 1 then .error "Cannot unincorporate last rowid"
  else
    let X1 := s.outputs.foldl
      (fun X c => alistInsert X c ((alistGet X c).getD []).dropLast) s.X
    let views1 := s.views.map (fun p => (p.1, viewUnincorporate s.X p.2 rowid))
    .ok { s with X := X1, views := views1 }

/-- `State.logpdf_score` (state.py lines 351-354): column-CRP marginal plus
the view scores. -/
noncomputable def stateScore (s : StateModel) : ℝ :=
  logpCrpScore s.Zv.length s.Nv s.alpha +
    (s.views.map (fun p => viewScore p.2)).sum

/-! ## Well-formedness

The structural invariants every reachable state satisfies (spec section 3
and `_check_partitions`): occupancies track true membership, each Dim's
cluster statistics are the statistics of the non-missing values of its
column in that cluster, and a Dim has a cluster model exactly for the
clusters with at least one non-missing member. -/

/-- True occupancy of cluster `k` in a row partition. -/
def occupancy (Zr : List (Nat × Nat)) (k : ℕ) : ℕ :=
  (Zr.filter (fun p => p.2 == k)).length

/-- The non-missing values of column `c` among the members of cluster `k`. -/
def clusterVals (X : Dataset) (c : ℕ) (Zr : List (Nat × Nat)) (k : ℕ) :
    List ℚ :=
  (Zr.filter (fun p => p.2 == k)).filterMap (fun p => cellValue X c p.1)

/-- The sufficient statistics of cluster `k` derived from the dataset. -/
def derivedSuff (X : Dataset) (c : ℕ) (Zr : List (Nat × Nat)) (k : ℕ) :
    BernSuff :=
  ⟨(clusterVals X c Zr k).length, (clusterVals X c Zr k).sum⟩

/-- Structural invariant of one Dim relative to its column and the owning
view's row partition. -/
def DimWF (X : Dataset) (c : ℕ) (Zr : List (Nat × Nat)) (d : DimState) :
    Prop :=
  NodupKeys d.clusters ∧
  (∀ k ∈ alistKeys d.clusters,
    alistGet d.clusters k = some (derivedSuff X c Zr k) ∧
      1 ≤ (derivedSuff X c Zr k).N) ∧
  (∀ p ∈ Zr, (cellValue X c p.1).isSome → p.2 ∈ alistKeys d.clusters)

/-- Structural invariant of one View relative to the dataset and row
count. -/
def ViewWF (X : Dataset) (nrows : ℕ) (v : ViewState) : Prop :=
  NodupKeys v.Zr ∧
  (∀ p ∈ v.Zr, p.1 < nrows) ∧
  (∀ r ∈ List.range nrows, r ∈ alistKeys v.Zr) ∧
  NodupKeys v.counts ∧
  (∀ k ∈ alistKeys v.counts,
    alistGet v.counts k = some (occupancy v.Zr k) ∧ 1 ≤ occupancy v.Zr k) ∧
  (∀ p ∈ v.Zr, p.2 ∈ alistKeys v.counts) ∧
  NodupKeys v.dims ∧
  (∀ p ∈ v.dims, DimWF X p.1 v.Zr p.2) ∧
  (∀ p ∈ v.dims, ((alistGet X p.1).getD []).length = nrows)

instance decidableNodupKeys {β : Type} (l : List (Nat × β)) :
    Decidable (NodupKeys l) := by
  unfold NodupKeys
  infer_instance

instance decidableDimWF (X : Dataset) (c : ℕ) (Zr : List (Nat × Nat))
    (d : DimState) : Decidable (DimWF X c Zr d) := by
  unfold DimWF
  infer_instance

instance decidableViewWF (X : Dataset) (nrows : ℕ) (v : ViewState) :
    Decidable (ViewWF X nrows v) := by
  unfold ViewWF
  infer_instance

theorem viewWF_counts_exists (X : Dataset) (nrows : ℕ) (v : ViewState)
    (hWF : ViewWF X nrows v) :
    ∀ j ∈ alistKeys v.counts, ∃ n, alistGet v.counts j = some n ∧ 1 ≤ n :=
  fun j hj => ⟨occupancy v.Zr j, (hWF.2.2.2.2.1 j hj).1,
    (hWF.2.2.2.2.1 j hj).2⟩

theorem viewWF_dims_sub (X : Dataset) (nrows : ℕ) (v : ViewState)
    (hWF : ViewWF X nrows v) :
    ∀ p ∈ v.dims, ∀ j ∈ alistKeys p.2.clusters, j ∈ alistKeys v.counts := by
  intro p hp j hj
  have hd := hWF.2.2.2.2.2.2.2.1 p hp
  obtain ⟨hget, hN⟩ := hd.2.1 j hj
  have h1 : 1 ≤ (clusterVals X p.1 v.Zr j).length := hN
  obtain ⟨q, hq⟩ := List.exists_mem_of_length_pos (by omega :
    0 < (clusterVals X p.1 v.Zr j).length)
  obtain ⟨a, haz, hac⟩ : ∃ a, (a, j) ∈ v.Zr ∧ cellValue X p.1 a = some q := by
    simpa [clusterVals] using hq
  have := hWF.2.2.2.2.2.1 (a, j) haz
  simpa using this

theorem viewWF_churn_hyp (X : Dataset) (nrows : ℕ) (v : ViewState)
    (rowid : ℕ) (hWF : ViewWF X nrows v) (hrow : rowid ∈ alistKeys v.Zr) :
    ∀ p ∈ v.dims, (cellValue X p.1 rowid).isSome →
      ∃ s, alistGet p.2.clusters ((alistGet v.Zr rowid).getD 0) = some s ∧
        1 ≤ s.N := by
  intro p hp hx
  obtain ⟨cur, hcur⟩ := alistGet_isSome_of_mem v.Zr rowid hrow
  have hmem : (rowid, cur) ∈ v.Zr := alistGet_mem_of_some _ _ _ hcur
  have hd := hWF.2.2.2.2.2.2.2.1 p hp
  have hk : cur ∈ alistKeys p.2.clusters := hd.2.2 (rowid, cur) hmem hx
  obtain ⟨hget, hN⟩ := hd.2.1 cur hk
  refine ⟨derivedSuff X p.1 v.Zr cur, ?_, hN⟩
  rw [hcur]
  simpa using hget

/-! ## Restoration lemmas: unincorporate undoes incorporate -/

theorem alistInsert_append_self {β : Type} (l : List (Nat × β)) (k : Nat)
    (a b : β) (h : k ∉ alistKeys l) :
    alistInsert (l ++ [(k, a)]) k b = l ++ [(k, b)] := by
  induction l with
  | nil => simp [alistInsert]
  | cons p t ih =>
      obtain ⟨k1, v1⟩ := p
      simp only [alistKeys, List.map_cons, List.mem_cons] at h
      push_neg at h
      simp only [List.cons_append, alistInsert, if_neg (Ne.symm h.1)]
      exact congrArg _ (ih (by simpa [alistKeys] using h.2))

theorem suffUnincorporate_suffIncorporate (s : BernSuff) (v : ℚ) :
    suffUnincorporate (suffIncorporate s v) v = s := by
  simp [suffIncorporate, suffUnincorporate]

/-- The Dim-level effect left behind by incorporating a row into cluster `k`
and then removing it again: nothing, except that a present value aimed at a
cluster the Dim had no model for leaves behind an empty-statistics entry
(which view-level cluster deletion clears when the whole cluster dies;
`inCounts` records whether cluster `k` survives in the row CRP). -/
def dimZombie (xval : Option ℚ) (k : ℕ) (inCounts : Prop)
    [Decidable inCounts] (d : DimState) : DimState :=
  if xval.isSome ∧ k ∉ alistKeys d.clusters ∧ inCounts then
    { d with clusters := d.clusters ++ [(k, emptySuff)] }
  else d

theorem dimUnincorporate_dimIncorporate (d : DimState) (x : Option ℚ)
    (k : ℕ) :
    dimUnincorporate (dimIncorporate d x k) x k =
      if x.isSome ∧ k ∉ alistKeys d.clusters then
        { d with clusters := d.clusters ++ [(k, emptySuff)] }
      else d := by
  match x with
  | none => simp [dimIncorporate, dimUnincorporate]
  | some v =>
      simp only [dimIncorporate, dimUnincorporate, Option.isSome_some,
        true_and]
      by_cases hk : k ∈ alistKeys d.clusters
      · obtain ⟨s, hs⟩ := alistGet_isSome_of_mem d.clusters k hk
        simp only [hs, Option.getD_some, alistGet_insert_self,
          suffUnincorporate_suffIncorporate]
        have h5 := alistInsert_insert_restore d.clusters k
          (suffIncorporate s v) s hs
        simp only [h5]
        rw [if_neg (not_not_intro hk)]
      · have hget : alistGet d.clusters k = none :=
          alistGet_eq_none d.clusters k hk
        simp only [hget, Option.getD_none, alistGet_insert_self,
          Option.getD_some, suffUnincorporate_suffIncorporate]
        rw [alistInsert_of_not_mem d.clusters k _ hk]
        rw [alistInsert_append_self d.clusters k _ _ hk]
        rw [if_pos hk]

theorem suffIncorporate_suffUnincorporate (s : BernSuff) (v : ℚ)
    (h : 1 ≤ s.N) : suffIncorporate (suffUnincorporate s v) v = s := by
  obtain ⟨n, x⟩ := s
  simp only at h
  simp only [suffIncorporate, suffUnincorporate, BernSuff.mk.injEq]
  constructor
  · omega
  · ring

/-- The scoring churn of `_logpdf_cell_gibbs` leaves the Dim unchanged:
temporarily unincorporating the row and reincorporating it restores the
sufficient statistics exactly. -/
theorem logpdfCellGibbs_state (X : Dataset) (cur rowid c : ℕ) (d : DimState)
    (k : ℕ)
    (h : cur = k → (cellValue X c rowid).isSome →
      ∃ s, alistGet d.clusters k = some s ∧ 1 ≤ s.N) :
    (logpdfCellGibbs X cur rowid c d k).2 = d := by
  unfold logpdfCellGibbs
  by_cases hck : cur = k
  · simp only [hck, if_pos rfl]
    cases hx : cellValue X c rowid with
    | none => simp [dimIncorporate, dimUnincorporate]
    | some v =>
        obtain ⟨s, hs, hs1⟩ := h hck (by simp [hx])
        simp only [dimIncorporate, dimUnincorporate, hs, Option.getD_some,
          alistGet_insert_self]
        rw [suffIncorporate_suffUnincorporate s v hs1]
        have h5 := alistInsert_insert_restore d.clusters k
          (suffUnincorporate s v) s hs
        simp [h5]
  · simp [hck]

/-- The scoring churn over all Dims of the view restores them all. -/
theorem logpdfRowGibbsDims_state (X : Dataset) (cur rowid : ℕ)
    (dims : List (Nat × DimState)) (k : ℕ)
    (h : ∀ p ∈ dims, cur = k → (cellValue X p.1 rowid).isSome →
      ∃ s, alistGet p.2.clusters k = some s ∧ 1 ≤ s.N) :
    (logpdfRowGibbsDims X cur rowid dims k).2 = dims := by
  induction dims with
  | nil => rfl
  | cons p t ih =>
      obtain ⟨c, d⟩ := p
      simp only [logpdfRowGibbsDims]
      rw [logpdfCellGibbs_state X cur rowid c d k
        (h (c, d) (List.mem_cons_self _ _))]
      rw [ih (fun q hq => h q (List.mem_cons_of_mem _ hq))]

/-- The whole Gibbs scoring pass (`_logpdf_row_gibbs`) restores the view:
every candidate is scored predictively and every temporary mutation is
undone. -/
theorem logpdfRowGibbs_state (X : Dataset) (v : ViewState) (rowid : ℕ)
    (K : List ℕ)
    (h : ∀ p ∈ v.dims, (cellValue X p.1 rowid).isSome →
      ∃ s, alistGet p.2.clusters ((alistGet v.Zr rowid).getD 0) = some s ∧
        1 ≤ s.N) :
    (logpdfRowGibbs X v rowid K).2 = v := by
  induction K with
  | nil => rfl
  | cons k t ih =>
      simp only [logpdfRowGibbs]
      have hdims : (logpdfRowGibbsDims X ((alistGet v.Zr rowid).getD 0)
          rowid v.dims k).2 = v.dims := by
        apply logpdfRowGibbsDims_state
        intro p hp hck hx
        rw [← hck]
        exact h p hp hx
      simp only [hdims]
      exact ih

/-- Removing a freshly raw-incorporated row restores the view exactly, up to
the per-Dim `dimZombie` effect: the row partition, the table occupancies and
the concentration return to their previous values. -/
theorem viewUnincorporate_viewRawIncorporate (X1 : Dataset) (w : ViewState)
    (rowid k : ℕ)
    (h1 : rowid ∉ alistKeys w.Zr)
    (h2 : ∀ j ∈ alistKeys w.counts, ∃ n, alistGet w.counts j = some n ∧ 1 ≤ n)
    (h3 : ∀ p ∈ w.dims, ∀ j ∈ alistKeys p.2.clusters, j ∈ alistKeys w.counts) :
    viewUnincorporate X1 (viewRawIncorporate X1 w rowid k) rowid =
      { w with dims := w.dims.map (fun p =>
          (p.1, dimZombie (cellValue X1 p.1 rowid) k
            (k ∈ alistKeys w.counts) p.2)) } := by
  have hZr : alistGet (alistInsert w.Zr rowid k) rowid = some k :=
    alistGet_insert_self _ _ _
  have hZr2 : alistErase (alistInsert w.Zr rowid k) rowid = w.Zr :=
    alistErase_insert_fresh _ _ _ h1
  have hdims1 :
      (w.dims.map (fun p =>
        (p.1, dimIncorporate p.2 (cellValue X1 p.1 rowid) k))).map
          (fun p => (p.1, dimUnincorporate p.2 (cellValue X1 p.1 rowid) k)) =
      w.dims.map (fun p =>
        (p.1,
          if (cellValue X1 p.1 rowid).isSome ∧ k ∉ alistKeys p.2.clusters
          then { p.2 with clusters := p.2.clusters ++ [(k, emptySuff)] }
          else p.2)) := by
    rw [List.map_map]
    apply List.map_congr_left
    intro p hp
    simp [Function.comp, dimUnincorporate_dimIncorporate]
  simp only [viewRawIncorporate, crpIncorporate, viewUnincorporate,
    crpUnincorporate]
  simp only [hZr, Option.getD_some, hZr2, hdims1, alistGet_insert_self]
  by_cases hk : k ∈ alistKeys w.counts
  · obtain ⟨n, hn, hn1⟩ := h2 k hk
    have hc0 : (alistGet w.counts k).getD 0 = n := by rw [hn]; rfl
    simp only [hc0]
    have hle : ¬ (n + 1 ≤ 1) := by omega
    simp only [hle, if_false]
    have hrestore : alistInsert (alistInsert w.counts k (n + 1)) k
        (n + 1 - 1) = w.counts := by
      simpa using alistInsert_insert_restore w.counts k (n + 1) n hn
    simp only [hrestore, hn, Option.isNone_some, Bool.false_eq_true,
      if_false]
    have hmap : w.dims.map (fun p =>
        (p.1,
          if (cellValue X1 p.1 rowid).isSome ∧ k ∉ alistKeys p.2.clusters
          then { p.2 with clusters := p.2.clusters ++ [(k, emptySuff)] }
          else p.2)) =
        w.dims.map (fun p =>
          (p.1, dimZombie (cellValue X1 p.1 rowid) k
            (k ∈ alistKeys w.counts) p.2)) := by
      apply List.map_congr_left
      intro p hp
      simp [dimZombie, hk]
    rw [hmap]
  · have hgetc : alistGet w.counts k = none := alistGet_eq_none _ _ hk
    have hc0 : (alistGet w.counts k).getD 0 = 0 := by rw [hgetc]; rfl
    simp only [hc0]
    have hle : (0 : ℕ) + 1 ≤ 1 := by omega
    simp only [hle, if_true]
    have hcounts : alistErase (alistInsert w.counts k (0 + 1)) k =
        w.counts := alistErase_insert_fresh _ _ _ hk
    simp only [hcounts, hgetc, Option.isNone_none, if_true]
    rw [List.map_map]
    have hfinal : ∀ p ∈ w.dims,
        ((fun p => (p.1,
            { alpha := p.2.alpha, beta := p.2.beta,
              clusters := alistErase p.2.clusters k : DimState })) ∘
          (fun p => (p.1,
            if (cellValue X1 p.1 rowid).isSome = true ∧
                k ∉ alistKeys p.2.clusters then
              { p.2 with clusters := p.2.clusters ++ [(k, emptySuff)] }
            else p.2))) p =
        (fun p => (p.1, dimZombie (cellValue X1 p.1 rowid) k
          (k ∈ alistKeys w.counts) p.2)) p := by
      intro p hp
      have hsub : k ∉ alistKeys p.2.clusters := fun hmem => hk (h3 p hp k hmem)
      by_cases hx : (cellValue X1 p.1 rowid).isSome
      · simp only [Function.comp, dimZombie, hx, hsub, not_false_iff,
          true_and, and_true, if_pos, hk, and_false, if_false]
        simp [alistErase_append_singleton p.2.clusters k emptySuff hsub]
      · simp only [Function.comp, dimZombie]
        rw [if_neg (by simp [hx]), if_neg (by simp [hx])]
        simp [alistErase_of_not_mem p.2.clusters k hsub]
    rw [List.map_congr_left hfinal]

/-! ## Claim C5: the Gibbs row transition migrates or leaves no trace -/

/-- The cluster `z_b` that `_gibbs_transition_row` samples: the
caller-supplied categorical draw applied to the per-candidate products of
data density and CRP weight over the candidate tables. -/
def gibbsDrawnCluster (X : Dataset) (v : ViewState) (rowid : ℕ)
    (draw : List ℚ → List ℕ → ℕ) : ℕ :=
  draw (List.zipWith (fun a b => a * b)
    (logpdfRowGibbs X v rowid (gibbsTables v (some rowid) 1)).1
    (gibbsLogpsWeights v rowid 1)) (gibbsTables v (some rowid) 1)

/-- C5: for a well-formed view and an incorporated rowid, the Gibbs row
transition either leaves the view state exactly unchanged — in particular
the row partition, every Dim's cluster-id set and every per-cluster
sufficient statistic — when the sampled cluster equals the current
assignment, or performs exactly the unincorporate-then-incorporate
migration `_migrate_row` when it differs. -/
theorem gibbs_row_transition_frame (X : Dataset) (nrows : ℕ)
    (v : ViewState) (rowid : ℕ) (draw : List ℚ → List ℕ → ℕ)
    (hWF : ViewWF X nrows v) (hrow : rowid ∈ alistKeys v.Zr) :
    ((alistGet v.Zr rowid).getD 0 = gibbsDrawnCluster X v rowid draw →
      gibbsTransitionRow X v rowid draw = v) ∧
    ((alistGet v.Zr rowid).getD 0 ≠ gibbsDrawnCluster X v rowid draw →
      gibbsTransitionRow X v rowid draw =
        migrateRow X v rowid (gibbsDrawnCluster X v rowid draw)) := by
  have hstate := logpdfRowGibbs_state X v rowid
    (gibbsTables v (some rowid) 1)
    (viewWF_churn_hyp X nrows v rowid hWF hrow)
  have hzb : gibbsTransitionRow X v rowid draw =
      if (alistGet v.Zr rowid).getD 0 ≠ gibbsDrawnCluster X v rowid draw
      then migrateRow X v rowid (gibbsDrawnCluster X v rowid draw)
      else v := by
    unfold gibbsTransitionRow gibbsDrawnCluster
    simp only [hstate]
  constructor
  · intro h
    rw [hzb, if_neg (not_not_intro h)]
  · intro h
    rw [hzb, if_pos h]

/-- The dataset of the documented example: one row, two Bernoulli columns,
value 1 observed in both cells. -/
def testX : Dataset := [(0, [some 1]), (1, [some 1])]

/-- The View of the documented example: one row in cluster 0, two
Beta(1,1)-Bernoulli Dims, row CRP concentration 1. -/
def testView : ViewState :=
  { alpha := 1, Zr := [(0, 0)], counts := [(0, 1)],
    dims := [(0, ⟨1, 1, [(0, ⟨1, 1⟩)]⟩), (1, ⟨1, 1, [(0, ⟨1, 1⟩)]⟩)] }

/-- C5 witness: on the example view, a draw that returns the current
cluster leaves the view untouched. -/
theorem testDim_WF (c : ℕ) (hc : c = 0 ∨ c = 1) :
    DimWF testX c testView.Zr ⟨1, 1, [(0, ⟨1, 1⟩)]⟩ := by
  have hds : derivedSuff testX c testView.Zr 0 = ⟨1, 1⟩ := by
    rcases hc with rfl | rfl <;>
      simp [derivedSuff, clusterVals, cellValue, testX, testView, alistGet]
  refine ⟨by decide, ?_, ?_⟩
  · intro k hk
    have hk0 : k = 0 := by simpa [alistKeys] using hk
    subst hk0
    rw [hds]
    exact ⟨rfl, by decide⟩
  · intro q hq hx
    have hq0 : q = (0, 0) := by simpa [testView] using hq
    subst hq0
    decide

theorem testView_WF : ViewWF testX 1 testView := by
  refine ⟨by decide, by decide, by decide, by decide, by decide, by decide,
    by decide, ?_, by decide⟩
  intro p hp
  simp only [testView, List.mem_cons, List.not_mem_nil, or_false] at hp
  rcases hp with rfl | rfl
  · exact testDim_WF 0 (Or.inl rfl)
  · exact testDim_WF 1 (Or.inr rfl)

/-- C5 witness: on the example view, a draw that returns the current
cluster leaves the view untouched. -/
theorem gibbs_row_transition_frame_witness :
    gibbsTransitionRow testX testView 0 (fun _ _ => 0) = testView :=
  (gibbs_row_transition_frame testX 1 testView 0 (fun _ _ => 0)
    testView_WF (by decide)).1 (by decide)

/-! ## Claim C2: State.incorporate / State.unincorporate contract -/

theorem mem_alistKeys_insert {β : Type} (l : List (Nat × β)) (k : Nat)
    (v : β) : k ∈ alistKeys (alistInsert l k v) := by
  induction l with
  | nil => simp [alistInsert, alistKeys]
  | cons p t ih =>
      obtain ⟨k1, v1⟩ := p
      by_cases h1 : k1 = k
      · simp [alistInsert, alistKeys, h1]
      · simp only [alistInsert, if_neg h1, alistKeys, List.map_cons,
          List.mem_cons]
        exact Or.inr ih

theorem not_mem_alistKeys_erase {β : Type} (l : List (Nat × β)) (k : Nat)
    (h : NodupKeys l) : k ∉ alistKeys (alistErase l k) := by
  induction l with
  | nil => simp [alistErase, alistKeys]
  | cons p t ih =>
      obtain ⟨k1, v1⟩ := p
      have hnod : NodupKeys t := (List.nodup_cons.mp h).2
      by_cases h1 : k1 = k
      · subst h1
        simp only [alistErase, if_pos rfl]
        have := (List.nodup_cons.mp h).1
        simpa [alistKeys] using this
      · simp only [alistErase, if_neg h1, alistKeys, List.map_cons,
          List.mem_cons]
        push_neg
        exact ⟨Ne.symm h1, ih hnod⟩

theorem logpdfRowGibbs_Zr (X : Dataset) (v : ViewState) (rowid : ℕ)
    (K : List ℕ) : (logpdfRowGibbs X v rowid K).2.Zr = v.Zr := by
  induction K generalizing v with
  | nil => rfl
  | cons k t ih => simp only [logpdfRowGibbs]; exact ih _

theorem gibbsTransitionRow_mem_Zr (X : Dataset) (v : ViewState)
    (rowid : ℕ) (draw : List ℚ → List ℕ → ℕ)
    (h : rowid ∈ alistKeys v.Zr) :
    rowid ∈ alistKeys (gibbsTransitionRow X v rowid draw).Zr := by
  simp only [gibbsTransitionRow]
  split
  · simp only [migrateRow, viewRawIncorporate, crpIncorporate]
    exact mem_alistKeys_insert _ _ _
  · rw [logpdfRowGibbs_Zr]
    exact h

/-- After `View.incorporate` the row is in the view's row partition, on any
state: the raw step inserts it and the optional Gibbs step either keeps the
assignment or migrates by erase-then-insert. -/
theorem viewIncorporate_mem_Zr (X : Dataset) (v : ViewState) (rowid : ℕ)
    (kq : Option ℕ) (draw : List ℚ → List ℕ → ℕ) :
    rowid ∈ alistKeys (viewIncorporate X v rowid kq draw).Zr := by
  unfold viewIncorporate
  cases kq with
  | some k =>
      simp only [viewRawIncorporate, crpIncorporate]
      exact mem_alistKeys_insert _ _ _
  | none =>
      apply gibbsTransitionRow_mem_Zr
      simp only [viewRawIncorporate, crpIncorporate]
      exact mem_alistKeys_insert _ _ _

/-- After `View.unincorporate` the row is gone from the row partition. -/
theorem viewUnincorporate_not_mem_Zr (X : Dataset) (v : ViewState)
    (rowid : ℕ) (h : NodupKeys v.Zr) :
    rowid ∉ alistKeys (viewUnincorporate X v rowid).Zr := by
  unfold viewUnincorporate crpUnincorporate
  by_cases hdel : (alistGet (if ((alistGet v.counts
      ((alistGet v.Zr rowid).getD 0)).getD 0) ≤ 1 then
        alistErase v.counts ((alistGet v.Zr rowid).getD 0)
      else alistInsert v.counts ((alistGet v.Zr rowid).getD 0)
        (((alistGet v.counts ((alistGet v.Zr rowid).getD 0)).getD 0) - 1))
      ((alistGet v.Zr rowid).getD 0)).isNone
  · simp only [if_pos hdel]
    exact not_mem_alistKeys_erase _ _ h
  · simp only [if_neg hdel]
    exact not_mem_alistKeys_erase _ _ h

/-- C2: `State.incorporate` rejects any rowid other than the current row
count, `State.unincorporate` rejects any rowid other than the last one,
and on success the row is added to, respectively removed from, every
view's row partition. -/
theorem state_incorporate_unincorporate_contract (s : StateModel)
    (rowid : ℕ) (vals : List (Nat × ℚ)) (clus : List (Nat × Nat))
    (draws : ℕ → List ℚ → List ℕ → ℕ)
    (hnod : ∀ p ∈ s.views, NodupKeys p.2.Zr) :
    (rowid ≠ nRows s →
      ∃ e, stateIncorporate s rowid vals clus draws = .error e) ∧
    (rowid ≠ nRows s - 1 →
      ∃ e, stateUnincorporate s rowid = .error e) ∧
    (∀ s1, stateIncorporate s rowid vals clus draws = .ok s1 →
      ∀ p ∈ s1.views, rowid ∈ alistKeys p.2.Zr) ∧
    (∀ s1, stateUnincorporate s rowid = .ok s1 →
      ∀ p ∈ s1.views, rowid ∉ alistKeys p.2.Zr) := by
  refine ⟨?_, ?_, ?_, ?_⟩
  · intro h
    exact ⟨"Only contiguous rowids supported",
      by simp [stateIncorporate, h]⟩
  · intro h
    exact ⟨"Only last rowid may be unincorporated",
      by simp [stateUnincorporate, h]⟩
  · intro s1 hok p hp
    unfold stateIncorporate at hok
    split at hok
    next => exact Except.noConfusion hok
    next =>
      split at hok
      next => exact Except.noConfusion hok
      next =>
        split at hok
        next => exact Except.noConfusion hok
        next =>
          have hv := Except.ok.inj hok
          subst hv
          obtain ⟨q, hq, hqe⟩ := List.mem_map.mp hp
          subst hqe
          exact viewIncorporate_mem_Zr _ _ _ _ _
  · intro s1 hok p hp
    unfold stateUnincorporate at hok
    split at hok
    next => exact Except.noConfusion hok
    next =>
      split at hok
      next => exact Except.noConfusion hok
      next =>
        have hv := Except.ok.inj hok
        subst hv
        obtain ⟨q, hq, hqe⟩ := List.mem_map.mp hp
        subst hqe
        exact viewUnincorporate_not_mem_Zr _ _ _ (hnod q hq)

/-- The State of the documented example: two Bernoulli columns in one view,
one row. -/
def testState : StateModel :=
  { outputs := [0, 1], X := testX, alpha := 1,
    Zv := [(0, 0), (1, 0)], Nv := [(0, 2)], views := [(0, testView)] }

/-- C2 witness: at the example state, rowid 5 is neither the next
contiguous rowid nor the last one, and incorporate rejects it. -/
theorem state_incorporate_unincorporate_contract_witness :
    ∃ e, stateIncorporate testState 5 [] [] (fun _ _ _ => 0) = .error e :=
  (state_incorporate_unincorporate_contract testState 5 [] []
    (fun _ _ _ => 0) (by decide)).1 (by decide)

/-! ## Claim C7: State._validate_query_evidence -/

/-- A query to `State.logpdf` (a variable-to-value dict) or to
`State.simulate` (a list of variables). -/
inductive StateQuery where
  | logp (vals : List (Nat × ℚ))
  | sim (cols : List Nat)

/-- `np.allclose(a, b)` at its default tolerances
(`|a - b| <= atol + rtol * |b|` with `atol = 1e-8`, `rtol = 1e-5`). -/
def allclose (a b : ℚ) : Bool :=
  decide (|a - b| ≤ 1 / 100000000 + (1 / 100000) * |b|)

/-- The evaluation of `any(not np.isnan(self.X[q][rowid]) for q in query)`
(state.py lines 422-423), with Python's lazy iteration: a column missing
from the dataset raises `KeyError` at the point it is reached. -/
def queryObservedScan (X : Dataset) (rowid : ℕ) (qcols : List ℕ) :
    Except String Bool :=
  match qcols with
  | [] => .ok false
  | q :: t =>
      if q ∉ alistKeys X then .error "KeyError"
      else if (cellValue X q rowid).isSome then .ok true
      else queryObservedScan X rowid t

/-- `good_evidence` (state.py lines 431-434): an evidence entry is
acceptable when its variable is foreign, its cell is missing, or its value
is within `np.allclose` tolerance of the observed cell. -/
def goodEvidence (s : StateModel) (rowid : ℕ) (e : ℕ) (x : ℚ) : Bool :=
  !(decide (e ∈ s.outputs)) || (cellValue s.X e rowid).isNone ||
    (match cellValue s.X e rowid with
     | some a => allclose a x
     | none => true)

/-- The body of `State._validate_query_evidence` (state.py lines 410-437)
over the simulate flag and the query columns; `rowid < n_rows` is the
negation of `self.hypothetical(rowid)` for a natural rowid.  It mutates
nothing and aborts with `ValueError` on the conditions of spec section
7. -/
def stateValidateCore (s : StateModel) (rowid : ℕ) (simulate : Bool)
    (qcols : List ℕ) (evidence : List (Nat × ℚ)) : Except String Unit :=
  if simulate && !(decide qcols.Nodup) then
    .error "Query columns must be unique."
  else
    match (if decide (rowid < nRows s) && !simulate then
             queryObservedScan s.X rowid qcols else .ok false) with
    | .error e => .error e
    | .ok true => .error "Query cannot constrain observed cell."
    | .ok false =>
        if evidence = [] then .ok ()
        else if qcols.any (fun q => decide (q ∈ evidence.map Prod.fst)) then
          .error "Query and evidence columns must be disjoint."
        else if decide (rowid < nRows s) &&
            evidence.any (fun p => !(goodEvidence s rowid p.1 p.2)) then
          .error "Evidence cannot constrain observed cell."
        else .ok ()

/-- `State._validate_query_evidence`, dispatching on the query kind. -/
def stateValidateQueryEvidence (s : StateModel) (rowid : ℕ)
    (query : StateQuery) (evidence : List (Nat × ℚ)) :
    Except String Unit :=
  match query with
  | .sim cols => stateValidateCore s rowid true cols evidence
  | .logp vals => stateValidateCore s rowid false (vals.map Prod.fst) evidence

theorem queryObservedScan_true (X : Dataset) (rowid : ℕ) (qcols : List ℕ)
    (hmem : ∀ c ∈ qcols, c ∈ alistKeys X)
    (hobs : ∃ q ∈ qcols, (cellValue X q rowid).isSome) :
    queryObservedScan X rowid qcols = .ok true := by
  induction qcols with
  | nil => simp at hobs
  | cons q t ih =>
      have hq := hmem q (List.mem_cons_self _ _)
      simp only [queryObservedScan, if_neg (not_not_intro hq)]
      by_cases hcell : (cellValue X q rowid).isSome
      · simp [hcell]
      · simp only [hcell, Bool.false_eq_true, if_false]
        apply ih
        · exact fun c hc => hmem c (List.mem_cons_of_mem _ hc)
        · obtain ⟨q2, hq2, hq2s⟩ := hobs
          rcases List.mem_cons.mp hq2 with rfl | hq2t
          · exact absurd hq2s hcell
          · exact ⟨q2, hq2t, hq2s⟩

/-- C7, counterexample: evidence that differs from the observed cell by
less than the `np.allclose` tolerance passes validation, so the claim
"different value implies error" is false: at the example state cell
`X[0][0] = 1`, evidence `{0: 1 + 1e-9}` differs from 1 but is accepted. -/
theorem state_validate_evidence_counterexample :
    stateValidateQueryEvidence testState 0 (.logp [])
        [(0, 1 + 1 / 1000000000)] = .ok () ∧
      cellValue testState.X 0 0 = some 1 ∧
      (1 + 1 / 1000000000 : ℚ) ≠ 1 := by
  refine ⟨?_, by norm_num [cellValue, testState, testX, alistGet], by norm_num⟩
  have hclose : allclose 1 (1000000001 / 1000000000) = true := by
    unfold allclose
    rw [decide_eq_true_eq]
    rw [show (1 : ℚ) - 1000000001 / 1000000000 = -(1 / 1000000000) by ring]
    rw [abs_neg, abs_of_pos (by norm_num : (0 : ℚ) < 1 / 1000000000),
      abs_of_pos (by norm_num : (0 : ℚ) < 1000000001 / 1000000000)]
    norm_num
  norm_num [stateValidateQueryEvidence, stateValidateCore,
    queryObservedScan, goodEvidence, cellValue, testState, testX,
    alistGet, nRows]
  intro hcon
  rw [hclose] at hcon
  exact Bool.noConfusion hcon

/-- C7, amended: for every State and non-hypothetical rowid, a logpdf call
whose query gives a value for an observed non-missing dataset column is
rejected, and a logpdf or simulate call whose evidence differs from an
observed non-missing cell by more than the `np.allclose` tolerance is
rejected; the validator itself mutates nothing. -/
theorem state_validate_query_evidence_amended (s : StateModel) (rowid : ℕ)
    (evidence : List (Nat × ℚ)) :
    (∀ vals : List (Nat × ℚ),
      rowid < nRows s →
      (∀ c ∈ vals.map Prod.fst, c ∈ alistKeys s.X) →
      (∃ q ∈ vals.map Prod.fst, (cellValue s.X q rowid).isSome) →
      stateValidateQueryEvidence s rowid (.logp vals) evidence =
        .error "Query cannot constrain observed cell.") ∧
    (∀ query : StateQuery, ∀ e x a,
      rowid < nRows s →
      (e, x) ∈ evidence →
      e ∈ s.outputs →
      cellValue s.X e rowid = some a →
      allclose a x = false →
      ∃ msg, stateValidateQueryEvidence s rowid query evidence =
        .error msg) := by
  constructor
  · intro vals hfresh hmem hobs
    have hscan := queryObservedScan_true s.X rowid (vals.map Prod.fst)
      hmem hobs
    simp [stateValidateQueryEvidence, stateValidateCore, hfresh, hscan]
  · intro query e x a hfresh he hout hcell hclose
    have hcore : ∀ simulate qcols,
        (stateValidateCore s rowid simulate qcols evidence = .ok ()) →
        False := by
      intro simulate qcols hok
      unfold stateValidateCore at hok
      split at hok
      · exact Except.noConfusion hok
      · split at hok
        · exact Except.noConfusion hok
        · exact Except.noConfusion hok
        · have hnonempty : evidence ≠ [] := by
            intro hcon
            rw [hcon] at he
            exact List.not_mem_nil _ he
          rw [if_neg hnonempty] at hok
          split at hok
          · exact Except.noConfusion hok
          · split at hok
            · exact Except.noConfusion hok
            · next hcond =>
                apply hcond
                have hbad : goodEvidence s rowid e x = false := by
                  simp only [goodEvidence, hcell]
                  simp [hout, hclose]
                have hany : evidence.any
                    (fun p => !(goodEvidence s rowid p.1 p.2)) = true := by
                  refine List.any_eq_true.mpr ⟨(e, x), he, ?_⟩
                  simp [hbad]
                simp [hany, hfresh]
    rcases hres : stateValidateQueryEvidence s rowid query evidence
      with msg | u
    · exact ⟨msg, rfl⟩
    · exfalso
      obtain ⟨⟩ := u
      cases query with
      | sim cols =>
          exact hcore true cols (by simpa [stateValidateQueryEvidence]
            using hres)
      | logp vals =>
          exact hcore false (vals.map Prod.fst)
            (by simpa [stateValidateQueryEvidence] using hres)

/-- C7 witness: evidence value 7 against observed cell value 1 is far
outside tolerance and is rejected. -/
theorem state_validate_query_evidence_amended_witness :
    ∃ msg, stateValidateQueryEvidence testState 0 (.logp [])
      [(0, 7)] = .error msg :=
  (state_validate_query_evidence_amended testState 0 [(0, 7)]).2
    (.logp []) 0 7 1 (by decide) (by decide) (by decide)
    (by norm_num [cellValue, testState, testX, alistGet])
    (by norm_num [allclose])

/-! ## The View query surface (view.py logpdf / _populate_evidence)

The cluster-assignment variable `z` is `view.outputs[0]`; in a State it is
`crp_id_view + v`.  Log-space computations are embedded as exact
nonnegative rational densities (0 = float -inf); the importance network
over the row CRP and the Dims is modelled from the spec (section 4.5:
exact composition when all inputs are pinned, the cluster variable pinned
from evidence or scored by the CRP predictive when queried). -/

/-- Python `merged(d1, d2)` (general.py lines 39-43): a fresh dict updated
with d1 then d2. -/
def merged (a b : List (Nat × ℚ)) : List (Nat × ℚ) :=
  b.foldl (fun acc p => alistInsert acc p.1 p.2) a

/-- A cluster id stored as a Python number inside an evidence dict, read
back as a natural. -/
def qToNat (q : ℚ) : ℕ := q.num.toNat

/-- Modelled from the spec: the CRP predictive density of table `k` for a
fresh customer (`logp_crp_fresh`, general.py lines 84-89, with one
auxiliary table): occupancy over `N + alpha` for live tables, `alpha` over
`N + alpha` for the fresh table. -/
def crpPredictiveDensity (v : ViewState) (k : ℕ) : ℚ :=
  let N : ℚ := (v.Zr.length : ℚ)
  match alistGet v.counts k with
  | some c => (c : ℚ) / (N + v.alpha)
  | none => v.alpha / (N + v.alpha)

/-- Modelled from the spec: the importance network over the row CRP and
the Dims, with all inputs pinned (exact composition): the joint density of
the queried variables, the cluster variable scored by the CRP predictive
and each column by its Dim in the pinned cluster (the cluster pinned by
the query itself or by the evidence). -/
def networkLogpdfDensity (v : ViewState) (z : ℕ)
    (query evidence : List (Nat × ℚ)) : ℚ :=
  let kz : ℕ :=
    match alistGet query z, alistGet evidence z with
    | some q, _ => qToNat q
    | none, some e => qToNat e
    | none, none => 0
  query.foldr (fun p acc =>
    (if p.1 = z then crpPredictiveDensity v (qToNat p.2)
     else dimLogpdfDensity ((alistGet v.dims p.1).getD ⟨1, 1, []⟩)
       (some p.2) kz) * acc) 1

/-- `View._validate_query_evidence` (view.py lines 475-499) over the
simulate flag and the query columns. -/
def viewValidateQueryEvidence (X : Dataset) (z : ℕ) (v : ViewState)
    (rowid : ℕ) (simulate : Bool) (qcols : List ℕ)
    (evidence : List (Nat × ℚ)) : Except String Unit :=
  if simulate && !(decide qcols.Nodup) then
    .error "Query columns must be unique."
  else if qcols.any (fun q => decide (q ∈ evidence.map Prod.fst)) then
    .error "Query and evidence columns must be disjoint."
  else if v.Zr.length ≤ rowid then .ok ()
  else if decide (z ∈ qcols) || decide (z ∈ evidence.map Prod.fst) then
    .error "Cannot constrain cluster of an observed rowid."
  else if evidence.any (fun p =>
      !((!(decide (p.1 ∈ z :: alistKeys v.dims))) ||
        (cellValue X p.1 rowid).isNone ||
        (match cellValue X p.1 rowid with
         | some a => allclose a p.2
         | none => true))) then
    .error "Cannot constrain observed cell in evidence."
  else .ok ()

/-- `View._populate_evidence` (view.py lines 435-453): validate, then for
a non-hypothetical rowid extend the evidence with every other observed
non-missing cell of the row and with the row's cluster assignment. -/
def viewPopulateEvidence (X : Dataset) (z : ℕ) (v : ViewState)
    (rowid : ℕ) (simulate : Bool) (qcols : List ℕ)
    (evidence : List (Nat × ℚ)) : Except String (List (Nat × ℚ)) :=
  match viewValidateQueryEvidence X z v rowid simulate qcols evidence with
  | .error e => .error e
  | .ok _ =>
      if v.Zr.length ≤ rowid then .ok evidence
      else
        let data := (alistKeys v.dims).filterMap (fun c =>
          if c ∉ qcols ∧ c ∉ evidence.map Prod.fst then
            match cellValue X c rowid with
            | some a => some (c, a)
            | none => none
          else none)
        .ok (evidence ++
          (data ++ [(z, (((alistGet v.Zr rowid).getD 0 : ℕ) : ℚ))]))

/-- The marginalization branch of `View.logpdf` (view.py lines 295-309):
enumerate the candidate clusters of `gibbs_tables(-1)`, weight each by the
evidence density, normalize, and combine with the per-cluster query
density (`logsumexp` of the sums of logs, i.e. a weighted average of
densities). -/
def viewLogpdfMarginal (v : ViewState) (z : ℕ)
    (query evidence : List (Nat × ℚ)) : ℚ :=
  let K := gibbsTables v none 1
  let evidences := K.map (fun k => merged evidence [(z, (k : ℚ))])
  let lpEvU := evidences.map (fun ev => networkLogpdfDensity v z ev [])
  let lpQuery := evidences.map (fun ev => networkLogpdfDensity v z query ev)
  (List.zipWith (fun a b => a * b) lpEvU lpQuery).sum / lpEvU.sum

/-- `View.logpdf` (view.py lines 258-309) at density level: populate the
evidence, then dispatch on whether the cluster variable is in the
(populated) evidence, in the query (Bayes-rule branch, whose denominator
recurses into the marginalization branch), or in neither. -/
def viewLogpdf (X : Dataset) (z : ℕ) (v : ViewState) (rowid : ℕ)
    (query evidence0 : List (Nat × ℚ)) : Except String ℚ :=
  match viewPopulateEvidence X z v rowid false (query.map Prod.fst)
      evidence0 with
  | .error e => .error e
  | .ok evidence =>
      if z ∈ alistKeys evidence then
        .ok (networkLogpdfDensity v z query evidence)
      else if z ∈ alistKeys query then
        let kq := (alistGet query z).getD 0
        let qnz := query.filter (fun p => p.1 ≠ z)
        let qnumer := merged qnz evidence
        let lpCluster := networkLogpdfDensity v z [(z, kq)] []
        let lpNumer := if qnumer ≠ [] then
            networkLogpdfDensity v z qnumer [(z, kq)] else 1
        let lpDenom := if evidence ≠ [] then
            viewLogpdfMarginal v z evidence [] else 1
        .ok (lpCluster * lpNumer / lpDenom)
      else .ok (viewLogpdfMarginal v z query evidence)

/-- The three query regimes of `View.logpdf` (spec section 4.3). -/
inductive QueryRegime where
  | conditioned
  | bayes
  | marginal
deriving DecidableEq

/-- Which branch of `View.logpdf` a call takes (after `_populate_evidence`
has extended the evidence). -/
def viewLogpdfRegime (X : Dataset) (z : ℕ) (v : ViewState) (rowid : ℕ)
    (query evidence0 : List (Nat × ℚ)) : Except String QueryRegime :=
  match viewPopulateEvidence X z v rowid false (query.map Prod.fst)
      evidence0 with
  | .error e => .error e
  | .ok evidence =>
      if z ∈ alistKeys evidence then .ok .conditioned
      else if z ∈ alistKeys query then .ok .bayes
      else .ok .marginal

/-! ## Claim C10: cluster constraints on observed rowids -/

/-- C10, counterexample: the conditioned-on-cluster regime is not reserved
to hypothetical rowids — for the observed rowid 0 of the example view,
`_populate_evidence` itself adds the cluster assignment to the evidence
and `View.logpdf` takes the conditioned branch. -/
theorem view_regime_counterexample :
    viewLogpdfRegime testX 1000 testView 0 [(0, 1)] [] =
        .ok .conditioned ∧
      (0 : ℕ) < testView.Zr.length := by
  constructor
  · rfl
  · decide

/-- C10, amended: for a non-hypothetical rowid, `_validate_query_evidence`
rejects any query or evidence naming the cluster-assignment variable, and
whichever `View.logpdf` branch runs is the conditioned one (with the
auto-populated cluster assignment): the Bayes-rule regime is unreachable
for observed rowids, while the conditioned regime is precisely the one
always taken for them. -/
theorem view_cluster_constraint_amended (X : Dataset) (z : ℕ)
    (v : ViewState) (rowid : ℕ) (simulate : Bool) (qcols : List ℕ)
    (evidence : List (Nat × ℚ)) (query evidence0 : List (Nat × ℚ)) :
    (rowid < v.Zr.length → (z ∈ qcols ∨ z ∈ evidence.map Prod.fst) →
      ∃ msg, viewValidateQueryEvidence X z v rowid simulate qcols
        evidence = .error msg) ∧
    (rowid < v.Zr.length →
      ∀ r, viewLogpdfRegime X z v rowid query evidence0 = .ok r →
        r = .conditioned) := by
  constructor
  · intro hobs hz
    unfold viewValidateQueryEvidence
    split
    · exact ⟨_, rfl⟩
    · split
      · exact ⟨_, rfl⟩
      · rw [if_neg (Nat.not_le.mpr hobs)]
        rw [if_pos (show (decide (z ∈ qcols) ||
            decide (z ∈ evidence.map Prod.fst)) = true by
          rcases hz with hz | hz <;> simp [hz])]
        exact ⟨_, rfl⟩
  · intro hobs r hr
    unfold viewLogpdfRegime viewPopulateEvidence at hr
    rcases hval : viewValidateQueryEvidence X z v rowid false
        (query.map Prod.fst) evidence0 with msg | u
    · rw [hval] at hr
      exact Except.noConfusion hr
    · rw [hval] at hr
      rw [if_neg (Nat.not_le.mpr hobs)] at hr
      dsimp only at hr
      rw [if_pos (show z ∈ alistKeys (evidence0 ++
          (((alistKeys v.dims).filterMap (fun c =>
            if c ∉ List.map Prod.fst query ∧
                c ∉ List.map Prod.fst evidence0 then
              match cellValue X c rowid with
              | some a => some (c, a)
              | none => none
            else none)) ++
            [(z, (((alistGet v.Zr rowid).getD 0 : ℕ) : ℚ))])) by
        simp [alistKeys])] at hr
      exact (Except.ok.inj hr).symm

/-- C10 witness: naming the cluster variable 1000 in the query for the
observed rowid 0 is rejected. -/
theorem view_cluster_constraint_amended_witness :
    ∃ msg, viewValidateQueryEvidence testX 1000 testView 0 false [1000]
      [] = .error msg :=
  (view_cluster_constraint_amended testX 1000 testView 0 false [1000] []
    [] []).1 (by decide) (Or.inl (by decide))

/-! ## Claim C6: the documented Bernoulli example -/

theorem testView_gibbsTables : gibbsTables testView none 1 = [0, 1] := by
  decide

theorem testView_net_e0 :
    networkLogpdfDensity testView 1000 [(1000, ((0 : ℕ) : ℚ))] [] =
      1 / 2 := by
  norm_num [networkLogpdfDensity, crpPredictiveDensity, qToNat, testView,
    alistGet]

theorem testView_net_e1 :
    networkLogpdfDensity testView 1000 [(1000, ((1 : ℕ) : ℚ))] [] =
      1 / 2 := by
  norm_num [networkLogpdfDensity, crpPredictiveDensity, qToNat, testView,
    alistGet]

theorem testView_net_q0 :
    networkLogpdfDensity testView 1000 [(0, 1)]
      [(1000, ((0 : ℕ) : ℚ))] = 2 / 3 := by
  norm_num [networkLogpdfDensity, crpPredictiveDensity, dimLogpdfDensity,
    calcPredictiveDensity, pyInt, qToNat, testView, alistGet, emptySuff]

theorem testView_net_q1 :
    networkLogpdfDensity testView 1000 [(0, 1)]
      [(1000, ((1 : ℕ) : ℚ))] = 1 / 2 := by
  norm_num [networkLogpdfDensity, crpPredictiveDensity, dimLogpdfDensity,
    calcPredictiveDensity, pyInt, qToNat, testView, alistGet, emptySuff]

theorem testView_marginal :
    viewLogpdfMarginal testView 1000 [(0, 1)] [] = 7 / 12 := by
  have hshape : viewLogpdfMarginal testView 1000 [(0, 1)] [] =
      (networkLogpdfDensity testView 1000 [(1000, ((0 : ℕ) : ℚ))] [] *
          networkLogpdfDensity testView 1000 [(0, 1)]
            [(1000, ((0 : ℕ) : ℚ))] +
        (networkLogpdfDensity testView 1000 [(1000, ((1 : ℕ) : ℚ))] [] *
            networkLogpdfDensity testView 1000 [(0, 1)]
              [(1000, ((1 : ℕ) : ℚ))] +
          0)) /
      (networkLogpdfDensity testView 1000 [(1000, ((0 : ℕ) : ℚ))] [] +
        (networkLogpdfDensity testView 1000 [(1000, ((1 : ℕ) : ℚ))] [] +
          0)) := rfl
  rw [hshape, testView_net_e0, testView_net_e1, testView_net_q0,
    testView_net_q1]
  norm_num

theorem viewLogpdf_testView_fresh :
    viewLogpdf testX 1000 testView 1 [(0, 1)] [] = .ok (7 / 12) := by
  have hpop : viewPopulateEvidence testX 1000 testView 1 false [0] [] =
      .ok [] := rfl
  simp only [viewLogpdf, List.map_cons, List.map_nil, hpop]
  rw [if_neg (by simp [alistKeys]), if_neg (by simp [alistKeys])]
  rw [testView_marginal]

theorem viewLogpdf_testView_observed :
    viewLogpdf testX 1000 testView 0 [(0, 1)] [] = .ok (2 / 3) := by
  have hpop : viewPopulateEvidence testX 1000 testView 0 false [0] [] =
      .ok [(1, 1), (1000, ((0 : ℕ) : ℚ))] := by
    rfl
  have hnet : networkLogpdfDensity testView 1000 [(0, 1)]
      [(1, 1), (1000, ((0 : ℕ) : ℚ))] = 2 / 3 := by
    norm_num [networkLogpdfDensity, crpPredictiveDensity,
      dimLogpdfDensity, calcPredictiveDensity, pyInt, qToNat, testView,
      alistGet, emptySuff]
  simp only [viewLogpdf, List.map_cons, List.map_nil, hpop]
  rw [if_pos (by simp [alistKeys])]
  rw [hnet]

/-- C6, counterexample: at the documented example, `View.logpdf` of column
0 = 1 at the already-observed rowid 0 returns log(2/3), not log(1/2): the
observed rowid is resynthesized as a hypothetical duplicate row whose own
observed value still counts toward its cluster's sufficient statistics, so
the Beta(1,1) predictive is (1+1)/(1+2). -/
theorem view_logpdf_observed_counterexample :
    viewLogpdf testX 1000 testView 0 [(0, 1)] [] = .ok (2 / 3) ∧
      Real.log ((2 : ℝ) / 3) ≠ Real.log ((1 : ℝ) / 2) := by
  refine ⟨viewLogpdf_testView_observed, ?_⟩
  exact ne_of_gt (Real.log_lt_log (by norm_num) (by norm_num))

/-- C6, amended: at the documented example model (one row, two Beta(1,1)
Bernoulli columns, value 1 observed in both cells, concentration 1, one
cluster), the logpdf of column 0 = 1 at the fresh hypothetical rowid is
log(7/12) as claimed, but at the already-observed rowid it is log(2/3)
rather than log(1/2). -/
theorem view_logpdf_example_amended :
    (viewLogpdf testX 1000 testView 1 [(0, 1)] [] = .ok (7 / 12) ∧
      Real.log (((7 : ℚ) / 12 : ℚ) : ℝ) = Real.log ((7 : ℝ) / 12)) ∧
    (viewLogpdf testX 1000 testView 0 [(0, 1)] [] = .ok (2 / 3) ∧
      Real.log (((2 : ℚ) / 3 : ℚ) : ℝ) = Real.log ((2 : ℝ) / 3)) := by
  refine ⟨⟨viewLogpdf_testView_fresh, ?_⟩,
    ⟨viewLogpdf_testView_observed, ?_⟩⟩ <;> norm_num

/-! ## Claim C3: incorporate then unincorporate restores the state -/

/-- Folding a per-column update over the keys of a nodup-key association
list acts pointwise (the embedding of `for c in self.outputs:
self.X[c].append(...)` / `.pop()`). -/
theorem foldl_insert_skip_head {β : Type} (dflt : β) (g : ℕ → β → β)
    (k0 : ℕ) (w : β) (t : List (ℕ × β)) (ks : List ℕ) (hk : k0 ∉ ks) :
    List.foldl
      (fun A c => alistInsert A c (g c ((alistGet A c).getD dflt)))
      ((k0, w) :: t) ks =
    (k0, w) :: List.foldl
      (fun A c => alistInsert A c (g c ((alistGet A c).getD dflt))) t ks := by
  induction ks generalizing w t with
  | nil => rfl
  | cons c cs ih =>
      have hne : k0 ≠ c := fun h => hk (h ▸ List.mem_cons_self _ _)
      have hcs : k0 ∉ cs := fun h => hk (List.mem_cons_of_mem _ h)
      simp only [List.foldl_cons]
      have hstep : alistInsert ((k0, w) :: t) c
          (g c ((alistGet ((k0, w) :: t) c).getD dflt)) =
          (k0, w) :: alistInsert t c (g c ((alistGet t c).getD dflt)) := by
        simp [alistInsert, alistGet, hne]
      rw [hstep, ih w _ hcs]

theorem foldl_insert_pointwise {β : Type} (dflt : β) (g : ℕ → β → β) :
    ∀ (X : List (ℕ × β)), NodupKeys X →
    List.foldl
      (fun A c => alistInsert A c (g c ((alistGet A c).getD dflt)))
      X (alistKeys X) =
    X.map (fun p => (p.1, g p.1 p.2)) := by
  intro X
  induction X with
  | nil => intro _; rfl
  | cons p t ih =>
      intro hnod
      obtain ⟨k0, w⟩ := p
      have hk0 : k0 ∉ alistKeys t := by
        have := (List.nodup_cons.mp hnod).1
        simpa [alistKeys] using this
      have hnodt : NodupKeys t := (List.nodup_cons.mp hnod).2
      have hkeys : alistKeys ((k0, w) :: t) = k0 :: alistKeys t := rfl
      rw [hkeys]
      simp only [List.foldl_cons]
      have hstep : alistInsert ((k0, w) :: t) k0
          (g k0 ((alistGet ((k0, w) :: t) k0).getD dflt)) =
          (k0, g k0 w) :: t := by
        simp [alistInsert, alistGet]
      rw [hstep, foldl_insert_skip_head dflt g k0 (g k0 w) t _ hk0, ih hnodt]
      rfl

/-- Structural invariant of a State needed by the restoration claims. -/
def StateWF (s : StateModel) : Prop :=
  s.outputs ≠ [] ∧
  NodupKeys s.X ∧
  alistKeys s.X = s.outputs ∧
  (∀ c ∈ s.outputs, ((alistGet s.X c).getD []).length = nRows s) ∧
  NodupKeys s.views ∧
  (∀ p ∈ s.views, ViewWF s.X (nRows s) p.2)

instance decidableStateWF (s : StateModel) : Decidable (StateWF s) := by
  unfold StateWF
  infer_instance

/-- What is left of one Dim after the full incorporate/unincorporate round
trip: the hyperparameters and every statistic are intact, up to appended
empty-statistics cluster entries. -/
def DimRestored (d0 d2 : DimState) : Prop :=
  d2.alpha = d0.alpha ∧ d2.beta = d0.beta ∧
  ∃ zs, d2.clusters = d0.clusters ++ zs ∧ ∀ p ∈ zs, p.2 = emptySuff

/-- What is left of one View after the round trip: concentration, row
partition and occupancies exactly restored; Dims restored up to empty
entries. -/
def ViewRestored (w0 w2 : ViewState) : Prop :=
  w2.alpha = w0.alpha ∧ w2.Zr = w0.Zr ∧ w2.counts = w0.counts ∧
  List.Forall₂ (fun p q => p.1 = q.1 ∧ DimRestored p.2 q.2) w0.dims w2.dims

/-- The per-cluster sufficient statistics of a Dim (a missing entry reads
as the empty statistics, exactly like `clusters.get(k, aux_model)`). -/
def dimStats (d : DimState) (k : ℕ) : BernSuff :=
  (alistGet d.clusters k).getD emptySuff

theorem DimRestored_stats (d0 d2 : DimState) (h : DimRestored d0 d2)
    (k : ℕ) : dimStats d2 k = dimStats d0 k := by
  obtain ⟨_, _, zs, hcl, hz⟩ := h
  unfold dimStats
  rw [hcl, alistGet_append]
  cases hg : alistGet d0.clusters k with
  | some v => rfl
  | none =>
      cases hg2 : alistGet zs k with
      | none => rfl
      | some v =>
          have h2 : v = emptySuff := hz _ (alistGet_mem_of_some _ _ _ hg2)
          simp [h2]

theorem calcMarginalLogp_empty (alpha beta : ℚ) :
    calcMarginalLogp 0 0 alpha beta = 0 := by
  unfold calcMarginalLogp logNCk betaln
  norm_num

theorem DimRestored_score (d0 d2 : DimState) (h : DimRestored d0 d2) :
    dimScore d2 = dimScore d0 := by
  obtain ⟨ha, hb, zs, hcl, hz⟩ := h
  unfold dimScore
  rw [hcl, ha, hb, List.map_append, List.sum_append]
  have hzero : ∀ (l : List (ℕ × BernSuff)), (∀ p ∈ l, p.2 = emptySuff) →
      (l.map (fun p =>
        calcMarginalLogp p.2.N p.2.x_sum d0.alpha d0.beta)).sum = 0 := by
    intro l
    induction l with
    | nil => intro _; simp
    | cons q t iht =>
        intro hl
        have hq : q.2 = emptySuff := hl q (List.mem_cons_self _ _)
        have ht : ∀ p ∈ t, p.2 = emptySuff :=
          fun p hp => hl p (List.mem_cons_of_mem _ hp)
        simp only [List.map_cons, List.sum_cons, iht ht, hq, emptySuff]
        rw [calcMarginalLogp_empty]
        simp
  rw [hzero zs hz, add_zero]

theorem ViewRestored_score (w0 w2 : ViewState) (h : ViewRestored w0 w2) :
    viewScore w2 = viewScore w0 := by
  obtain ⟨ha, hz, hc, hd⟩ := h
  unfold viewScore
  rw [ha, hz, hc]
  congr 1
  have : ∀ (l0 l2 : List (Nat × DimState)),
      List.Forall₂ (fun p q => p.1 = q.1 ∧ DimRestored p.2 q.2) l0 l2 →
      (l2.map (fun p => dimScore p.2)).sum =
        (l0.map (fun p => dimScore p.2)).sum := by
    intro l0 l2 hf
    induction hf with
    | nil => rfl
    | cons hpq hrest ihr =>
        simp only [List.map_cons, List.sum_cons, ihr,
          DimRestored_score _ _ hpq.2]
  exact this w0.dims w2.dims hd

theorem DimRestored_refl (d : DimState) : DimRestored d d :=
  ⟨rfl, rfl, [], by simp, by simp⟩

theorem DimRestored_trans (d0 d1 d2 : DimState) (h01 : DimRestored d0 d1)
    (h12 : DimRestored d1 d2) : DimRestored d0 d2 := by
  obtain ⟨a1, b1, zs1, hc1, hz1⟩ := h01
  obtain ⟨a2, b2, zs2, hc2, hz2⟩ := h12
  refine ⟨a2.trans a1, b2.trans b1, zs1 ++ zs2, ?_, ?_⟩
  · rw [hc2, hc1, List.append_assoc]
  · intro p hp
    rcases List.mem_append.mp hp with h | h
    · exact hz1 p h
    · exact hz2 p h

theorem DimRestored_zombie (x : Option ℚ) (k : ℕ) (P : Prop) [Decidable P]
    (d : DimState) : DimRestored d (dimZombie x k P d) := by
  unfold dimZombie
  split
  · exact ⟨rfl, rfl, [(k, emptySuff)], rfl, by simp⟩
  · exact DimRestored_refl d

theorem ViewRestored_zombie (X : Dataset) (w : ViewState) (rowid k : ℕ)
    (P : Prop) [Decidable P] :
    ViewRestored w { w with dims := w.dims.map (fun p =>
      (p.1, dimZombie (cellValue X p.1 rowid) k P p.2)) } :=
  ⟨rfl, rfl, rfl, List.forall₂_map_right_iff.mpr (List.forall₂_same.mpr
    (fun p _ => ⟨rfl, DimRestored_zombie _ _ _ _⟩))⟩

theorem ViewRestored_trans (w0 w1 w2 : ViewState) (h01 : ViewRestored w0 w1)
    (h12 : ViewRestored w1 w2) : ViewRestored w0 w2 := by
  obtain ⟨a1, z1, c1, f1⟩ := h01
  obtain ⟨a2, z2, c2, f2⟩ := h12
  refine ⟨a2.trans a1, z2.trans z1, c2.trans c1, ?_⟩
  have comp : ∀ (l0 l1 : List (Nat × DimState)),
      List.Forall₂ (fun (p q : Nat × DimState) =>
        p.1 = q.1 ∧ DimRestored p.2 q.2) l0 l1 →
      ∀ l2, List.Forall₂ (fun (p q : Nat × DimState) =>
        p.1 = q.1 ∧ DimRestored p.2 q.2) l1 l2 →
      List.Forall₂ (fun (p q : Nat × DimState) =>
        p.1 = q.1 ∧ DimRestored p.2 q.2) l0 l2 := by
    intro l0 l1 hA
    induction hA with
    | nil =>
        intro l2 hB
        cases hB
        exact List.Forall₂.nil
    | cons hpq hrest ih =>
        intro l2 hB
        cases hB with
        | cons hqr hrest2 =>
            exact List.Forall₂.cons
              ⟨hpq.1.trans hqr.1, DimRestored_trans _ _ _ hpq.2 hqr.2⟩
              (ih _ hrest2)
  exact comp w0.dims w1.dims f1 w2.dims f2

theorem forall2_viewScore_sum (l0 l2 : List (Nat × ViewState))
    (h : List.Forall₂ (fun p q => ViewRestored p.2 q.2) l0 l2) :
    (l2.map (fun p => viewScore p.2)).sum =
      (l0.map (fun p => viewScore p.2)).sum := by
  induction h with
  | nil => rfl
  | cons hpq hrest ih =>
      simp only [List.map_cons, List.sum_cons, ih,
        ViewRestored_score _ _ hpq]

/-- One unincorporate-of-a-raw-incorporate step, composed onto an already
zombie-extended view, stays within `ViewRestored`. -/
theorem ViewRestored_zombie_step (X1 : Dataset) (w0 wz : ViewState)
    (rowid k : ℕ) (hz : ViewRestored w0 wz)
    (h1 : rowid ∉ alistKeys wz.Zr)
    (h2 : ∀ j ∈ alistKeys wz.counts,
      ∃ n, alistGet wz.counts j = some n ∧ 1 ≤ n)
    (h3 : ∀ p ∈ wz.dims, ∀ j ∈ alistKeys p.2.clusters,
      j ∈ alistKeys wz.counts) :
    ViewRestored w0
      (viewUnincorporate X1 (viewRawIncorporate X1 wz rowid k) rowid) := by
  rw [viewUnincorporate_viewRawIncorporate X1 wz rowid k h1 h2 h3]
  exact ViewRestored_trans w0 wz _ hz (ViewRestored_zombie X1 wz rowid k _)

/-- The per-view round trip of `State.incorporate`/`State.unincorporate`:
incorporating a fresh row (into a named cluster, or provisionally followed
by one Gibbs transition) and then unincorporating it restores the view's
concentration, row partition, occupancies and every Dim up to appended
empty-statistics cluster entries. -/
theorem viewUnincorporate_viewIncorporate (X1 : Dataset) (w : ViewState)
    (rowid : ℕ) (kq : Option ℕ) (draw : List ℚ → List ℕ → ℕ)
    (h1 : rowid ∉ alistKeys w.Zr)
    (h2 : ∀ j ∈ alistKeys w.counts,
      ∃ n, alistGet w.counts j = some n ∧ 1 ≤ n)
    (h3 : ∀ p ∈ w.dims, ∀ j ∈ alistKeys p.2.clusters,
      j ∈ alistKeys w.counts) :
    ViewRestored w
      (viewUnincorporate X1 (viewIncorporate X1 w rowid kq draw) rowid) := by
  cases kq with
  | some k =>
      have hik : viewIncorporate X1 w rowid (some k) draw =
          viewRawIncorporate X1 w rowid k := rfl
      rw [hik]
      exact ViewRestored_zombie_step X1 w w rowid k
        ⟨rfl, rfl, rfl, List.forall₂_same.mpr
          (fun p _ => ⟨rfl, DimRestored_refl p.2⟩)⟩ h1 h2 h3
  | none =>
      have hik : viewIncorporate X1 w rowid none draw =
          gibbsTransitionRow X1 (viewRawIncorporate X1 w rowid 0) rowid
            draw := rfl
      rw [hik]
      have hzr1 : (alistGet (viewRawIncorporate X1 w rowid 0).Zr
          rowid).getD 0 = 0 := by
        simp [viewRawIncorporate, crpIncorporate, alistGet_insert_self]
      have hchurn : ∀ p ∈ (viewRawIncorporate X1 w rowid 0).dims,
          (cellValue X1 p.1 rowid).isSome →
          ∃ u, alistGet p.2.clusters
              ((alistGet (viewRawIncorporate X1 w rowid 0).Zr
                rowid).getD 0) = some u ∧ 1 ≤ u.N := by
        rw [hzr1]
        intro p hp hx
        have hdims : (viewRawIncorporate X1 w rowid 0).dims =
            w.dims.map (fun q =>
              (q.1, dimIncorporate q.2 (cellValue X1 q.1 rowid) 0)) := rfl
        rw [hdims] at hp
        obtain ⟨q, hq, rfl⟩ := List.mem_map.mp hp
        dsimp only at hx ⊢
        cases hxv : cellValue X1 q.1 rowid with
        | none => rw [hxv] at hx; exact absurd hx (by simp)
        | some v =>
            refine ⟨suffIncorporate
              ((alistGet q.2.clusters 0).getD emptySuff) v, ?_, ?_⟩
            · simp [dimIncorporate, alistGet_insert_self]
            · dsimp only [suffIncorporate]
              omega
      have hstate := logpdfRowGibbs_state X1
        (viewRawIncorporate X1 w rowid 0) rowid
        (gibbsTables (viewRawIncorporate X1 w rowid 0) (some rowid) 1)
        hchurn
      have hgt : gibbsTransitionRow X1 (viewRawIncorporate X1 w rowid 0)
          rowid draw =
          if (alistGet (viewRawIncorporate X1 w rowid 0).Zr rowid).getD 0 ≠
              gibbsDrawnCluster X1 (viewRawIncorporate X1 w rowid 0) rowid
                draw
          then migrateRow X1 (viewRawIncorporate X1 w rowid 0) rowid
            (gibbsDrawnCluster X1 (viewRawIncorporate X1 w rowid 0) rowid
              draw)
          else viewRawIncorporate X1 w rowid 0 := by
        unfold gibbsTransitionRow gibbsDrawnCluster
        simp only [hstate]
      rw [hgt]
      by_cases hne : (alistGet (viewRawIncorporate X1 w rowid 0).Zr
          rowid).getD 0 ≠
          gibbsDrawnCluster X1 (viewRawIncorporate X1 w rowid 0) rowid draw
      · rw [if_pos hne]
        have hmig : migrateRow X1 (viewRawIncorporate X1 w rowid 0) rowid
            (gibbsDrawnCluster X1 (viewRawIncorporate X1 w rowid 0) rowid
              draw) =
            viewRawIncorporate X1
              (viewUnincorporate X1 (viewRawIncorporate X1 w rowid 0)
                rowid) rowid
              (gibbsDrawnCluster X1 (viewRawIncorporate X1 w rowid 0)
                rowid draw) := rfl
        rw [hmig,
          viewUnincorporate_viewRawIncorporate X1 w rowid 0 h1 h2 h3]
        have h3z : ∀ p ∈ w.dims.map (fun p =>
            (p.1, dimZombie (cellValue X1 p.1 rowid) 0
              (0 ∈ alistKeys w.counts) p.2)),
            ∀ j ∈ alistKeys p.2.clusters, j ∈ alistKeys w.counts := by
          intro p hp j hj
          obtain ⟨q, hq, rfl⟩ := List.mem_map.mp hp
          dsimp only at hj
          unfold dimZombie at hj
          split at hj
          next hcond =>
            dsimp only at hj
            have hj2 : j ∈ alistKeys q.2.clusters ∨ j = 0 := by
              simpa [alistKeys] using hj
            rcases hj2 with hj2 | rfl
            · exact h3 q hq j hj2
            · exact hcond.2.2
          next hcond =>
            exact h3 q hq j hj
        apply ViewRestored_zombie_step X1 w _ rowid _
          (ViewRestored_zombie X1 w rowid 0 _) h1 h2 h3z
      · rw [if_neg hne]
        exact ViewRestored_zombie_step X1 w w rowid 0
          ⟨rfl, rfl, rfl, List.forall₂_same.mpr
            (fun p _ => ⟨rfl, DimRestored_refl p.2⟩)⟩ h1 h2 h3

/-- C3: on a well-formed State (all column models are the collapsed
Beta-Bernoulli family) with at least one row, incorporating a new row at
rowid = n_rows with a valid query and then unincorporating that same rowid
both succeed; the round trip restores the dataset, and for every view (in
order, with its id) the row partition, every cluster occupancy count, and
every per-cluster sufficient statistic of every Dim, and it restores the
value of logpdf_score exactly. -/
theorem state_incorporate_unincorporate_restores (s : StateModel)
    (vals : List (Nat × ℚ)) (clus : List (Nat × Nat))
    (draws : ℕ → List ℚ → List ℕ → ℕ)
    (hWF : StateWF s) (hrows : 1 ≤ nRows s)
    (hclus : clus.all (fun p => decide (p.1 ∈
      (alistKeys s.views).map crpIdView)) = true)
    (hvals : vals.all (fun p => decide (p.1 ∈ s.outputs)) = true) :
    ∃ s1 s2,
      stateIncorporate s (nRows s) vals clus draws = .ok s1 ∧
      stateUnincorporate s1 (nRows s) = .ok s2 ∧
      s2.X = s.X ∧ s2.alpha = s.alpha ∧ s2.Zv = s.Zv ∧ s2.Nv = s.Nv ∧
      List.Forall₂ (fun p q => p.1 = q.1 ∧ ViewRestored p.2 q.2 ∧
        q.2.counts = p.2.counts ∧
        List.Forall₂ (fun a b => a.1 = b.1 ∧
          ∀ j, dimStats b.2 j = dimStats a.2 j) p.2.dims q.2.dims)
        s.views s2.views ∧
      stateScore s2 = stateScore s := by
  obtain ⟨hne, hnodX, hkeys, hlen, hnodV, hviews⟩ := hWF
  have hX1 : List.foldl (fun X c => alistInsert X c
        (((alistGet X c).getD []) ++ [alistGet vals c])) s.X s.outputs =
      s.X.map (fun p => (p.1, p.2 ++ [alistGet vals p.1])) := by
    rw [← hkeys]
    exact foldl_insert_pointwise []
      (fun c col => col ++ [alistGet vals c]) s.X hnodX
  have hmapget : ∀ c, alistGet (s.X.map (fun p =>
        (p.1, p.2 ++ [alistGet vals p.1]))) c =
      (alistGet s.X c).map (fun col => col ++ [alistGet vals c]) :=
    fun c => alistGet_map_snd s.X (fun c col => col ++ [alistGet vals c]) c
  have hkeys1 : alistKeys (s.X.map (fun p =>
        (p.1, p.2 ++ [alistGet vals p.1]))) = s.outputs :=
    (alistKeys_map_snd s.X
      (fun c col => col ++ [alistGet vals c])).trans hkeys
  obtain ⟨s1, hinc, h1out, h1X, h1alpha, h1Zv, h1Nv, h1views⟩ :
      ∃ s1, stateIncorporate s (nRows s) vals clus draws = .ok s1 ∧
        s1.outputs = s.outputs ∧
        s1.X = s.X.map (fun p => (p.1, p.2 ++ [alistGet vals p.1])) ∧
        s1.alpha = s.alpha ∧ s1.Zv = s.Zv ∧ s1.Nv = s.Nv ∧
        s1.views = s.views.map (fun p =>
          (p.1, viewIncorporate
            (s.X.map (fun r => (r.1, r.2 ++ [alistGet vals r.1])))
            p.2 (nRows s) (alistGet clus (crpIdView p.1)) (draws p.1))) := by
    refine ⟨{ s with
        X := s.X.map (fun p => (p.1, p.2 ++ [alistGet vals p.1])),
        views := s.views.map (fun p =>
          (p.1, viewIncorporate
            (s.X.map (fun r => (r.1, r.2 ++ [alistGet vals r.1])))
            p.2 (nRows s) (alistGet clus (crpIdView p.1)) (draws p.1))) },
      ?_, rfl, rfl, rfl, rfl, rfl, rfl⟩
    unfold stateIncorporate
    rw [if_neg (fun h => h rfl), if_neg (not_not_intro hclus),
      if_neg (not_not_intro hvals)]
    simp only [hX1]
  have hlen1 : ∀ c ∈ s.outputs,
      ((alistGet s1.X c).getD []).length = nRows s + 1 := by
    intro c hc
    have hcX : c ∈ alistKeys s.X := by rw [hkeys]; exact hc
    obtain ⟨col, hcol⟩ := alistGet_isSome_of_mem s.X c hcX
    have hcl : col.length = nRows s := by
      have := hlen c hc
      rw [hcol] at this
      simpa using this
    rw [h1X, hmapget c, hcol]
    simp [hcl]
  have hnrows1 : nRows s1 = nRows s + 1 := by
    cases houts : s.outputs with
    | nil => exact absurd houts hne
    | cons c0 rest =>
        have hc0 : c0 ∈ s.outputs := by
          rw [houts]; exact List.mem_cons_self _ _
        have hh : nRows s1 = ((alistGet s1.X c0).getD []).length := by
          unfold nRows
          rw [h1out, houts]
          rfl
        rw [hh]
        exact hlen1 c0 hc0
  obtain ⟨s2, huninc, h2out, h2X, h2alpha, h2Zv, h2Nv, h2views⟩ :
      ∃ s2, stateUnincorporate s1 (nRows s) = .ok s2 ∧
        s2.outputs = s.outputs ∧ s2.X = s.X ∧ s2.alpha = s.alpha ∧
        s2.Zv = s.Zv ∧ s2.Nv = s.Nv ∧
        s2.views = s1.views.map (fun p =>
          (p.1, viewUnincorporate s1.X p.2 (nRows s))) := by
    refine ⟨{ s1 with X := s.X, views := s1.views.map (fun p =>
        (p.1, viewUnincorporate s1.X p.2 (nRows s))) },
      ?_, h1out, rfl, h1alpha, h1Zv, h1Nv, rfl⟩
    unfold stateUnincorporate
    have hg1 : ¬ (nRows s ≠ nRows s1 - 1) := by
      rw [hnrows1]
      omega
    have hg2 : ¬ (nRows s1 = 1) := by
      rw [hnrows1]
      omega
    rw [if_neg hg1, if_neg hg2]
    have hX2 : List.foldl (fun X c => alistInsert X c
        ((alistGet X c).getD []).dropLast) s1.X s1.outputs = s.X := by
      rw [h1X, h1out, ← hkeys1]
      refine (foldl_insert_pointwise []
        (fun c col => col.dropLast) _ ?_).trans ?_
      · unfold NodupKeys
        rw [hkeys1, ← hkeys]
        exact hnodX
      · rw [List.map_map]
        refine (List.map_congr_left ?_).trans (List.map_id s.X)
        intro p hp
        simp [List.dropLast_concat]
    simp only [hX2]
  have hforall : List.Forall₂ (fun p q =>
      p.1 = q.1 ∧ ViewRestored p.2 q.2) s.views s2.views := by
    rw [h2views, h1views, h1X, List.map_map]
    rw [List.forall₂_map_right_iff]
    refine List.forall₂_same.mpr ?_
    intro p hp
    dsimp only [Function.comp]
    refine ⟨rfl, ?_⟩
    have hv := hviews p hp
    have a1 : nRows s ∉ alistKeys p.2.Zr := by
      intro hmem
      obtain ⟨q, hq, hqe⟩ := List.mem_map.mp hmem
      have := hv.2.1 q hq
      omega
    exact viewUnincorporate_viewIncorporate _ p.2 (nRows s) _ _ a1
      (viewWF_counts_exists s.X (nRows s) p.2 hv)
      (viewWF_dims_sub s.X (nRows s) p.2 hv)
  have hforall2 : List.Forall₂ (fun p q => p.1 = q.1 ∧
      ViewRestored p.2 q.2 ∧ q.2.counts = p.2.counts ∧
      List.Forall₂ (fun a b => a.1 = b.1 ∧
        ∀ j, dimStats b.2 j = dimStats a.2 j) p.2.dims q.2.dims)
      s.views s2.views := by
    refine hforall.imp ?_
    intro a b hab
    exact ⟨hab.1, hab.2, hab.2.2.2.1,
      hab.2.2.2.2.imp (fun x y hxy =>
        ⟨hxy.1, fun j => DimRestored_stats _ _ hxy.2 j⟩)⟩
  have hscore : stateScore s2 = stateScore s := by
    unfold stateScore
    rw [h2Zv, h2Nv, h2alpha]
    congr 1
    exact forall2_viewScore_sum s.views s2.views
      (hforall.imp (fun a b hab => hab.2))
  exact ⟨s1, s2, hinc, huninc, h2X, h2alpha, h2Zv, h2Nv, hforall2, hscore⟩

theorem testState_WF : StateWF testState := by
  refine ⟨by decide, by decide, by decide, by decide, by decide, ?_⟩
  intro p hp
  have hp0 : p = (0, testView) := by simpa [testState] using hp
  subst hp0
  exact testView_WF

/-- C3 witness: at the example state, incorporating the row (1, 1) at
rowid 1 and unincorporating it again restores everything. -/
theorem state_incorporate_unincorporate_restores_witness :
    ∃ s1 s2,
      stateIncorporate testState (nRows testState) [(0, 1), (1, 1)] []
        (fun _ _ _ => 0) = .ok s1 ∧
      stateUnincorporate s1 (nRows testState) = .ok s2 ∧
      s2.X = testState.X ∧ s2.alpha = testState.alpha ∧
      s2.Zv = testState.Zv ∧ s2.Nv = testState.Nv ∧
      List.Forall₂ (fun p q => p.1 = q.1 ∧ ViewRestored p.2 q.2 ∧
        q.2.counts = p.2.counts ∧
        List.Forall₂ (fun a b => a.1 = b.1 ∧
          ∀ j, dimStats b.2 j = dimStats a.2 j) p.2.dims q.2.dims)
        testState.views s2.views ∧
      stateScore s2 = stateScore testState :=
  state_incorporate_unincorporate_restores testState [(0, 1), (1, 1)] []
    (fun _ _ _ => 0) testState_WF (by decide) (by decide) (by decide)

/-! ## Claim C4: serialization round trip

Further association-list facts: dicts with no duplicate keys and equal
lookups are permutations of each other (Python dict equality). -/

theorem NodupKeys_insert {β : Type} (l : List (Nat × β)) (k : Nat) (v : β)
    (h : NodupKeys l) : NodupKeys (alistInsert l k v) := by
  unfold NodupKeys
  rw [alistKeys_insert]
  split
  · exact h
  · next hk =>
      simpa [List.nodup_append] using ⟨h, fun hc => hk hc⟩

theorem foldl_insert_fresh {β : Type} :
    ∀ (l : List (Nat × β)) (acc : List (Nat × β)), NodupKeys l →
    (∀ p ∈ l, p.1 ∉ alistKeys acc) →
    l.foldl (fun A p => alistInsert A p.1 p.2) acc = acc ++ l := by
  intro l
  induction l with
  | nil => intro acc _ _; simp
  | cons q t ih =>
      intro acc hnod hfresh
      obtain ⟨k, v⟩ := q
      have hk : k ∉ alistKeys acc := hfresh (k, v) (List.mem_cons_self _ _)
      have hknod := List.nodup_cons.mp hnod
      simp only [List.foldl_cons]
      rw [alistInsert_of_not_mem acc k v hk]
      rw [ih (acc ++ [(k, v)]) hknod.2 ?_]
      · simp
      · intro p hp hmem
        have hkeys : alistKeys (acc ++ [(k, v)]) =
            alistKeys acc ++ [k] := by simp [alistKeys]
        rw [hkeys] at hmem
        rcases List.mem_append.mp hmem with h | h
        · exact hfresh p (List.mem_cons_of_mem _ hp) h
        · have : p.1 = k := by simpa using h
          exact hknod.1 (this ▸ (List.mem_map.mpr ⟨p, hp, rfl⟩))

theorem alistGet_erase_ne {β : Type} (l : List (Nat × β)) (k j : Nat)
    (h : j ≠ k) : alistGet (alistErase l k) j = alistGet l j := by
  induction l with
  | nil => rfl
  | cons p t ih =>
      obtain ⟨k1, v1⟩ := p
      by_cases h1 : k1 = k
      · subst h1
        have he : alistErase ((k1, v1) :: t) k1 = t := by
          simp [alistErase]
        rw [he]
        simp only [alistGet]
        rw [if_neg (fun hc => h hc.symm)]
      · simp only [alistErase, if_neg h1, alistGet]
        by_cases h2 : k1 = j
        · rw [if_pos h2, if_pos h2]
        · rw [if_neg h2, if_neg h2, ih]

theorem alistGet_erase_self {β : Type} (l : List (Nat × β)) (k : Nat)
    (h : NodupKeys l) : alistGet (alistErase l k) k = none := by
  induction l with
  | nil => rfl
  | cons p t ih =>
      obtain ⟨k1, v1⟩ := p
      have hh := List.nodup_cons.mp h
      by_cases h1 : k1 = k
      · subst h1
        simp only [alistErase, if_pos rfl]
        exact alistGet_eq_none t k1 (by simpa [alistKeys] using hh.1)
      · simp [alistErase, alistGet, h1, ih hh.2]

theorem mem_alistKeys_erase_sub {β : Type} (l : List (Nat × β)) (k j : Nat)
    (h : j ∈ alistKeys (alistErase l k)) : j ∈ alistKeys l := by
  induction l with
  | nil => exact absurd h (by simp [alistErase, alistKeys])
  | cons p t ih =>
      obtain ⟨k1, v1⟩ := p
      by_cases h1 : k1 = k
      · subst h1
        simp only [alistErase, if_pos rfl] at h
        exact by simpa [alistKeys] using Or.inr h
      · simp only [alistErase, if_neg h1] at h
        rcases by simpa [alistKeys] using h with h2 | h2
        · simp [alistKeys, h2]
        · have := ih (by simpa [alistKeys] using h2)
          simpa [alistKeys] using Or.inr this

theorem NodupKeys_erase {β : Type} (l : List (Nat × β)) (k : Nat)
    (h : NodupKeys l) : NodupKeys (alistErase l k) := by
  induction l with
  | nil => exact h
  | cons p t ih =>
      obtain ⟨k1, v1⟩ := p
      have hh := List.nodup_cons.mp h
      by_cases h1 : k1 = k
      · subst h1
        simp only [alistErase, if_pos rfl]
        exact hh.2
      · simp only [alistErase, if_neg h1]
        refine List.nodup_cons.mpr ⟨?_, ih hh.2⟩
        intro hc
        exact hh.1 (by
          have := mem_alistKeys_erase_sub t k k1 (by simpa [alistKeys] using hc)
          simpa [alistKeys] using this)

theorem perm_cons_erase_alist {β : Type} (l : List (Nat × β)) (k : Nat)
    (v : β) (h : alistGet l k = some v) :
    l.Perm ((k, v) :: alistErase l k) := by
  induction l with
  | nil => exact absurd h (by simp [alistGet])
  | cons p t ih =>
      obtain ⟨k1, v1⟩ := p
      by_cases h1 : k1 = k
      · subst h1
        have hv : v1 = v := by simpa [alistGet] using h
        subst hv
        simp [alistErase]
      · have hget : alistGet t k = some v := by simpa [alistGet, h1] using h
        simp only [alistErase, if_neg h1]
        exact ((ih hget).cons (k1, v1)).trans (List.Perm.swap _ _ _)

theorem alistPerm {β : Type} :
    ∀ (l1 l2 : List (Nat × β)), NodupKeys l1 → NodupKeys l2 →
    (∀ k, alistGet l1 k = alistGet l2 k) → l1.Perm l2 := by
  intro l1
  induction l1 with
  | nil =>
      intro l2 _ _ h
      cases l2 with
      | nil => exact List.Perm.refl _
      | cons q t =>
          obtain ⟨k, v⟩ := q
          have := h k
          simp [alistGet] at this
  | cons p t ih =>
      intro l2 h1 h2 h
      obtain ⟨k, v⟩ := p
      have hh1 := List.nodup_cons.mp h1
      have hget2 : alistGet l2 k = some v := by
        have := h k
        simpa [alistGet] using this.symm
      have hperm2 := perm_cons_erase_alist l2 k v hget2
      have hrest : t.Perm (alistErase l2 k) := by
        refine ih (alistErase l2 k) hh1.2 (NodupKeys_erase l2 k h2) ?_
        intro j
        by_cases hj : j = k
        · subst hj
          rw [alistGet_erase_self l2 j h2]
          exact alistGet_eq_none t j (by simpa [alistKeys] using hh1.1)
        · rw [alistGet_erase_ne l2 k j hj, ← h j]
          simp only [alistGet]
          rw [if_neg (fun hc => hj hc.symm)]
      exact (hrest.cons (k, v)).trans hperm2.symm

/-- One CRP occupancy increment (`counts[k] += 1`, created at 1). -/
def bumpCounts (cnt : List (Nat × Nat)) (z : ℕ) : List (Nat × Nat) :=
  alistInsert cnt z ((alistGet cnt z).getD 0 + 1)

/-- Number of occurrences of `k` in a list of cluster ids. -/
def countOcc (zs : List ℕ) (k : ℕ) : ℕ :=
  (zs.filter (fun z => z == k)).length

theorem countOcc_cons (z : ℕ) (t : List ℕ) (k : ℕ) :
    countOcc (z :: t) k =
      if z = k then countOcc t k + 1 else countOcc t k := by
  unfold countOcc
  by_cases hz : z = k
  · subst hz
    rw [if_pos rfl, List.filter_cons_of_pos (by simp)]
    rfl
  · rw [if_neg hz, List.filter_cons_of_neg (by simpa using hz)]

theorem foldBump_get :
    ∀ (zs : List ℕ) (cnt : List (Nat × Nat)) (k : ℕ),
    alistGet (zs.foldl bumpCounts cnt) k =
      if alistGet cnt k = none ∧ countOcc zs k = 0 then none
      else some ((alistGet cnt k).getD 0 + countOcc zs k) := by
  intro zs
  induction zs with
  | nil =>
      intro cnt k
      cases h : alistGet cnt k <;> simp [h, countOcc]
  | cons z t ih =>
      intro cnt k
      simp only [List.foldl_cons]
      rw [ih, countOcc_cons]
      by_cases hzk : z = k
      · subst hzk
        have hb : alistGet (bumpCounts cnt z) z =
            some ((alistGet cnt z).getD 0 + 1) := alistGet_insert_self _ _ _
        rw [hb, if_pos rfl]
        have h1 : ¬ ((some ((alistGet cnt z).getD 0 + 1) :
            Option ℕ) = none ∧ countOcc t z = 0) := by simp
        have h2 : ¬ (alistGet cnt z = none ∧ countOcc t z + 1 = 0) := by
          simp
        rw [if_neg h1, if_neg h2]
        simp only [Option.getD_some, Option.some.injEq]
        omega
      · have hb : alistGet (bumpCounts cnt z) k = alistGet cnt k :=
          alistGet_insert_ne cnt z k _ hzk
        rw [hb, if_neg hzk]

theorem NodupKeys_foldBump (zs : List ℕ) :
    ∀ (cnt : List (Nat × Nat)), NodupKeys cnt →
    NodupKeys (zs.foldl bumpCounts cnt) := by
  induction zs with
  | nil => intro cnt h; exact h
  | cons z t ih =>
      intro cnt h
      exact ih _ (NodupKeys_insert _ _ _ h)

theorem occupancy_eq_countOcc (Zr : List (Nat × Nat)) (k : ℕ) :
    occupancy Zr k = countOcc (Zr.map Prod.snd) k := by
  induction Zr with
  | nil => rfl
  | cons p t ih =>
      obtain ⟨r, z⟩ := p
      rw [List.map_cons, countOcc_cons]
      unfold occupancy
      by_cases hz : z = k
      · subst hz
        rw [if_pos rfl, List.filter_cons_of_pos (by simp)]
        simp only [List.length_cons]
        unfold occupancy at ih
        rw [ih]
      · rw [if_neg hz, List.filter_cons_of_neg (by simpa using hz)]
        exact ih

theorem occupancy_perm (l1 l2 : List (Nat × Nat)) (h : l1.Perm l2)
    (k : ℕ) : occupancy l1 k = occupancy l2 k :=
  (h.filter _).length_eq

theorem clusterVals_perm (X : Dataset) (c : ℕ)
    (l1 l2 : List (Nat × Nat)) (h : l1.Perm l2) (k : ℕ) :
    (clusterVals X c l1 k).Perm (clusterVals X c l2 k) :=
  (h.filter _).filterMap _

theorem derivedSuff_perm (X : Dataset) (c : ℕ)
    (l1 l2 : List (Nat × Nat)) (h : l1.Perm l2) (k : ℕ) :
    derivedSuff X c l1 k = derivedSuff X c l2 k := by
  unfold derivedSuff
  have hp := clusterVals_perm X c l1 l2 h k
  rw [hp.length_eq, hp.sum_eq]

theorem alistGet_enumFrom {β : Type} :
    ∀ (l : List β) (i r : ℕ), alistGet (l.enumFrom i) r =
      if i ≤ r then l.get? (r - i) else none := by
  intro l
  induction l with
  | nil =>
      intro i r
      simp [List.enumFrom, alistGet]
  | cons b t ih =>
      intro i r
      simp only [List.enumFrom, alistGet]
      by_cases hir : i = r
      · subst hir
        rw [if_pos rfl, if_pos (le_refl i)]
        simp
      · rw [if_neg hir, ih]
        by_cases hle : i ≤ r
        · have h1 : i + 1 ≤ r := by omega
          rw [if_pos h1, if_pos hle]
          have h2 : r - i = (r - (i + 1)) + 1 := by omega
          rw [h2]
          rfl
        · rw [if_neg (by omega), if_neg hle]

theorem alistGet_enum {β : Type} (l : List β) (r : ℕ) :
    alistGet l.enum r = l.get? r := by
  have := alistGet_enumFrom l 0 r
  simpa [List.enum] using this

theorem alistKeys_enum {β : Type} (l : List β) :
    alistKeys l.enum = List.range l.length := by
  exact List.enum_map_fst l

theorem getD_range_map {β : Type} (l : List β) (d : β) :
    (List.range l.length).map (fun r => l.getD r d) = l := by
  refine List.ext_get (by simp) ?_
  intro n h1 h2
  rw [List.get_map]
  have hn : n < l.length := by simpa using h2
  have hr : (List.range l.length).get ⟨n, by simpa using h1⟩ = n := by
    simp
  rw [hr, List.getD_eq_getElem l d hn]
  simp

theorem sorted_keys_range (keys : List ℕ) (n : ℕ) (hnd : keys.Nodup)
    (hlt : ∀ k ∈ keys, k < n) (hall : ∀ r < n, r ∈ keys) :
    List.insertionSort (fun a b => a ≤ b) keys = List.range n := by
  have hperm : keys.Perm (List.range n) := by
    rw [List.perm_ext_iff_of_nodup hnd (List.nodup_range n)]
    intro a
    constructor
    · intro ha
      exact List.mem_range.mpr (hlt a ha)
    · intro ha
      exact hall a (List.mem_range.mp ha)
  have hs1 : List.Sorted (fun a b : ℕ => a ≤ b)
      (List.insertionSort (fun a b => a ≤ b) keys) :=
    List.sorted_insertionSort _ keys
  have hs2 : List.Sorted (fun a b : ℕ => a ≤ b) (List.range n) :=
    (List.pairwise_lt_range n).imp le_of_lt
  exact List.eq_of_perm_of_sorted
    ((List.perm_insertionSort _ keys).trans hperm) hs1 hs2

theorem alistGet_keyMap {β : Type} :
    ∀ (ks : List ℕ) (f : ℕ → β) (v : ℕ),
    alistGet (ks.map (fun k => (k, f k))) v =
      if v ∈ ks then some (f v) else none := by
  intro ks
  induction ks with
  | nil => intro f v; simp [alistGet]
  | cons a t ih =>
      intro f v
      simp only [List.map_cons, alistGet]
      by_cases ha : a = v
      · subst ha
        rw [if_pos rfl, if_pos (List.mem_cons_self _ _)]
      · rw [if_neg ha, ih]
        by_cases hv : v ∈ t
        · rw [if_pos hv, if_pos (List.mem_cons_of_mem _ hv)]
        · rw [if_neg hv, if_neg (by
            intro hc
            rcases List.mem_cons.mp hc with h | h
            · exact ha h.symm
            · exact hv h)]

theorem map_getD_indexOf {β : Type} :
    ∀ (l : List ℕ) (f : ℕ → β) (c : ℕ) (d : β), c ∈ l →
    (l.map f).getD (l.indexOf c) d = f c := by
  intro l
  induction l with
  | nil => intro f c d hc; exact absurd hc (List.not_mem_nil c)
  | cons a t ih =>
      intro f c d hc
      by_cases hac : a = c
      · subst hac
        simp [List.indexOf_cons_self]
      · have hct : c ∈ t := by
          rcases List.mem_cons.mp hc with h | h
          · exact absurd h.symm hac
          · exact h
        rw [List.indexOf_cons_ne _ (by simpa using hac)]
        simpa using ih f c d hct

theorem alistGet_get_self {β : Type} :
    ∀ (l : List (Nat × β)), NodupKeys l → ∀ (j : Fin l.length),
    alistGet l (l.get j).1 = some (l.get j).2 := by
  intro l
  induction l with
  | nil => intro _ j; exact absurd j.2 (by simp)
  | cons p t ih =>
      intro hnod j
      obtain ⟨k, v⟩ := p
      have hh := List.nodup_cons.mp hnod
      match j with
      | ⟨0, h0⟩ => simp [alistGet]
      | ⟨m + 1, hm⟩ =>
          have hmem : (t.get ⟨m, by simpa using hm⟩).1 ∈ alistKeys t := by
            exact List.mem_map.mpr ⟨t.get ⟨m, by simpa using hm⟩,
              List.get_mem _ _ _, rfl⟩
          have hne : k ≠ (t.get ⟨m, by simpa using hm⟩).1 := by
            intro hc
            exact hh.1 (hc ▸ hmem)
          simp only [List.get_cons_succ, alistGet, if_neg hne]
          exact ih hh.2 _

/-- The metadata dict of `State.to_metadata` (state.py lines 1073-1115),
keeping the fields the reconstruction reads: the row-major dataset, the
outputs, the column CRP concentration and assignment items, the per-column
hyperparameters (in `dims()` = outputs order), the per-view row partition
value lists (row-sorted) and the per-view concentrations.  `cctypes` and
`distargs` are constant over the one embedded column family and
`diagnostics`, `hooked_cgpms`, `loom_path` and `factory` do not affect the
reconstructed model. -/
structure Metadata where
  X : List (List (Option ℚ))
  outputs : List ℕ
  alpha : ℚ
  Zv : List (Nat × Nat)
  hypers : List (ℚ × ℚ)
  Zrv : List (Nat × List ℕ)
  view_alphas : List (Nat × ℚ)

/-- `State.dim_for(c)` = `views[Zv(c)].dims[c]` (state.py lines 908-915). -/
def dimFor (s : StateModel) (c : ℕ) : DimState :=
  (alistGet ((alistGet s.views ((alistGet s.Zv c).getD 0)).getD
    ⟨1, [], [], []⟩).dims c).getD ⟨1, 1, []⟩

/-- `State.data_array()` (state.py lines 831-833): the dataset as a
row-major matrix (`np.asarray(self.X.values()).T`). -/
def dataArray (s : StateModel) : List (List (Option ℚ)) :=
  (List.range (nRows s)).map (fun r =>
    s.outputs.map (fun c => cellValue s.X c r))

/-- `State.to_metadata` (state.py lines 1073-1115). -/
def toMetadata (s : StateModel) : Metadata :=
  { X := dataArray s,
    outputs := s.outputs,
    alpha := s.alpha,
    Zv := s.Zv,
    hypers := s.outputs.map (fun c => ((dimFor s c).alpha, (dimFor s c).beta)),
    Zrv := s.views.map (fun p =>
      (p.1, (List.insertionSort (fun a b => a ≤ b) (alistKeys p.2.Zr)).map
        (fun i => (alistGet p.2.Zr i).getD 0))),
    view_alphas := s.views.map (fun p => (p.1, p.2.alpha)) }

/-- `View.__init__` with an explicit row partition (view.py lines 100-107
and 109-124): the row CRP replays `Zr` by `enumerate`, then every Dim is
built and `_bulk_incorporate`d over the row partition (view.py lines
461-473). -/
def viewFromData (X1 : Dataset) (vout : List ℕ) (hypers : List (ℚ × ℚ))
    (alpha : ℚ) (zr : List ℕ) : ViewState :=
  let w1 := zr.enum.foldl (fun w p => crpIncorporate w p.1 p.2)
    { alpha := alpha, Zr := [], counts := [], dims := [] }
  let dims := (vout.zip hypers).map (fun q =>
    (q.1, w1.Zr.foldl
      (fun d p => dimIncorporate d (cellValue X1 q.1 p.1) p.2)
      ⟨q.2.1, q.2.2, []⟩))
  { w1 with dims := dims }

/-- `State.from_metadata` composed with `State.__init__` (state.py lines
1121-1148 and 48-165): the dataset is split back into columns in outputs
order, the column CRP replays the `Zv` items, and each view id
(`set(self.Zv().values())`, embedded in first-appearance order — the
iteration order of a Python 2 set of ints is implementation-defined and
nothing below depends on it) rebuilds its View from its columns, hypers,
concentration and row partition. -/
def stateFromMetadata (m : Metadata) : StateModel :=
  let X1 : Dataset := m.outputs.enum.map (fun p =>
    (p.2, m.X.map (fun row => row.getD p.1 none)))
  let Zv1 := m.Zv.foldl (fun A p => alistInsert A p.1 p.2) []
  let Nv1 := m.Zv.foldl (fun N p => bumpCounts N p.2) []
  let views := ((m.Zv.map Prod.snd).dedup).map (fun v =>
    let vout := m.outputs.filter (fun c => alistGet Zv1 c == some v)
    let vhyp := vout.map (fun c => m.hypers.getD (m.outputs.indexOf c) (1, 1))
    (v, viewFromData X1 vout vhyp
      ((alistGet m.view_alphas v).getD 1)
      ((alistGet m.Zrv v).getD [])))
  { outputs := m.outputs, X := X1, alpha := m.alpha,
    Zv := Zv1, Nv := Nv1, views := views }

/-- The structural invariants of a reachable State used by the
serialization round trip (`_check_partitions`, state.py lines 1036-1068):
distinct outputs, a column assignment keyed exactly by the outputs, view
occupancies tracking the column assignment, views keyed exactly by the
assigned view ids, and each view holding exactly its assigned columns. -/
def SerialWF (s : StateModel) : Prop :=
  StateWF s ∧
  s.outputs.Nodup ∧
  NodupKeys s.Zv ∧ alistKeys s.Zv = s.outputs ∧
  NodupKeys s.Nv ∧
  (∀ k ∈ alistKeys s.Nv, alistGet s.Nv k = some (occupancy s.Zv k) ∧
    1 ≤ occupancy s.Zv k) ∧
  (∀ p ∈ s.Zv, p.2 ∈ alistKeys s.Nv) ∧
  (∀ p ∈ s.Zv, p.2 ∈ alistKeys s.views) ∧
  (∀ v ∈ alistKeys s.views, ∃ p ∈ s.Zv, p.2 = v) ∧
  (∀ q ∈ s.views, (∀ c ∈ alistKeys q.2.dims, alistGet s.Zv c = some q.1) ∧
    (∀ p ∈ s.Zv, p.2 = q.1 → p.1 ∈ alistKeys q.2.dims))

instance decidableSerialWF (s : StateModel) : Decidable (SerialWF s) := by
  unfold SerialWF
  infer_instance

theorem foldCrp_fields :
    ∀ (l : List (Nat × Nat)) (w : ViewState),
    (l.foldl (fun w p => crpIncorporate w p.1 p.2) w).Zr =
      l.foldl (fun A p => alistInsert A p.1 p.2) w.Zr ∧
    (l.foldl (fun w p => crpIncorporate w p.1 p.2) w).counts =
      (l.map Prod.snd).foldl bumpCounts w.counts ∧
    (l.foldl (fun w p => crpIncorporate w p.1 p.2) w).alpha = w.alpha ∧
    (l.foldl (fun w p => crpIncorporate w p.1 p.2) w).dims = w.dims := by
  intro l
  induction l with
  | nil => intro w; exact ⟨rfl, rfl, rfl, rfl⟩
  | cons q t ih =>
      intro w
      simp only [List.foldl_cons, List.map_cons]
      exact ih (crpIncorporate w q.1 q.2)

/-- The clusters of a Dim hold exactly the derived sufficient statistics of
the clusters with at least one non-missing member of the given row
partition. -/
def ClustersDerived (X : Dataset) (c : ℕ) (zr : List (Nat × Nat))
    (d : DimState) : Prop :=
  ∀ k, alistGet d.clusters k =
    if (clusterVals X c zr k).length = 0 then none
    else some (derivedSuff X c zr k)

theorem clusterVals_append (X : Dataset) (c : ℕ)
    (l1 l2 : List (Nat × Nat)) (k : ℕ) :
    clusterVals X c (l1 ++ l2) k =
      clusterVals X c l1 k ++ clusterVals X c l2 k := by
  unfold clusterVals
  rw [List.filter_append, List.filterMap_append]

theorem bulkDim_derived (X : Dataset) (c : ℕ) :
    ∀ (zr zr0 : List (Nat × Nat)) (d : DimState),
    ClustersDerived X c zr0 d →
    ClustersDerived X c (zr0 ++ zr)
      (zr.foldl (fun d p => dimIncorporate d (cellValue X c p.1) p.2) d) := by
  intro zr
  induction zr with
  | nil => intro zr0 d h; simpa using h
  | cons q t ih =>
      intro zr0 d h
      obtain ⟨r, z⟩ := q
      simp only [List.foldl_cons]
      have hstep : ClustersDerived X c (zr0 ++ [(r, z)])
          (dimIncorporate d (cellValue X c r) z) := by
        intro k
        cases hx : cellValue X c r with
        | none =>
            have hcv : clusterVals X c (zr0 ++ [(r, z)]) k =
                clusterVals X c zr0 k := by
              rw [clusterVals_append]
              have hone : clusterVals X c [(r, z)] k = [] := by
                unfold clusterVals
                by_cases hz : (((r, z) : Nat × Nat).2 == k) = true
                · simp [hz, hx]
                · simp [hz]
              rw [hone, List.append_nil]
            have hds : derivedSuff X c (zr0 ++ [(r, z)]) k =
                derivedSuff X c zr0 k := by
              unfold derivedSuff
              rw [hcv]
            simp only [dimIncorporate]
            rw [hcv, hds]
            exact h k
        | some v =>
            by_cases hzk : z = k
            · subst hzk
              have hcv : clusterVals X c (zr0 ++ [(r, z)]) z =
                  clusterVals X c zr0 z ++ [v] := by
                rw [clusterVals_append]
                have hone : clusterVals X c [(r, z)] z = [v] := by
                  unfold clusterVals
                  simp [hx]
                rw [hone]
              have hget : alistGet (dimIncorporate d (some v) z).clusters
                  z = some (suffIncorporate
                    ((alistGet d.clusters z).getD emptySuff) v) := by
                simp only [dimIncorporate]
                exact alistGet_insert_self _ _ _
              rw [hget]
              have hlen : (clusterVals X c (zr0 ++ [(r, z)]) z).length =
                  (clusterVals X c zr0 z).length + 1 := by
                rw [hcv]
                simp
              rw [if_neg (by omega)]
              have hds : derivedSuff X c (zr0 ++ [(r, z)]) z =
                  ⟨(clusterVals X c zr0 z).length + 1,
                    (clusterVals X c zr0 z).sum + v⟩ := by
                unfold derivedSuff
                rw [hcv]
                simp
              rw [hds]
              by_cases h0 : (clusterVals X c zr0 z).length = 0
              · have hnil : clusterVals X c zr0 z = [] :=
                  List.length_eq_zero.mp h0
                have hz := h z
                rw [if_pos h0] at hz
                rw [hz]
                simp [emptySuff, suffIncorporate, hnil]
              · have hz := h z
                rw [if_neg h0] at hz
                rw [hz]
                simp [Option.getD_some, suffIncorporate, derivedSuff]
            · have hcv : clusterVals X c (zr0 ++ [(r, z)]) k =
                  clusterVals X c zr0 k := by
                rw [clusterVals_append]
                have hone : clusterVals X c [(r, z)] k = [] := by
                  unfold clusterVals
                  simp [hzk]
                rw [hone, List.append_nil]
              have hds : derivedSuff X c (zr0 ++ [(r, z)]) k =
                  derivedSuff X c zr0 k := by
                unfold derivedSuff
                rw [hcv]
              have hget : alistGet (dimIncorporate d (some v) z).clusters
                  k = alistGet d.clusters k := by
                simp only [dimIncorporate]
                exact alistGet_insert_ne _ _ _ _ hzk
              rw [hget, hcv, hds]
              exact h k
      have := ih (zr0 ++ [(r, z)]) _ hstep
      simpa [List.append_assoc] using this

theorem bulkDim_frame (X : Dataset) (c : ℕ) :
    ∀ (zr : List (Nat × Nat)) (d : DimState),
    (zr.foldl (fun d p => dimIncorporate d (cellValue X c p.1) p.2)
      d).alpha = d.alpha ∧
    (zr.foldl (fun d p => dimIncorporate d (cellValue X c p.1) p.2)
      d).beta = d.beta ∧
    (NodupKeys d.clusters → NodupKeys
      (zr.foldl (fun d p => dimIncorporate d (cellValue X c p.1) p.2)
        d).clusters) := by
  intro zr
  induction zr with
  | nil => intro d; exact ⟨rfl, rfl, fun h => h⟩
  | cons q t ih =>
      intro d
      simp only [List.foldl_cons]
      have hstep : (dimIncorporate d (cellValue X c q.1) q.2).alpha =
          d.alpha ∧ (dimIncorporate d (cellValue X c q.1) q.2).beta =
          d.beta ∧ (NodupKeys d.clusters →
            NodupKeys (dimIncorporate d (cellValue X c q.1) q.2).clusters)
          := by
        cases hx : cellValue X c q.1 with
        | none => exact ⟨rfl, rfl, fun h => h⟩
        | some v =>
            refine ⟨rfl, rfl, ?_⟩
            intro h
            simp only [dimIncorporate]
            exact NodupKeys_insert _ _ _ h
      obtain ⟨ha, hb, hn⟩ := ih (dimIncorporate d (cellValue X c q.1) q.2)
      exact ⟨ha.trans hstep.1, hb.trans hstep.2.1,
        fun h => hn (hstep.2.2 h)⟩

theorem zip_self_map {β : Type} (l : List ℕ) (g : ℕ → β) :
    l.zip (l.map g) = l.map (fun a => (a, g a)) := by
  have := List.zip_map' (fun a => a) g l
  simpa using this

theorem alistKeys_keyMap {β : Type} (l : List ℕ) (f : ℕ → β) :
    alistKeys (l.map (fun k => (k, f k))) = l := by
  unfold alistKeys
  rw [List.map_map]
  refine (List.map_congr_left ?_).trans (List.map_id l)
  intro a _
  rfl

theorem logpCrpScore_perm (N : ℕ) (c1 c2 : List (Nat × Nat)) (alpha : ℚ)
    (h : c1.Perm c2) :
    logpCrpScore N c1 alpha = logpCrpScore N c2 alpha := by
  unfold logpCrpScore
  rw [h.length_eq, (h.map _).sum_eq]

theorem dimScore_congr (d3 d : DimState) (ha : d3.alpha = d.alpha)
    (hb : d3.beta = d.beta) (hp : d3.clusters.Perm d.clusters) :
    dimScore d3 = dimScore d := by
  unfold dimScore
  rw [ha, hb, (hp.map _).sum_eq]

theorem alist_score_sum {β : Type} (g : β → ℝ) (l1 l2 : List (Nat × β))
    (h1 : NodupKeys l1) (h2 : NodupKeys l2)
    (h : ∀ k, (alistGet l1 k).map g = (alistGet l2 k).map g) :
    (l1.map (fun p => g p.2)).sum = (l2.map (fun p => g p.2)).sum := by
  have hperm : (l1.map (fun p => (p.1, g p.2))).Perm
      (l2.map (fun p => (p.1, g p.2))) := by
    refine alistPerm _ _ ?_ ?_ ?_
    · unfold NodupKeys
      rw [alistKeys_map_snd l1 (fun k b => g b)]
      exact h1
    · unfold NodupKeys
      rw [alistKeys_map_snd l2 (fun k b => g b)]
      exact h2
    · intro k
      rw [alistGet_map_snd l1 (fun k b => g b), alistGet_map_snd l2
        (fun k b => g b)]
      exact h k
  have hsum := (hperm.map Prod.snd).sum_eq
  simpa [List.map_map, Function.comp] using hsum

/-- The characterization of a View rebuilt by the constructor replay from
its serialized row partition, columns, hyperparameters and concentration:
every piece of the original View is recovered (dicts compared as Python
`==`, pointwise). -/
theorem viewFromData_matches (X : Dataset) (nr : ℕ) (w : ViewState)
    (vout : List ℕ) (hypf : ℕ → ℚ × ℚ)
    (hWFv : ViewWF X nr w)
    (hvnd : vout.Nodup)
    (hvout : ∀ c, c ∈ vout ↔ c ∈ alistKeys w.dims)
    (hhyp : ∀ c ∈ vout, hypf c =
      (((alistGet w.dims c).getD ⟨1, 1, []⟩).alpha,
        ((alistGet w.dims c).getD ⟨1, 1, []⟩).beta)) :
    ∃ w3, viewFromData X vout (vout.map hypf) w.alpha
        ((List.insertionSort (fun a b => a ≤ b) (alistKeys w.Zr)).map
          (fun i => (alistGet w.Zr i).getD 0)) = w3 ∧
      w3.alpha = w.alpha ∧
      (∀ r, alistGet w3.Zr r = alistGet w.Zr r) ∧
      (∀ k, alistGet w3.counts k = alistGet w.counts k) ∧
      (∀ c d, alistGet w.dims c = some d → ∃ d3,
        alistGet w3.dims c = some d3 ∧ d3.alpha = d.alpha ∧
        d3.beta = d.beta ∧
        ∀ k, alistGet d3.clusters k = alistGet d.clusters k) ∧
      viewScore w3 = viewScore w := by
  have hZrnd : NodupKeys w.Zr := hWFv.1
  have hsorted : List.insertionSort (fun a b => a ≤ b) (alistKeys w.Zr) =
      List.range nr := by
    refine sorted_keys_range _ nr hZrnd ?_ ?_
    · intro k hk
      obtain ⟨p, hp, hpe⟩ := List.mem_map.mp hk
      exact hpe ▸ hWFv.2.1 p hp
    · intro r hr
      exact hWFv.2.2.1 r (List.mem_range.mpr hr)
  set zrv := (List.insertionSort (fun a b => a ≤ b) (alistKeys w.Zr)).map
    (fun i => (alistGet w.Zr i).getD 0) with hzrv
  have hzrv2 : zrv = (List.range nr).map
      (fun i => (alistGet w.Zr i).getD 0) := by
    rw [hzrv, hsorted]
  have hzrvlen : zrv.length = nr := by rw [hzrv2]; simp
  have hZrnd3 : NodupKeys zrv.enum := by
    unfold NodupKeys
    rw [alistKeys_enum]
    exact List.nodup_range _
  -- evaluate the constructor replay
  have hw1 := foldCrp_fields zrv.enum
    { alpha := w.alpha, Zr := [], counts := [], dims := [] }
  have hZr1 : (zrv.enum.foldl (fun w p => crpIncorporate w p.1 p.2)
      { alpha := w.alpha, Zr := [], counts := [], dims := [] }).Zr =
      zrv.enum := by
    rw [hw1.1]
    have := foldl_insert_fresh zrv.enum [] hZrnd3
      (by intro p hp; simp [alistKeys])
    simpa using this
  have hc1 : (zrv.enum.foldl (fun w p => crpIncorporate w p.1 p.2)
      { alpha := w.alpha, Zr := [], counts := [], dims := [] }).counts =
      zrv.foldl bumpCounts [] := by
    rw [hw1.2.1, List.enum_map_snd]
  have halpha1 : (zrv.enum.foldl (fun w p => crpIncorporate w p.1 p.2)
      { alpha := w.alpha, Zr := [], counts := [], dims := [] }).alpha =
      w.alpha := hw1.2.2.1
  have hvfd : viewFromData X vout (vout.map hypf) w.alpha zrv =
      { alpha := w.alpha, Zr := zrv.enum,
        counts := zrv.foldl bumpCounts [],
        dims := vout.map (fun c => (c, zrv.enum.foldl
          (fun d p => dimIncorporate d (cellValue X c p.1) p.2)
          ⟨(hypf c).1, (hypf c).2, []⟩)) } := by
    simp only [viewFromData]
    rw [zip_self_map, List.map_map]
    rw [hZr1, hc1, halpha1]
    rfl
  have hZrget : ∀ r, alistGet zrv.enum r = alistGet w.Zr r := by
    intro r
    rw [alistGet_enum]
    by_cases hr : r < nr
    · have hg : zrv.get? r = some ((alistGet w.Zr r).getD 0) := by
        rw [hzrv2, List.get?_map, List.get?_range hr]
        rfl
      rw [hg]
      have hmem : r ∈ alistKeys w.Zr := hWFv.2.2.1 r (List.mem_range.mpr hr)
      obtain ⟨z, hz⟩ := alistGet_isSome_of_mem w.Zr r hmem
      rw [hz]
      rfl
    · have hg : zrv.get? r = none :=
        List.get?_eq_none.mpr (by rw [hzrvlen]; omega)
      rw [hg]
      symm
      refine alistGet_eq_none w.Zr r ?_
      intro hc
      obtain ⟨p, hp, hpe⟩ := List.mem_map.mp hc
      exact hr (hpe ▸ hWFv.2.1 p hp)
  have hZrperm : (zrv.enum).Perm w.Zr := alistPerm _ _ hZrnd3 hZrnd hZrget
  have hcget : ∀ k, alistGet (zrv.foldl bumpCounts []) k =
      alistGet w.counts k := by
    intro k
    rw [foldBump_get]
    have hocc : countOcc zrv k = occupancy w.Zr k := by
      have h1 : countOcc zrv k = occupancy zrv.enum k := by
        rw [occupancy_eq_countOcc, List.enum_map_snd]
      rw [h1]
      exact occupancy_perm _ _ hZrperm k
    rw [hocc]
    by_cases h0 : occupancy w.Zr k = 0
    · rw [if_pos ⟨rfl, h0⟩]
      symm
      refine alistGet_eq_none w.counts k ?_
      intro hc
      have := (hWFv.2.2.2.2.1 k hc).2
      omega
    · rw [if_neg (by simp [h0])]
      by_cases hkc : k ∈ alistKeys w.counts
      · rw [(hWFv.2.2.2.2.1 k hkc).1]
        simp [alistGet]
      · exfalso
        have hpos : 0 < (w.Zr.filter (fun p => p.2 == k)).length :=
          Nat.pos_of_ne_zero h0
        obtain ⟨p, hp⟩ := List.exists_mem_of_length_pos hpos
        have hp2 := List.mem_filter.mp hp
        have hpk : p.2 = k := by simpa using hp2.2
        exact hkc (hpk ▸ hWFv.2.2.2.2.2.1 p hp2.1)
  have hcnd3 : NodupKeys (zrv.foldl bumpCounts []) :=
    NodupKeys_foldBump zrv [] (by simp [NodupKeys, alistKeys])
  have hcperm : (zrv.foldl bumpCounts []).Perm w.counts :=
    alistPerm _ _ hcnd3 hWFv.2.2.2.1 hcget
  have hdimget : ∀ c d, alistGet w.dims c = some d →
      (zrv.enum.foldl (fun d p => dimIncorporate d (cellValue X c p.1) p.2)
        ⟨(hypf c).1, (hypf c).2, []⟩).alpha = d.alpha ∧
      (zrv.enum.foldl (fun d p => dimIncorporate d (cellValue X c p.1) p.2)
        ⟨(hypf c).1, (hypf c).2, []⟩).beta = d.beta ∧
      ∀ k, alistGet (zrv.enum.foldl
        (fun d p => dimIncorporate d (cellValue X c p.1) p.2)
        ⟨(hypf c).1, (hypf c).2, []⟩).clusters k =
          alistGet d.clusters k := by
    intro c d hcd
    have hcv : c ∈ vout := (hvout c).mpr
      (List.mem_map.mpr ⟨(c, d), alistGet_mem_of_some _ _ _ hcd, rfl⟩)
    refine ⟨?_, ?_, ?_⟩
    · rw [(bulkDim_frame X c zrv.enum _).1, hhyp c hcv, hcd]
      rfl
    · rw [(bulkDim_frame X c zrv.enum _).2.1, hhyp c hcv, hcd]
      rfl
    · intro k
      have hbase : ClustersDerived X c [] ⟨(hypf c).1, (hypf c).2, []⟩ := by
        intro j
        simp [clusterVals, alistGet]
      have hder := bulkDim_derived X c zrv.enum []
        ⟨(hypf c).1, (hypf c).2, []⟩ hbase
      have hd := hder k
      rw [List.nil_append] at hd
      rw [hd]
      have hlen : (clusterVals X c zrv.enum k).length =
          (clusterVals X c w.Zr k).length :=
        (clusterVals_perm X c _ _ hZrperm k).length_eq
      have hds : derivedSuff X c zrv.enum k = derivedSuff X c w.Zr k :=
        derivedSuff_perm X c _ _ hZrperm k
      rw [hlen, hds]
      have hDWF := hWFv.2.2.2.2.2.2.2.1 (c, d)
        (alistGet_mem_of_some _ _ _ hcd)
      by_cases hk : k ∈ alistKeys d.clusters
      · obtain ⟨hg, hN⟩ := hDWF.2.1 k hk
        rw [if_neg (by
          have h1 : 1 ≤ (clusterVals X c w.Zr k).length := hN
          omega)]
        exact hg.symm
      · rw [if_pos (by
          by_contra hpos
          have hlp : 0 < (clusterVals X c w.Zr k).length :=
            Nat.pos_of_ne_zero hpos
          obtain ⟨q, hq⟩ := List.exists_mem_of_length_pos hlp
          obtain ⟨a, haz, hac⟩ : ∃ a, (a, k) ∈ w.Zr ∧
              cellValue X c a = some q := by
            simpa [clusterVals] using hq
          have := hDWF.2.2 (a, k) haz (by simp [hac])
          exact hk this)]
        exact (alistGet_eq_none d.clusters k hk).symm
  refine ⟨_, hvfd, rfl, ?_, hcget, ?_, ?_⟩
  · -- row partition pointwise
    exact hZrget
  · -- Dims pointwise
    intro c d hcd
    have hcv : c ∈ vout := (hvout c).mpr
      (List.mem_map.mpr ⟨(c, d), alistGet_mem_of_some _ _ _ hcd, rfl⟩)
    refine ⟨_, ?_, (hdimget c d hcd).1, (hdimget c d hcd).2.1,
      (hdimget c d hcd).2.2⟩
    show alistGet (vout.map (fun c => (c, zrv.enum.foldl
      (fun d p => dimIncorporate d (cellValue X c p.1) p.2)
      ⟨(hypf c).1, (hypf c).2, []⟩))) c = _
    rw [alistGet_keyMap, if_pos hcv]
  · -- score
    unfold viewScore
    have hlen1 : (zrv.enum : List (Nat × Nat)).length = w.Zr.length :=
      hZrperm.length_eq
    have hcrp : logpCrpScore (zrv.enum : List (Nat × Nat)).length
        (zrv.foldl bumpCounts []) w.alpha =
        logpCrpScore w.Zr.length w.counts w.alpha := by
      rw [hlen1]
      exact logpCrpScore_perm _ _ _ _ hcperm
    have hdims : ((vout.map (fun c => (c, zrv.enum.foldl
        (fun d p => dimIncorporate d (cellValue X c p.1) p.2)
        ⟨(hypf c).1, (hypf c).2, []⟩))).map
          (fun p => dimScore p.2)).sum =
        (w.dims.map (fun p => dimScore p.2)).sum := by
      refine alist_score_sum dimScore _ _ ?_ hWFv.2.2.2.2.2.2.1 ?_
      · unfold NodupKeys
        rw [alistKeys_keyMap]
        exact hvnd
      · intro k
        rw [alistGet_keyMap]
        by_cases hk : k ∈ vout
        · rw [if_pos hk]
          have hmem : k ∈ alistKeys w.dims := (hvout k).mp hk
          obtain ⟨d, hd⟩ := alistGet_isSome_of_mem _ _ hmem
          rw [hd]
          obtain ⟨ha, hb, hcl⟩ := hdimget k d hd
          have hcnd : NodupKeys (zrv.enum.foldl
              (fun d p => dimIncorporate d (cellValue X k p.1) p.2)
              ⟨(hypf k).1, (hypf k).2, []⟩).clusters :=
            (bulkDim_frame X k zrv.enum _).2.2
              (by simp [NodupKeys, alistKeys])
          have hDWF := hWFv.2.2.2.2.2.2.2.1 (k, d)
            (alistGet_mem_of_some _ _ _ hd)
          have hclperm := alistPerm _ _ hcnd hDWF.1 hcl
          show some (dimScore (zrv.enum.foldl
            (fun d p => dimIncorporate d (cellValue X k p.1) p.2)
            ⟨(hypf k).1, (hypf k).2, []⟩)) = some (dimScore d)
          rw [dimScore_congr _ _ ha hb hclperm]
        · rw [if_neg hk]
          have hnone : alistGet w.dims k = none :=
            alistGet_eq_none _ _ (fun hc => hk ((hvout k).mpr hc))
          rw [hnone]
    rw [hcrp, hdims]

/-- C4: reconstructing a State from the metadata produced by to_metadata
(via from_metadata) yields a State whose dataset, column partition,
per-view row partitions and occupancies, concentration parameters,
per-column hyperparameters and logpdf_score are exactly equal to those of
the original (dicts compared as Python `==`, i.e. pointwise). -/
theorem state_metadata_roundtrip (s : StateModel)
    (hWF : SerialWF s) (hrows : 1 ≤ nRows s) :
    (stateFromMetadata (toMetadata s)).outputs = s.outputs ∧
    (stateFromMetadata (toMetadata s)).X = s.X ∧
    (stateFromMetadata (toMetadata s)).alpha = s.alpha ∧
    (stateFromMetadata (toMetadata s)).Zv = s.Zv ∧
    (∀ k, alistGet (stateFromMetadata (toMetadata s)).Nv k =
      alistGet s.Nv k) ∧
    (∀ v w, alistGet s.views v = some w → ∃ w3,
      alistGet (stateFromMetadata (toMetadata s)).views v = some w3 ∧
      w3.alpha = w.alpha ∧
      (∀ r, alistGet w3.Zr r = alistGet w.Zr r) ∧
      (∀ k, alistGet w3.counts k = alistGet w.counts k) ∧
      (∀ c d, alistGet w.dims c = some d → ∃ d3,
        alistGet w3.dims c = some d3 ∧ d3.alpha = d.alpha ∧
        d3.beta = d.beta ∧
        ∀ k, alistGet d3.clusters k = alistGet d.clusters k)) ∧
    stateScore (stateFromMetadata (toMetadata s)) = stateScore s := by
  obtain ⟨⟨hne, hnodX, hkeys, hlen, hnodV, hviews⟩, houtnd, hZvnd, hZvkeys,
    hNvnd, hNv, hZvNv, hZvViews, hViewsZv, hdimsZv⟩ := hWF
  have hmX : (toMetadata s).X = dataArray s := rfl
  have hmOut : (toMetadata s).outputs = s.outputs := rfl
  have hmZv : (toMetadata s).Zv = s.Zv := rfl
  have hmHyp : (toMetadata s).hypers = s.outputs.map (fun c =>
    ((dimFor s c).alpha, (dimFor s c).beta)) := rfl
  have hmZrv : (toMetadata s).Zrv = s.views.map (fun p =>
    (p.1, (List.insertionSort (fun a b => a ≤ b) (alistKeys p.2.Zr)).map
      (fun i => (alistGet p.2.Zr i).getD 0))) := rfl
  have hmVA : (toMetadata s).view_alphas =
    s.views.map (fun p => (p.1, p.2.alpha)) := rfl
  -- the column CRP replay
  have hZv1 : s.Zv.foldl (fun A p => alistInsert A p.1 p.2) [] = s.Zv := by
    have := foldl_insert_fresh s.Zv [] hZvnd
      (by intro p hp; simp [alistKeys])
    simpa using this
  -- the dataset splits back into its original columns
  have hXlen : s.X.length = s.outputs.length := by
    have h5 : (alistKeys s.X).length = s.outputs.length := by rw [hkeys]
    simpa [alistKeys] using h5
  have hX3 : (toMetadata s).outputs.enum.map (fun p =>
      (p.2, (toMetadata s).X.map (fun row => row.getD p.1 none))) =
      s.X := by
    rw [hmOut, hmX]
    refine List.ext_get (by simp [List.enum_length, hXlen]) ?_
    intro j h1 h2
    have hj : j < s.outputs.length := by
      simpa [List.enum_length] using h1
    rw [List.get_map, List.get_enum]
    dsimp only
    have hcX : (s.X.get ⟨j, h2⟩).1 = s.outputs.get ⟨j, hj⟩ := by
      have h5 : (s.X.map Prod.fst).get ⟨j, by simpa using h2⟩ =
          (s.X.get ⟨j, h2⟩).1 := by
        rw [List.get_map]
      rw [← h5]
      exact List.get_of_eq hkeys _
    have hmemj : s.outputs.get ⟨j, hj⟩ ∈ s.outputs := List.get_mem _ _ _
    have hval : alistGet s.X (s.outputs.get ⟨j, hj⟩) =
        some (s.X.get ⟨j, h2⟩).2 := by
      rw [← hcX]
      exact alistGet_get_self s.X hnodX ⟨j, h2⟩
    have hcol : (dataArray s).map (fun row => row.getD j none) =
        (alistGet s.X (s.outputs.get ⟨j, hj⟩)).getD [] := by
      unfold dataArray
      rw [List.map_map]
      have hcomp : ∀ r ∈ List.range (nRows s),
          ((fun row => row.getD j none) ∘
            (fun r => s.outputs.map (fun c => cellValue s.X c r))) r =
          ((alistGet s.X (s.outputs.get ⟨j, hj⟩)).getD []).getD r none := by
        intro r _
        show (s.outputs.map (fun c => cellValue s.X c r)).getD j none = _
        rw [List.getD_eq_getElem _ _ (by simpa using hj)]
        simp [cellValue]
      rw [List.map_congr_left hcomp]
      have hclen : ((alistGet s.X (s.outputs.get ⟨j, hj⟩)).getD []).length =
          nRows s := hlen _ hmemj
      rw [← hclen]
      exact getD_range_map _ none
    refine Prod.ext ?_ ?_
    · exact hcX.symm
    · rw [hcol, hval]
      rfl
  -- the view occupancy replay
  have hpairfold : ∀ (l : List (Nat × Nat)) (acc : List (Nat × Nat)),
      l.foldl (fun N p => bumpCounts N p.2) acc =
        (l.map Prod.snd).foldl bumpCounts acc := by
    intro l
    induction l with
    | nil => intro acc; rfl
    | cons q t ih =>
        intro acc
        simp only [List.foldl_cons, List.map_cons]
        exact ih _
  have hNv3 : ∀ k, alistGet (s.Zv.foldl (fun N p => bumpCounts N p.2) [])
      k = alistGet s.Nv k := by
    intro k
    rw [hpairfold, foldBump_get]
    rw [show countOcc (s.Zv.map Prod.snd) k = occupancy s.Zv k from
      (occupancy_eq_countOcc s.Zv k).symm]
    by_cases h0 : occupancy s.Zv k = 0
    · rw [if_pos ⟨rfl, h0⟩]
      symm
      refine alistGet_eq_none s.Nv k ?_
      intro hc
      have := (hNv k hc).2
      omega
    · rw [if_neg (by simp [h0])]
      by_cases hkc : k ∈ alistKeys s.Nv
      · rw [(hNv k hkc).1]
        simp [alistGet]
      · exfalso
        have hpos : 0 < (s.Zv.filter (fun p => p.2 == k)).length :=
          Nat.pos_of_ne_zero h0
        obtain ⟨p, hp⟩ := List.exists_mem_of_length_pos hpos
        have hp2 := List.mem_filter.mp hp
        have hpk : p.2 = k := by simpa using hp2.2
        exact hkc (hpk ▸ hZvNv p hp2.1)
  -- the rebuilt views, keyed by the deduplicated assignment targets
  have hvget : ∀ v, alistGet (stateFromMetadata (toMetadata s)).views v =
      if v ∈ ((toMetadata s).Zv.map Prod.snd).dedup then
        some (viewFromData
          ((toMetadata s).outputs.enum.map (fun p =>
            (p.2, (toMetadata s).X.map (fun row => row.getD p.1 none))))
          ((toMetadata s).outputs.filter (fun c =>
            alistGet ((toMetadata s).Zv.foldl
              (fun A p => alistInsert A p.1 p.2) []) c == some v))
          (((toMetadata s).outputs.filter (fun c =>
            alistGet ((toMetadata s).Zv.foldl
              (fun A p => alistInsert A p.1 p.2) []) c == some v)).map
            (fun c => (toMetadata s).hypers.getD
              ((toMetadata s).outputs.indexOf c) (1, 1)))
          ((alistGet (toMetadata s).view_alphas v).getD 1)
          ((alistGet (toMetadata s).Zrv v).getD []))
      else none := fun v => alistGet_keyMap _ _ v
  have hperview : ∀ v w, alistGet s.views v = some w → ∃ w3,
      alistGet (stateFromMetadata (toMetadata s)).views v = some w3 ∧
      w3.alpha = w.alpha ∧
      (∀ r, alistGet w3.Zr r = alistGet w.Zr r) ∧
      (∀ k, alistGet w3.counts k = alistGet w.counts k) ∧
      (∀ c d, alistGet w.dims c = some d → ∃ d3,
        alistGet w3.dims c = some d3 ∧ d3.alpha = d.alpha ∧
        d3.beta = d.beta ∧
        (∀ k, alistGet d3.clusters k = alistGet d.clusters k)) ∧
      viewScore w3 = viewScore w := by
    intro v w hvw
    have hvwmem : (v, w) ∈ s.views := alistGet_mem_of_some _ _ _ hvw
    have hmem : v ∈ (s.Zv.map Prod.snd).dedup := by
      rw [List.mem_dedup]
      obtain ⟨p, hp, hpe⟩ := hViewsZv v
        (List.mem_map.mpr ⟨(v, w), hvwmem, rfl⟩)
      exact List.mem_map.mpr ⟨p, hp, hpe⟩
    have hva : (alistGet (s.views.map (fun p => (p.1, p.2.alpha))) v).getD
        1 = w.alpha := by
      rw [alistGet_map_snd s.views (fun k w => w.alpha) v, hvw]
      rfl
    have hzv : (alistGet (s.views.map (fun p =>
        (p.1, (List.insertionSort (fun a b => a ≤ b)
          (alistKeys p.2.Zr)).map
            (fun i => (alistGet p.2.Zr i).getD 0)))) v).getD [] =
        (List.insertionSort (fun a b => a ≤ b) (alistKeys w.Zr)).map
          (fun i => (alistGet w.Zr i).getD 0) := by
      rw [alistGet_map_snd s.views (fun k w =>
        (List.insertionSort (fun a b => a ≤ b) (alistKeys w.Zr)).map
          (fun i => (alistGet w.Zr i).getD 0)) v, hvw]
      rfl
    have hveq0 := hvget v
    rw [hX3, hmZv, hZv1, hmOut, hmHyp, hmVA, hva, hmZrv, hzv,
      if_pos hmem] at hveq0
    -- the reconstruction inputs satisfy the per-view lemma
    have hWFv : ViewWF s.X (nRows s) w := hviews (v, w) hvwmem
    have hvnd : (s.outputs.filter (fun c =>
        alistGet s.Zv c == some v)).Nodup := houtnd.filter _
    have hvout : ∀ c, c ∈ s.outputs.filter (fun c =>
        alistGet s.Zv c == some v) ↔ c ∈ alistKeys w.dims := by
      intro c
      constructor
      · intro hc
        have hc2 := List.mem_filter.mp hc
        have hcz : alistGet s.Zv c = some v := by simpa using hc2.2
        exact (hdimsZv (v, w) hvwmem).2 (c, v)
          (alistGet_mem_of_some _ _ _ hcz) rfl
      · intro hc
        have hcz : alistGet s.Zv c = some v := (hdimsZv (v, w) hvwmem).1 c hc
        refine List.mem_filter.mpr ⟨?_, by simpa using hcz⟩
        have : c ∈ alistKeys s.Zv :=
          List.mem_map.mpr ⟨(c, v), alistGet_mem_of_some _ _ _ hcz, rfl⟩
        rw [hZvkeys] at this
        exact this
    have hhyp : ∀ c ∈ s.outputs.filter (fun c =>
        alistGet s.Zv c == some v),
        (s.outputs.map (fun c => ((dimFor s c).alpha,
          (dimFor s c).beta))).getD (s.outputs.indexOf c) (1, 1) =
        (((alistGet w.dims c).getD ⟨1, 1, []⟩).alpha,
          ((alistGet w.dims c).getD ⟨1, 1, []⟩).beta) := by
      intro c hc
      have hc2 := List.mem_filter.mp hc
      have hcz : alistGet s.Zv c = some v := by simpa using hc2.2
      rw [map_getD_indexOf s.outputs _ c _ hc2.1]
      have hdf : dimFor s c = (alistGet w.dims c).getD ⟨1, 1, []⟩ := by
        unfold dimFor
        rw [hcz]
        simp only [Option.getD_some]
        rw [hvw]
        simp only [Option.getD_some]
      rw [hdf]
    obtain ⟨w3, hw3eq, hal, hzr, hcnt, hdims, hsc⟩ :=
      viewFromData_matches s.X (nRows s) w
        (s.outputs.filter (fun c => alistGet s.Zv c == some v))
        (fun c => (s.outputs.map (fun c => ((dimFor s c).alpha,
          (dimFor s c).beta))).getD (s.outputs.indexOf c) (1, 1))
        hWFv hvnd hvout hhyp
    rw [hw3eq] at hveq0
    exact ⟨w3, hveq0, hal, hzr, hcnt, hdims, hsc⟩
  -- the score
  have hNvnd3 : NodupKeys (s.Zv.foldl (fun N p => bumpCounts N p.2) []) := by
    rw [hpairfold]
    exact NodupKeys_foldBump _ [] (by simp [NodupKeys, alistKeys])
  have hNvperm : (s.Zv.foldl (fun N p => bumpCounts N p.2) []).Perm s.Nv :=
    alistPerm _ _ hNvnd3 hNvnd hNv3
  have hscore : stateScore (stateFromMetadata (toMetadata s)) =
      stateScore s := by
    unfold stateScore
    have h1 : (stateFromMetadata (toMetadata s)).Zv = s.Zv := hZv1
    have h2 : (stateFromMetadata (toMetadata s)).alpha = s.alpha := rfl
    rw [h1, h2]
    have h3 : logpCrpScore s.Zv.length
        (stateFromMetadata (toMetadata s)).Nv s.alpha =
        logpCrpScore s.Zv.length s.Nv s.alpha :=
      logpCrpScore_perm _ _ _ _ hNvperm
    rw [h3]
    congr 1
    refine alist_score_sum viewScore _ _ ?_ hnodV ?_
    · show NodupKeys ((((toMetadata s).Zv.map Prod.snd).dedup).map _)
      unfold NodupKeys
      rw [alistKeys_keyMap]
      exact List.nodup_dedup _
    · intro v
      by_cases hv : v ∈ alistKeys s.views
      · obtain ⟨w, hvw⟩ := alistGet_isSome_of_mem _ _ hv
        obtain ⟨w3, hveq, _, _, _, _, hsc⟩ := hperview v w hvw
        rw [hveq, hvw]
        show some (viewScore w3) = some (viewScore w)
        rw [hsc]
      · have hs0 : alistGet s.views v = none := alistGet_eq_none _ _ hv
        have hs3 : alistGet (stateFromMetadata (toMetadata s)).views v =
            none := by
          rw [hvget v, if_neg ?_]
          intro hc
          rw [hmZv, List.mem_dedup] at hc
          obtain ⟨p, hp, hpe⟩ := List.mem_map.mp hc
          exact hv (hpe ▸ hZvViews p hp)
        rw [hs0, hs3]
  refine ⟨rfl, hX3, rfl, hZv1, hNv3, ?_, hscore⟩
  intro v w hvw
  obtain ⟨w3, hveq, hal, hzr, hcnt, hdims, _⟩ := hperview v w hvw
  exact ⟨w3, hveq, hal, hzr, hcnt, hdims⟩

theorem testState_SerialWF : SerialWF testState :=
  ⟨testState_WF, by decide, by decide, by decide, by decide, by decide,
    by decide, by decide, by decide, by decide⟩

/-- C4 witness: the example state round-trips through its metadata. -/
theorem state_metadata_roundtrip_witness :
    (stateFromMetadata (toMetadata testState)).outputs =
      testState.outputs ∧
    (stateFromMetadata (toMetadata testState)).X = testState.X ∧
    (stateFromMetadata (toMetadata testState)).alpha = testState.alpha ∧
    (stateFromMetadata (toMetadata testState)).Zv = testState.Zv ∧
    (∀ k, alistGet (stateFromMetadata (toMetadata testState)).Nv k =
      alistGet testState.Nv k) ∧
    (∀ v w, alistGet testState.views v = some w → ∃ w3,
      alistGet (stateFromMetadata (toMetadata testState)).views v =
        some w3 ∧
      w3.alpha = w.alpha ∧
      (∀ r, alistGet w3.Zr r = alistGet w.Zr r) ∧
      (∀ k, alistGet w3.counts k = alistGet w.counts k) ∧
      (∀ c d, alistGet w.dims c = some d → ∃ d3,
        alistGet w3.dims c = some d3 ∧ d3.alpha = d.alpha ∧
        d3.beta = d.beta ∧
        ∀ k, alistGet d3.clusters k = alistGet d.clusters k)) ∧
    stateScore (stateFromMetadata (toMetadata testState)) =
      stateScore testState :=
  state_metadata_roundtrip testState testState_SerialWF (by decide)

/-! ## Claim C8: degenerate evidence in the closed-form sampler -/

/-- `_logpdf_row` (sampling.py lines 100-105): the joint density of the
query values inside one fixed cluster (the source sums the Dim log
densities). -/
def logpdfRowFixed (v : ViewState) (query : List (Nat × ℚ))
    (cluster : ℕ) : ℚ :=
  query.foldr (fun p acc =>
    dimLogpdfDensity ((alistGet v.dims p.1).getD ⟨1, 1, []⟩) (some p.2)
      cluster * acc) 1

/-- `view_logpdf` (sampling.py lines 68-80) at density level: a
non-hypothetical rowid is answered inside its fixed cluster; for a
hypothetical rowid the candidate clusters are enumerated with their CRP
weights, and evidence of zero density in every candidate (all log
densities `-inf`) raises `ValueError` instead. -/
def samplingViewLogpdf (v : ViewState) (rowid : ℕ)
    (query evidence : List (Nat × ℚ)) : Except String ℚ :=
  if rowid < v.Zr.length then
    .ok (logpdfRowFixed v query ((alistGet v.Zr rowid).getD 0))
  else
    let K := gibbsTables v none 1
    let lpCrp := K.map (fun k => crpPredictiveDensity v k)
    let lpEvidence := K.map (fun k => logpdfRowFixed v evidence k)
    if lpEvidence.all (fun q => q == 0) then
      .error "Zero density evidence"
    else
      let weights := List.zipWith (fun a b => a * b) lpCrp lpEvidence
      let lpQuery := K.map (fun k => logpdfRowFixed v query k)
      .ok ((List.zipWith (fun a b => a * b) weights lpQuery).sum /
        weights.sum)

/-- `view_simulate` (sampling.py lines 83-97), modelled up to the output
sampling inside each realized cluster (the Dims' `simulate` lives outside
src/): the vector of cluster assignments is produced by the
caller-supplied categorical draw after the same degenerate-evidence
check. -/
def samplingViewSimulate (v : ViewState) (rowid : ℕ) (qcols : List ℕ)
    (evidence : List (Nat × ℚ)) (N : ℕ)
    (draw : List ℚ → List ℕ → ℕ → List ℕ) : Except String (List ℕ) :=
  if rowid < v.Zr.length then
    .ok (List.replicate N ((alistGet v.Zr rowid).getD 0))
  else
    let K := gibbsTables v none 1
    let lpCrp := K.map (fun k => crpPredictiveDensity v k)
    let lpEvidence := K.map (fun k => logpdfRowFixed v evidence k)
    if lpEvidence.all (fun q => q == 0) then
      .error "Zero density evidence"
    else
      .ok (draw (List.zipWith (fun a b => a * b) lpCrp lpEvidence) K N)

/-- C8: for a hypothetical rowid whose evidence has zero density in every
candidate cluster (live clusters plus the auxiliary one), both the
closed-form logpdf and simulate raise the distinct degenerate-evidence
error instead of returning a density (the float `-inf`) or a sample. -/
theorem sampling_degenerate_evidence (v : ViewState) (rowid : ℕ)
    (query : List (Nat × ℚ)) (qcols : List ℕ)
    (evidence : List (Nat × ℚ)) (N : ℕ)
    (draw : List ℚ → List ℕ → ℕ → List ℕ)
    (hhyp : v.Zr.length ≤ rowid)
    (hzero : ∀ k ∈ gibbsTables v none 1,
      logpdfRowFixed v evidence k = 0) :
    samplingViewLogpdf v rowid query evidence =
        .error "Zero density evidence" ∧
      samplingViewSimulate v rowid qcols evidence N draw =
        .error "Zero density evidence" := by
  have hall : ((gibbsTables v none 1).map
      (fun k => logpdfRowFixed v evidence k)).all (fun q => q == 0) =
      true := by
    rw [List.all_eq_true]
    intro q hq
    obtain ⟨k, hk, hv⟩ := List.mem_map.mp hq
    simp [← hv, hzero k hk]
  constructor
  · unfold samplingViewLogpdf
    rw [if_neg (Nat.not_lt.mpr hhyp)]
    simp only [hall, if_true]
  · unfold samplingViewSimulate
    rw [if_neg (Nat.not_lt.mpr hhyp)]
    simp only [hall, if_true]

/-- C8 witness: evidence value 2 for a Bernoulli column has zero density
in every candidate cluster of the example view and is rejected for the
hypothetical rowid 1. -/
theorem sampling_degenerate_evidence_witness :
    samplingViewLogpdf testView 1 [(0, 1)] [(0, 2)] =
      .error "Zero density evidence" :=
  (sampling_degenerate_evidence testView 1 [(0, 1)] [0] [(0, 2)] 3
    (fun _ _ _ => []) (by decide) (by
      intro k hk
      rw [testView_gibbsTables] at hk
      rcases List.mem_cons.mp hk with rfl | hk2
      · norm_num [logpdfRowFixed, dimLogpdfDensity, calcPredictiveDensity,
          pyInt, testView, alistGet, emptySuff]
      · rcases List.mem_cons.mp hk2 with rfl | hk3
        · norm_num [logpdfRowFixed, dimLogpdfDensity,
            calcPredictiveDensity, pyInt, testView, alistGet, emptySuff]
        · simp at hk3)).1

/-! ## Claim C9: fixed-seed determinism of the transition kernels

The randomness model.  `np.random.RandomState(seed)` is a deterministic
pseudo-random generator: its i-th draw is a fixed function of the seed and
of i, represented here by a universally quantified `stream`.  The
module-level global generator `np.random` — the one source of ambient
randomness, consulted by `gen_rng` when no seed is given
(src/src/utils/general.py line 33) — is represented by an `entropy` value
threaded to every place the code could fall back to it.  The internals of
`Crp.transition_hypers`, `Dim.transition_hypers`, the CRP prior simulation
and the hyperparameter grid initialization are not under src/ and are
abstracted by universally quantified resampling functions fed draws from
the owner's generator, per the spec's contract that every such transition
uses the owning object's generator.  The embedded states carry no
dependence constraints (`Cd`/`Ci` default to empty, state.py lines 93-94),
so the constraint screen of `_gibbs_transition_dim` (state.py lines
986-989) is a no-op. -/

/-- The state of one `np.random.RandomState`: its seed and the number of
draws made so far. -/
structure Rng where
  seed : ℕ
  idx : ℕ
deriving DecidableEq

/-- `np.random.RandomState(seed)`: a fresh generator on that seed. -/
def mkRandomState (seed : ℕ) : Rng := ⟨seed, 0⟩

/-- One draw from a RandomState: the stream value of its seed at the
current draw index, advancing the index. -/
def rngNext (stream : ℕ → ℕ → ℕ) (r : Rng) : ℕ × Rng :=
  (stream r.seed r.idx, ⟨r.seed, r.idx + 1⟩)

/-- `gen_rng` (src/src/utils/general.py lines 31-34): with a seed, a
RandomState on that seed; with `seed=None`, the seed is drawn from the
global generator (the ambient `entropy`). -/
def genRng (entropy : ℕ) (seed : Option ℕ) : Rng :=
  match seed with
  | none => mkRandomState entropy
  | some s => mkRandomState s

/-- `log_pflip` / `pflip` (src/src/utils/general.py lines 91-107),
polymorphic in the weight representation (the rows kernel weighs clusters
by exact rational densities, the columns kernel weighs views by real
log-marginals): a single candidate is returned without consuming any
randomness (line 101); otherwise the categorical draw
`rng.choice(array, p)` — a fixed function `choice` of the drawn random
number, the weights and the candidates — is taken from the supplied
generator, or from a fresh `gen_rng()` on the ambient global entropy when
`rng=None` (line 103). -/
def logPflip {α : Type} (entropy : ℕ) (stream : ℕ → ℕ → ℕ)
    (choice : ℕ → List α → List ℕ → ℕ) (p : List α) (array : List ℕ)
    (rng : Option Rng) : ℕ × Option Rng :=
  if p.length = 1 then (array.headD 0, rng)
  else
    match rng with
    | none => (choice (rngNext stream (genRng entropy none)).1 p array, none)
    | some r =>
        let d := rngNext stream r
        (choice d.1 p array, some d.2)

/-- `View._gibbs_transition_row` (view.py lines 373-386) with the view's
generator threaded explicitly: the categorical draw is
`gu.log_pflip(p_cluster, array=K, rng=self.rng)` (line 382) — the
generator is always supplied at this call site. -/
def gibbsTransitionRowR (entropy : ℕ) (stream : ℕ → ℕ → ℕ)
    (choice : ℕ → List ℚ → List ℕ → ℕ) (X : Dataset) (v : ViewState)
    (rowid : ℕ) (r : Rng) : ViewState × Rng :=
  let K := gibbsTables v (some rowid) 1
  let logpCrp := gibbsLogpsWeights v rowid 1
  let rr := logpdfRowGibbs X v rowid K
  let d := logPflip entropy stream choice
    (List.zipWith (fun a b => a * b) rr.1 logpCrp) K (some r)
  let zb := d.1
  (if (alistGet rr.2.Zr rowid).getD 0 ≠ zb then migrateRow X rr.2 rowid zb
   else rr.2,
   d.2.getD r)

/-- `View.transition_rows` with `rows=None` (view.py lines 239-244): the
rowids of the row partition, shuffled by `self.rng.permutation` — one draw
feeding a fixed shuffling function `shuffle` — then the Gibbs row
transition of each rowid in the shuffled order. -/
def viewTransitionRows (entropy : ℕ) (stream : ℕ → ℕ → ℕ)
    (choice : ℕ → List ℚ → List ℕ → ℕ) (shuffle : ℕ → List ℕ → List ℕ)
    (X : Dataset) (v : ViewState) (r : Rng) : ViewState × Rng :=
  let d := rngNext stream r
  let rows := shuffle d.1 (alistKeys v.Zr)
  rows.foldl
    (fun acc rowid =>
      gibbsTransitionRowR entropy stream choice X acc.1 rowid acc.2)
    (v, d.2)

/-- Modelled from the spec: `Crp.transition_hypers` resamples the CRP
concentration from its hyperprior grid given the current partition, using
the owner's generator — one draw feeding a fixed resampling function
`crpAT` of the current concentration and the table counts. -/
def crpTransitionHypers (stream : ℕ → ℕ → ℕ)
    (crpAT : ℕ → ℚ → List (Nat × Nat) → ℚ) (alpha : ℚ)
    (counts : List (Nat × Nat)) (r : Rng) : ℚ × Rng :=
  let d := rngNext stream r
  (crpAT d.1 alpha counts, d.2)

/-- `View.transition_crp_alpha` (view.py lines 223-225): the row CRP's
`transition_hypers`, called twice in a row. -/
def viewTransitionCrpAlpha (stream : ℕ → ℕ → ℕ)
    (crpAT : ℕ → ℚ → List (Nat × Nat) → ℚ) (v : ViewState) (r : Rng) :
    ViewState × Rng :=
  let a1 := crpTransitionHypers stream crpAT v.alpha v.counts r
  let a2 := crpTransitionHypers stream crpAT a1.1 v.counts a1.2
  ({ v with alpha := a2.1 }, a2.2)

/-- `State.transition_crp_alpha` (state.py lines 671-673): the column
CRP's `transition_hypers`, once. -/
def stateTransitionCrpAlpha (stream : ℕ → ℕ → ℕ)
    (crpAT : ℕ → ℚ → List (Nat × Nat) → ℚ) (s : StateModel) (r : Rng) :
    StateModel × Rng :=
  let a := crpTransitionHypers stream crpAT s.alpha s.Nv r
  ({ s with alpha := a.1 }, a.2)

/-- `State.transition_view_alphas` with `views=None, cols=None` (state.py
lines 675-680): every view's `transition_crp_alpha` in turn. -/
def stateTransitionViewAlphas (stream : ℕ → ℕ → ℕ)
    (crpAT : ℕ → ℚ → List (Nat × Nat) → ℚ) (s : StateModel) (r : Rng) :
    StateModel × Rng :=
  let res := s.views.foldl
    (fun acc p =>
      let vr := viewTransitionCrpAlpha stream crpAT p.2 acc.2
      (acc.1 ++ [(p.1, vr.1)], vr.2))
    (([] : List (Nat × ViewState)), r)
  ({ s with views := res.1 }, res.2)

/-- `State.transition_dim_params` with `cols=None` (state.py lines
682-687) applies `Dim.transition_params` to every column.  Modelled from
the spec on the Dim side: collapsed column models carry no component
parameters, so for the collapsed Beta-Bernoulli family of this embedding
the resampling is a no-op and consumes no randomness. -/
def stateTransitionDimParams (s : StateModel) (r : Rng) :
    StateModel × Rng :=
  (s, r)

/-- Replace the Dim of column `c` inside its owning view (the object
`State.dim_for(c)` denotes). -/
def updateDim (s : StateModel) (c : ℕ) (g : DimState → DimState) :
    StateModel :=
  let v := (alistGet s.Zv c).getD 0
  { s with views := s.views.map (fun p =>
      if p.1 = v then
        (p.1,
          { p.2 with
              dims := p.2.dims.map
                (fun q => if q.1 = c then (q.1, g q.2) else q) })
      else p) }

/-- `State.transition_dim_hypers` with `cols=None` (state.py lines
689-694): every column's `Dim.transition_hypers` in outputs order.
Modelled from the spec on the Dim side: the hyperparameters are resampled
from their grids using the owner's generator — one draw per column feeding
a fixed resampling function `dimHT` of the Dim's state. -/
def stateTransitionDimHypers (stream : ℕ → ℕ → ℕ)
    (dimHT : ℕ → DimState → ℚ × ℚ) (s : StateModel) (r : Rng) :
    StateModel × Rng :=
  s.outputs.foldl
    (fun acc c =>
      let d := rngNext stream acc.2
      (updateDim acc.1 c (fun dm =>
        { dm with alpha := (dimHT d.1 dm).1, beta := (dimHT d.1 dm).2 }),
       d.2))
    (s, r)

/-- `State.transition_view_rows` with `views=None, rows=None, cols=None`
(state.py lines 703-710): nothing when a single row is incorporated, else
every view's `transition_rows` in turn. -/
def stateTransitionViewRows (entropy : ℕ) (stream : ℕ → ℕ → ℕ)
    (choice : ℕ → List ℚ → List ℕ → ℕ) (shuffle : ℕ → List ℕ → List ℕ)
    (s : StateModel) (r : Rng) : StateModel × Rng :=
  if nRows s = 1 then (s, r)
  else
    let res := s.views.foldl
      (fun acc p =>
        let vr := viewTransitionRows entropy stream choice shuffle s.X
          p.2 acc.2
        (acc.1 ++ [(p.1, vr.1)], vr.2))
      (([] : List (Nat × ViewState)), r)
    ({ s with views := res.1 }, res.2)

/-- The column CRP `state.crp.clusters[0]` is the same CRP gpm as a view's
row CRP (state.py lines 72-89 construct it exactly as view.py lines
96-103 do), with the columns as customers: its assignment is `Zv`, its
table counts are `Nv`, its concentration is the state's `alpha`, and it
owns no Dims.  The Crp operations (`gibbs_tables`, `gibbs_logps`,
`incorporate`, `unincorporate`) are reused on this value. -/
def colCrp (s : StateModel) : ViewState :=
  { alpha := s.alpha, Zr := s.Zv, counts := s.Nv, dims := [] }

/-- `View._bulk_incorporate` (view.py lines 461-473) of the column `c`
Dim with hyperparameters `ha`, `hb`: the cluster models are rebuilt from
scratch by incorporating every row of the partition `zr` into its
cluster (`dim.transition_params()` at line 473 is a no-op for the
collapsed family). -/
def bulkDim (X : Dataset) (c : ℕ) (zr : List (Nat × Nat)) (ha hb : ℚ) :
    DimState :=
  zr.foldl (fun d p => dimIncorporate d (cellValue X c p.1) p.2)
    ⟨ha, hb, []⟩

/-- `View(self.X, outputs=[crp_id_view+t], rng=self.rng)` — the auxiliary
view proposal of `_gibbs_transition_dim` (state.py lines 966-969): a View
constructed with `alpha=None` and `Zr=None` (view.py lines 35-107) on the
always-supplied generator, holding no Dims.  Modelled from the spec on
the crp.py side: the concentration is initialized from its hyper grid
with one draw (`auxAlpha`), and the row partition is simulated
sequentially from the CRP prior (view.py lines 102-105), one draw per
row feeding a fixed predictive-simulation function `crpSim` of the
concentration and the current table counts. -/
def auxViewFromPrior (stream : ℕ → ℕ → ℕ) (auxAlpha : ℕ → ℚ)
    (crpSim : ℕ → ℚ → List (Nat × Nat) → ℕ) (nrows : ℕ) (r : Rng) :
    ViewState × Rng :=
  let da := rngNext stream r
  let alpha := auxAlpha da.1
  (List.range nrows).foldl
    (fun (acc : ViewState × Rng) i =>
      let d := rngNext stream acc.2
      (crpIncorporate acc.1 i (crpSim d.1 alpha acc.1.counts), d.2))
    ({ alpha := alpha, Zr := [], counts := [], dims := [] }, da.2)

/-- `State._gibbs_transition_dim(col, m=1)` (state.py lines 921-1006) for
the collapsed family, where `dim.is_collapsed()` holds, so
`get_prop_dim` returns the Dim itself and `get_data_logp` always bulk
reassigns.  The scoring loop (lines 955-959) scores the Dim of `col`
bulk-incorporated under every existing view's row partition — its
`incorporate_dim`/`unincorporate_dim` churn nets to removing `col` from
its owning view's Dims — then the auxiliary view proposals are
constructed on `self.rng` (lines 962-972) and scored likewise.  The view
is drawn by `gu.log_pflip(p_view, rng=self.rng)` over the summed
log-weights (lines 979-995; the independence screen of lines 986-989 is
a no-op without constraints).  If the draw keeps the current view, the
Dim is reincorporated there with bulk reassign (lines 1002-1004);
otherwise a drawn fresh view is appended (`_append_view`, lines
998-1000 and 1035-1038) and `_migrate_dim` (lines 1008-1029) bulk
incorporates the Dim into the target view, moves `col` in the column CRP
(`crp.unincorporate` then `crp.incorporate`), and deletes the old view
when the CRP left it empty.  The source pairs the data scores (iterating
the views dictionary) with the CRP weights (in `gibbs_tables` order,
live tables sorted) positionally; on reachable states the two orders
coincide (view ids are created in increasing order and Python 2 dicts
iterate small int keys increasingly), and the embedding pairs them the
same way. -/
noncomputable def gibbsTransitionDim (entropy : ℕ) (stream : ℕ → ℕ → ℕ)
    (choiceR : ℕ → List ℝ → List ℕ → ℕ) (auxAlpha : ℕ → ℚ)
    (crpSim : ℕ → ℚ → List (Nat × Nat) → ℕ) (s : StateModel) (col : ℕ)
    (r : Rng) : StateModel × Rng :=
  let vA := (alistGet s.Zv col).getD 0
  let d := dimFor s col
  let logpData := s.views.map (fun p =>
    dimScore (bulkDim s.X col p.2.Zr d.alpha d.beta))
  let tables := gibbsTables (colCrp s) (some col) 1
  let tAux := tables.drop s.views.length
  let auxRes := tAux.foldl
    (fun (acc : List (Nat × ViewState) × Rng) t =>
      let vr := auxViewFromPrior stream auxAlpha crpSim (nRows s) acc.2
      (acc.1 ++ [(t, vr.1)], vr.2))
    ([], r)
  let logpDataAux := auxRes.1.map (fun q =>
    dimScore (bulkDim s.X col q.2.Zr d.alpha d.beta))
  let logpCrp := gibbsLogpsWeights (colCrp s) col 1
  let pView := List.zipWith (fun lpd w => lpd + Real.log ((w : ℚ) : ℝ))
    (logpData ++ logpDataAux) logpCrp
  let dr := logPflip entropy stream choiceR pView
    (List.range pView.length) (some auxRes.2)
  let r2 := dr.2.getD auxRes.2
  let vB := tables.getD dr.1 0
  if vB = vA then
    let views1 := s.views.map (fun p =>
      if p.1 = vA then
        (p.1, { p.2 with
          dims := alistInsert (alistErase p.2.dims col) col
            (bulkDim s.X col p.2.Zr d.alpha d.beta) })
      else p)
    ({ s with views := views1 }, r2)
  else
    let views1 := s.views.map (fun p =>
      if p.1 = vA then (p.1, { p.2 with dims := alistErase p.2.dims col })
      else p)
    let views2 :=
      if (alistKeys s.views).foldr max 0 < vB then
        views1 ++
          [(vB,
            (auxRes.1.getD (dr.1 - s.views.length)
              (0, (⟨1, [], [], []⟩ : ViewState))).2)]
      else views1
    let views3 := views2.map (fun p =>
      if p.1 = vB then
        (p.1, { p.2 with
          dims := alistInsert p.2.dims col
            (bulkDim s.X col p.2.Zr d.alpha d.beta) })
      else p)
    let crp1 := crpIncorporate (crpUnincorporate (colCrp s) col) col vB
    let views4 :=
      if (alistGet s.Nv vA).getD 0 == 1 then alistErase views3 vA
      else views3
    ({ s with Zv := crp1.Zr, Nv := crp1.counts, views := views4 }, r2)

/-- `State.transition_dims` with `cols=None, m=1` (state.py lines
712-718): the outputs shuffled by `self.rng.permutation` — one draw
feeding the fixed shuffling function `shuffle` — then
`_gibbs_transition_dim` on each column in the shuffled order. -/
noncomputable def stateTransitionDims (entropy : ℕ) (stream : ℕ → ℕ → ℕ)
    (choiceR : ℕ → List ℝ → List ℕ → ℕ) (shuffle : ℕ → List ℕ → List ℕ)
    (auxAlpha : ℕ → ℚ) (crpSim : ℕ → ℚ → List (Nat × Nat) → ℕ)
    (s : StateModel) (r : Rng) : StateModel × Rng :=
  let dsh := rngNext stream r
  (shuffle dsh.1 s.outputs).foldl
    (fun acc c =>
      gibbsTransitionDim entropy stream choiceR auxAlpha crpSim acc.1 c
        acc.2)
    (s, dsh.2)

/-- The kernel names of `State.transition`'s dispatch table (state.py
lines 644-659), in the table's order. -/
inductive KernelName where
  | alpha
  | view_alphas
  | column_params
  | column_hypers
  | rows
  | columns
deriving DecidableEq

/-- One kernel application of `State.transition` (state.py lines 635-668):
the lookup and call of the named kernel. -/
noncomputable def applyKernel (entropy : ℕ) (stream : ℕ → ℕ → ℕ)
    (choice : ℕ → List ℚ → List ℕ → ℕ) (choiceR : ℕ → List ℝ → List ℕ → ℕ)
    (shuffle : ℕ → List ℕ → List ℕ)
    (crpAT : ℕ → ℚ → List (Nat × Nat) → ℚ) (dimHT : ℕ → DimState → ℚ × ℚ)
    (auxAlpha : ℕ → ℚ) (crpSim : ℕ → ℚ → List (Nat × Nat) → ℕ)
    (k : KernelName) (s : StateModel) (r : Rng) : StateModel × Rng :=
  match k with
  | .alpha => stateTransitionCrpAlpha stream crpAT s r
  | .view_alphas => stateTransitionViewAlphas stream crpAT s r
  | .column_params => stateTransitionDimParams s r
  | .column_hypers => stateTransitionDimHypers stream dimHT s r
  | .rows => stateTransitionViewRows entropy stream choice shuffle s r
  | .columns =>
      stateTransitionDims entropy stream choiceR shuffle auxAlpha crpSim s r

/-- One pass of `_transition_generic`'s kernel loop (state.py lines
774-812), recording the state after every kernel application. -/
noncomputable def transitionPass (entropy : ℕ) (stream : ℕ → ℕ → ℕ)
    (choice : ℕ → List ℚ → List ℕ → ℕ) (choiceR : ℕ → List ℝ → List ℕ → ℕ)
    (shuffle : ℕ → List ℕ → List ℕ)
    (crpAT : ℕ → ℚ → List (Nat × Nat) → ℚ) (dimHT : ℕ → DimState → ℚ × ℚ)
    (auxAlpha : ℕ → ℚ) (crpSim : ℕ → ℚ → List (Nat × Nat) → ℕ)
    (ks : List KernelName) (s : StateModel) (r : Rng) :
    List StateModel × (StateModel × Rng) :=
  match ks with
  | [] => ([], (s, r))
  | k :: t =>
      let sr := applyKernel entropy stream choice choiceR shuffle crpAT
        dimHT auxAlpha crpSim k s r
      let rest := transitionPass entropy stream choice choiceR shuffle
        crpAT dimHT auxAlpha crpSim t sr.1 sr.2
      (sr.1 :: rest.1, rest.2)

/-- `State.transition` over a kernel list for `N` sweeps
(`_transition_generic` with `S=None` runs `N` full passes over the kernel
list), recording the state after every kernel application. -/
noncomputable def stateTransitionRun (entropy : ℕ) (stream : ℕ → ℕ → ℕ)
    (choice : ℕ → List ℚ → List ℕ → ℕ) (choiceR : ℕ → List ℝ → List ℕ → ℕ)
    (shuffle : ℕ → List ℕ → List ℕ)
    (crpAT : ℕ → ℚ → List (Nat × Nat) → ℚ) (dimHT : ℕ → DimState → ℚ × ℚ)
    (auxAlpha : ℕ → ℚ) (crpSim : ℕ → ℚ → List (Nat × Nat) → ℕ)
    (ks : List KernelName) (N : ℕ) (s : StateModel) (r : Rng) :
    List StateModel × (StateModel × Rng) :=
  match N with
  | 0 => ([], (s, r))
  | n + 1 =>
      let p1 := transitionPass entropy stream choice choiceR shuffle crpAT
        dimHT auxAlpha crpSim ks s r
      let rest := stateTransitionRun entropy stream choice choiceR shuffle
        crpAT dimHT auxAlpha crpSim ks n p1.2.1 p1.2.2
      (p1.1 ++ rest.1, rest.2)

/-- When a generator is supplied to `log_pflip`, the ambient global
entropy is never consulted (general.py line 103 is the only fallback). -/
theorem logPflip_rng {α : Type} (e1 e2 : ℕ) (stream : ℕ → ℕ → ℕ)
    (choice : ℕ → List α → List ℕ → ℕ) (p : List α) (K : List ℕ)
    (r : Rng) :
    logPflip e1 stream choice p K (some r) =
      logPflip e2 stream choice p K (some r) := rfl

/-- The Gibbs row transition draws only from the view's generator. -/
theorem gibbsTransitionRowR_entropy (e1 e2 : ℕ) (stream : ℕ → ℕ → ℕ)
    (choice : ℕ → List ℚ → List ℕ → ℕ) (X : Dataset) (v : ViewState)
    (rowid : ℕ) (r : Rng) :
    gibbsTransitionRowR e1 stream choice X v rowid r =
      gibbsTransitionRowR e2 stream choice X v rowid r := by
  simp only [gibbsTransitionRowR]
  rw [logPflip_rng e1 e2]

/-- `View.transition_rows` draws only from the view's generator. -/
theorem viewTransitionRows_entropy (e1 e2 : ℕ) (stream : ℕ → ℕ → ℕ)
    (choice : ℕ → List ℚ → List ℕ → ℕ) (shuffle : ℕ → List ℕ → List ℕ)
    (X : Dataset) (v : ViewState) (r : Rng) :
    viewTransitionRows e1 stream choice shuffle X v r =
      viewTransitionRows e2 stream choice shuffle X v r := by
  simp only [viewTransitionRows]
  exact List.foldl_ext _ _ _
    (fun acc b _ =>
      gibbsTransitionRowR_entropy e1 e2 stream choice X acc.1 b acc.2)

/-- The rows kernel draws only from the state's generator. -/
theorem stateTransitionViewRows_entropy (e1 e2 : ℕ)
    (stream : ℕ → ℕ → ℕ) (choice : ℕ → List ℚ → List ℕ → ℕ)
    (shuffle : ℕ → List ℕ → List ℕ) (s : StateModel) (r : Rng) :
    stateTransitionViewRows e1 stream choice shuffle s r =
      stateTransitionViewRows e2 stream choice shuffle s r := by
  simp only [stateTransitionViewRows]
  split
  · rfl
  · have h :
        s.views.foldl
          (fun acc p =>
            (acc.1 ++
              [(p.1,
                (viewTransitionRows e1 stream choice shuffle s.X p.2
                  acc.2).1)],
              (viewTransitionRows e1 stream choice shuffle s.X p.2
                acc.2).2))
          ([], r) =
        s.views.foldl
          (fun acc p =>
            (acc.1 ++
              [(p.1,
                (viewTransitionRows e2 stream choice shuffle s.X p.2
                  acc.2).1)],
              (viewTransitionRows e2 stream choice shuffle s.X p.2
                acc.2).2))
          ([], r) :=
      List.foldl_ext _ _ _ (fun acc p _ => by
        rw [viewTransitionRows_entropy e1 e2])
    rw [h]

/-- The per-column Gibbs view reassignment draws only from the state's
generator (the categorical view draw at state.py line 994 and the
auxiliary view constructors at line 967 all receive `self.rng`). -/
theorem gibbsTransitionDim_entropy (e1 e2 : ℕ) (stream : ℕ → ℕ → ℕ)
    (choiceR : ℕ → List ℝ → List ℕ → ℕ) (auxAlpha : ℕ → ℚ)
    (crpSim : ℕ → ℚ → List (Nat × Nat) → ℕ) (s : StateModel) (col : ℕ)
    (r : Rng) :
    gibbsTransitionDim e1 stream choiceR auxAlpha crpSim s col r =
      gibbsTransitionDim e2 stream choiceR auxAlpha crpSim s col r := by
  simp only [gibbsTransitionDim]
  rw [logPflip_rng e1 e2]

/-- The columns kernel draws only from the state's generator. -/
theorem stateTransitionDims_entropy (e1 e2 : ℕ) (stream : ℕ → ℕ → ℕ)
    (choiceR : ℕ → List ℝ → List ℕ → ℕ) (shuffle : ℕ → List ℕ → List ℕ)
    (auxAlpha : ℕ → ℚ) (crpSim : ℕ → ℚ → List (Nat × Nat) → ℕ)
    (s : StateModel) (r : Rng) :
    stateTransitionDims e1 stream choiceR shuffle auxAlpha crpSim s r =
      stateTransitionDims e2 stream choiceR shuffle auxAlpha crpSim s r := by
  simp only [stateTransitionDims]
  exact List.foldl_ext _ _ _
    (fun acc c _ =>
      gibbsTransitionDim_entropy e1 e2 stream choiceR auxAlpha crpSim
        acc.1 c acc.2)

/-- Every kernel of the dispatch table draws only from the state's
generator. -/
theorem applyKernel_entropy (e1 e2 : ℕ) (stream : ℕ → ℕ → ℕ)
    (choice : ℕ → List ℚ → List ℕ → ℕ) (choiceR : ℕ → List ℝ → List ℕ → ℕ)
    (shuffle : ℕ → List ℕ → List ℕ)
    (crpAT : ℕ → ℚ → List (Nat × Nat) → ℚ) (dimHT : ℕ → DimState → ℚ × ℚ)
    (auxAlpha : ℕ → ℚ) (crpSim : ℕ → ℚ → List (Nat × Nat) → ℕ)
    (k : KernelName) (s : StateModel) (r : Rng) :
    applyKernel e1 stream choice choiceR shuffle crpAT dimHT auxAlpha
        crpSim k s r =
      applyKernel e2 stream choice choiceR shuffle crpAT dimHT auxAlpha
        crpSim k s r := by
  cases k
  case alpha => rfl
  case view_alphas => rfl
  case column_params => rfl
  case column_hypers => rfl
  case rows =>
    exact stateTransitionViewRows_entropy e1 e2 stream choice shuffle s r
  case columns =>
    exact stateTransitionDims_entropy e1 e2 stream choiceR shuffle
      auxAlpha crpSim s r

/-- One kernel pass draws only from the state's generator. -/
theorem transitionPass_entropy (e1 e2 : ℕ) (stream : ℕ → ℕ → ℕ)
    (choice : ℕ → List ℚ → List ℕ → ℕ) (choiceR : ℕ → List ℝ → List ℕ → ℕ)
    (shuffle : ℕ → List ℕ → List ℕ)
    (crpAT : ℕ → ℚ → List (Nat × Nat) → ℚ) (dimHT : ℕ → DimState → ℚ × ℚ)
    (auxAlpha : ℕ → ℚ) (crpSim : ℕ → ℚ → List (Nat × Nat) → ℕ)
    (ks : List KernelName) :
    ∀ (s : StateModel) (r : Rng),
      transitionPass e1 stream choice choiceR shuffle crpAT dimHT auxAlpha
          crpSim ks s r =
        transitionPass e2 stream choice choiceR shuffle crpAT dimHT
          auxAlpha crpSim ks s r := by
  induction ks with
  | nil => intro s r; rfl
  | cons k t ih =>
      intro s r
      simp only [transitionPass]
      rw [applyKernel_entropy e1 e2]
      rw [ih]

/-- The whole transition run draws only from the state's generator. -/
theorem stateTransitionRun_entropy (e1 e2 : ℕ) (stream : ℕ → ℕ → ℕ)
    (choice : ℕ → List ℚ → List ℕ → ℕ) (choiceR : ℕ → List ℝ → List ℕ → ℕ)
    (shuffle : ℕ → List ℕ → List ℕ)
    (crpAT : ℕ → ℚ → List (Nat × Nat) → ℚ) (dimHT : ℕ → DimState → ℚ × ℚ)
    (auxAlpha : ℕ → ℚ) (crpSim : ℕ → ℚ → List (Nat × Nat) → ℕ)
    (ks : List KernelName) (N : ℕ) :
    ∀ (s : StateModel) (r : Rng),
      stateTransitionRun e1 stream choice choiceR shuffle crpAT dimHT
          auxAlpha crpSim ks N s r =
        stateTransitionRun e2 stream choice choiceR shuffle crpAT dimHT
          auxAlpha crpSim ks N s r := by
  induction N with
  | zero => intro s r; rfl
  | succ n ih =>
      intro s r
      simp only [stateTransitionRun]
      rw [transitionPass_entropy e1 e2]
      rw [ih]

/-- **Claim C9.** Two runs over the same initial State whose generators
`gen_rng` initializes from the same seed, applying the same sequence of
transition kernels (any list over the full dispatch table, including the
column-reassignment kernel) for the same number of sweeps, produce
identical column partitions, identical per-view row partitions and
identical `logpdf_score` values after every kernel application — whatever
values the ambient global generator (consulted only by a seedless
`gen_rng`) supplies in either run: all randomness of the transition flows
through the explicit caller-supplied generator. -/
theorem state_transition_determinism (stream : ℕ → ℕ → ℕ)
    (choice : ℕ → List ℚ → List ℕ → ℕ) (choiceR : ℕ → List ℝ → List ℕ → ℕ)
    (shuffle : ℕ → List ℕ → List ℕ)
    (crpAT : ℕ → ℚ → List (Nat × Nat) → ℚ) (dimHT : ℕ → DimState → ℚ × ℚ)
    (auxAlpha : ℕ → ℚ) (crpSim : ℕ → ℚ → List (Nat × Nat) → ℕ)
    (s : StateModel) (ks : List KernelName)
    (N seed entropy1 entropy2 : ℕ) :
    ((stateTransitionRun entropy1 stream choice choiceR shuffle crpAT
        dimHT auxAlpha crpSim ks N s
        (genRng entropy1 (some seed))).1.map (fun t => t.Zv) =
      (stateTransitionRun entropy2 stream choice choiceR shuffle crpAT
        dimHT auxAlpha crpSim ks N s
        (genRng entropy2 (some seed))).1.map (fun t => t.Zv)) ∧
    ((stateTransitionRun entropy1 stream choice choiceR shuffle crpAT
        dimHT auxAlpha crpSim ks N s
        (genRng entropy1 (some seed))).1.map
          (fun t => t.views.map (fun p => (p.1, p.2.Zr))) =
      (stateTransitionRun entropy2 stream choice choiceR shuffle crpAT
        dimHT auxAlpha crpSim ks N s
        (genRng entropy2 (some seed))).1.map
          (fun t => t.views.map (fun p => (p.1, p.2.Zr)))) ∧
    ((stateTransitionRun entropy1 stream choice choiceR shuffle crpAT
        dimHT auxAlpha crpSim ks N s
        (genRng entropy1 (some seed))).1.map stateScore =
      (stateTransitionRun entropy2 stream choice choiceR shuffle crpAT
        dimHT auxAlpha crpSim ks N s
        (genRng entropy2 (some seed))).1.map stateScore) := by
  have hg : genRng entropy2 (some seed) = genRng entropy1 (some seed) := rfl
  rw [hg]
  rw [stateTransitionRun_entropy entropy1 entropy2 stream choice choiceR
    shuffle crpAT dimHT auxAlpha crpSim ks N s
    (genRng entropy1 (some seed))]
  exact ⟨rfl, rfl, rfl⟩

end Cgpm
